import Mathlib

/-!
# MaterialBrushChanger: the INI block rewriter and the preset loader

A shallow embedding of `src/modules/file_manager.go` and of the converter in
`src/modules/github_parser.go`.

Go strings are modelled as `List Char` (the decoded text: every string the
program handles comes out of a Windows-1251 decoder or a JSON decoder, hence is
valid UTF-8, and `strings.Split`, `strings.TrimSpace`, `strings.HasPrefix`,
`strings.Replace`, string equality and the regular expression act on it code
point by code point).  Go maps are modelled as association lists: an
assignment `m[k] = v` conses the pair, a lookup finds the first pair with the
key.  Map iteration order is never observed by the embedded code.

The rewriter's output is modelled as the sequence of its `writer.Write` calls.
The writer is the Windows-1251 encoder of golang.org/x/text: a write is cut at
the first character outside the repertoire, and the code ignores the error, so
the bytes of the file are those of `fileBytes`.  Input is read through the
Windows-1251 decoder and a `bufio.Scanner`, which yields lines up to the first
line of `MaxScanTokenSize` bytes or more.
-/

namespace MaterialBrushChanger

/-! ## Strings and maps -/

/-- A Go string, as its sequence of code points. -/
abbrev Str := List Char

/-- A Go `map[string]string`. -/
abbrev StrMap := List (Str × Str)

/-- Lookup `m[k]` of a Go map, with the "comma ok" result as an `Option`. -/
def mapGet {β : Type} (m : List (Str × β)) (k : Str) : Option β :=
  match m with
  | [] => none
  | (k', v) :: rest => if k' = k then some v else mapGet rest k

/-- Assignment `m[k] = v` of a Go map. -/
def mapSet {β : Type} (m : List (Str × β)) (k : Str) (v : β) : List (Str × β) :=
  (k, v) :: m

/-- Go's `len(m)` of a map: the number of distinct keys. -/
def mapLen {β : Type} (m : List (Str × β)) : Nat :=
  (m.map Prod.fst).dedup.length

/-- The line terminator `"\r\n"` every write appends. -/
def crlf : Str := ['\r', '\n']

/-- Go's `unicode.IsSpace`, the predicate `strings.TrimSpace` trims by. -/
def isSpace (c : Char) : Bool :=
  let n := c.toNat
  (9 ≤ n && n ≤ 13) || n = 32 || n = 0x85 || n = 0xA0 || n = 0x1680 ||
  (0x2000 ≤ n && n ≤ 0x200A) || n = 0x2028 || n = 0x2029 || n = 0x202F ||
  n = 0x205F || n = 0x3000

/-- Go's `strings.TrimSpace`. -/
def TrimSpace (s : Str) : Str :=
  ((s.dropWhile isSpace).reverse.dropWhile isSpace).reverse

/-- Go's `strings.Split(s, "=")`: the pieces of `s` between the `=` signs. -/
def Split : Str → List Str
  | [] => [[]]
  | c :: cs =>
    if c = '=' then [] :: Split cs
    else match Split cs with
      | [] => [[c]]
      | p :: ps => (c :: p) :: ps

/-- The key and value the code stores for a line (lines 104-108 and 208-212):
`strings.Split(line, "=")` has two parts, both trimmed. -/
def keyValueOf (line : Str) : Option (Str × Str) :=
  match Split line with
  | [p0, p1] => some (TrimSpace p0, TrimSpace p1)
  | _ => none

/-- The values map after the assignments the lines of `body` cause, starting
from `vals`. -/
def collectValues (vals : StrMap) (body : List Str) : StrMap :=
  body.foldl (fun v line =>
    match keyValueOf line with
    | some (key, value) => mapSet v key value
    | none => v) vals

/-! ## The block rewriter -/

/-- The struct `PresetBlock` of file_manager.go. -/
structure PresetBlock where
  Header : Str
  Values : StrMap
deriving DecidableEq, Repr

/-- The package variable `keysOrder` of file_manager.go. -/
def keysOrder : List Str :=
  [ "VerticalMask".toList,
    "VerticalUVMult".toList,
    "VerticalUVScaleMask".toList,
    "HeightLowLimit".toList,
    "Probability".toList,
    "PresetEnabled".toList,
    "HighLimitMask".toList,
    "HorizontalMask".toList,
    "SelectedHorizontalTexture".toList,
    "SlopeThresholdMask".toList,
    "SelectedVerticalTexture".toList,
    "LowLimitMask".toList,
    "SlopeThresholdAction".toList,
    "SlopeThresholdIndex".toList,
    "HeightHighLimit".toList ]

/-- The literal word of the regular expression `MaterialPairSlot(\d+)`. -/
def slotWord : Str := "MaterialPairSlot".toList

/-- The regular expression `MaterialPairSlot(\d+)` anchored at the start of `s`:
the greedy digit run captured by the group, when the word and at least one
ASCII digit are there. -/
def matchSlotAt (s : Str) : Option Str :=
  if slotWord.isPrefixOf s then
    let ds := (s.drop slotWord.length).takeWhile Char.isDigit
    if ds = [] then none else some ds
  else none

/-- The submatch `re.FindStringSubmatch(line)[1]` of the leftmost match of
`MaterialPairSlot(\d+)` in `line`; `none` when the result has no two elements
(no match). -/
def FindStringSubmatch : Str → Option Str
  | [] => none
  | c :: cs =>
    match matchSlotAt (c :: cs) with
    | some ds => some ds
    | none => FindStringSubmatch cs

/-- The `fmt.Sprintf` of line 80: the expected block header for a project name
and a slot number. -/
def expectedBlockHeader (projectName slotNumber : Str) : Str :=
  "[Session/dlc\\".toList ++ projectName ++ "\\data\\levels\\".toList ++ projectName ++
    "\\".toList ++ projectName ++ ".w2w/Tools/TerrainEdit/MaterialPairSlot".toList ++
    slotNumber ++ "]".toList

/-- The test of lines 75-83: the line has a slot match and equals the expected
header built from the project name and the captured slot number. -/
def isBlockStart (projectName line : Str) : Bool :=
  match FindStringSubmatch line with
  | some slotNumber => decide (line = expectedBlockHeader projectName slotNumber)
  | none => false

/-- The function `writeBlockToFile`: the arguments of its `writer.Write` calls
in order, the header line and then `key=value` for every key of `keysOrder`
the block has, each with `\r\n` (both branches on the index issue the same
write). -/
def writeBlockToFile (block : PresetBlock) : List Str :=
  (block.Header ++ crlf) ::
    keysOrder.filterMap (fun key =>
      match mapGet block.Values key with
      | some value => some (key ++ ['='] ++ value ++ crlf)
      | none => none)

/-- The replace-or-echo that closes a block (lines 86-93, 112-119, 143-150):
the writes for the preset's block under the open block's header when there is
one, for the open block itself otherwise. -/
def flushBlock (presetBlocks : List (Str × PresetBlock)) (currentBlock : PresetBlock) :
    List Str :=
  match mapGet presetBlocks currentBlock.Header with
  | some newBlock => writeBlockToFile newBlock
  | none => writeBlockToFile currentBlock

/-- The loop variables `inBlock` and `currentBlock` of ReplaceBlocksInIni. -/
structure ScanState where
  inBlock : Bool
  currentBlock : PresetBlock
deriving DecidableEq, Repr

/-- The state before the first line: `inBlock := false` and the zero
`PresetBlock`. -/
def ScanState.init : ScanState := ⟨false, ⟨[], []⟩⟩

/-- One iteration of the loop of lines 70-128: the next state and the
arguments of the `writer.Write` calls issued while processing `line`. -/
def scanStep (presetBlocks : List (Str × PresetBlock)) (projectName : Str)
    (st : ScanState) (line : Str) : ScanState × List Str :=
  match FindStringSubmatch line with
  | some slotNumber =>
    if line = expectedBlockHeader projectName slotNumber then
      ((⟨true, ⟨line, []⟩⟩ : ScanState),
        if st.inBlock then flushBlock presetBlocks st.currentBlock else [])
    else if st.inBlock then
      match Split line with
      | [p0, p1] =>
        let key := TrimSpace p0
        let value := TrimSpace p1
        let cur : PresetBlock := ⟨st.currentBlock.Header, mapSet st.currentBlock.Values key value⟩
        if key = "HeightHighLimit".toList then
          ((⟨false, cur⟩ : ScanState), flushBlock presetBlocks cur)
        else ((⟨true, cur⟩ : ScanState), [])
      | _ => (st, [])
    else (st, [line ++ crlf])
  | none => (st, [])

/-- The whole loop over the scanned lines, from a given state: the final state
and the writes issued, in order. -/
def scanLoop (presetBlocks : List (Str × PresetBlock)) (projectName : Str) :
    ScanState → List Str → ScanState × List Str
  | st, [] => (st, [])
  | st, line :: rest =>
    let r := scanStep presetBlocks projectName st line
    let r2 := scanLoop presetBlocks projectName r.1 rest
    (r2.1, r.2 ++ r2.2)

/-- The flush after the loop (lines 142-151). -/
def finalFlush (presetBlocks : List (Str × PresetBlock)) (st : ScanState) : List Str :=
  if st.inBlock then flushBlock presetBlocks st.currentBlock else []

/-- The writes ReplaceBlocksInIni issues to the writer of the temporary file
for a preset table, a project name and the lines of the session file (lines
67-151), in order. -/
def rewriteLines (presetBlocks : List (Str × PresetBlock)) (projectName : Str)
    (doc : List Str) : List Str :=
  let r := scanLoop presetBlocks projectName ScanState.init doc
  r.2 ++ finalFlush presetBlocks r.1

/-- Every write issued when the loop starts in state `st` and reads `doc`: the
writes of the loop followed by those of the flush after it. -/
def runFrom (presetBlocks : List (Str × PresetBlock)) (projectName : Str) (st : ScanState)
    (doc : List Str) : List Str :=
  (scanLoop presetBlocks projectName st doc).2 ++
    finalFlush presetBlocks (scanLoop presetBlocks projectName st doc).1

/-! ## The preset loader -/

/-- The test `strings.HasPrefix(line, "[")` of ParsePresetBlocks. -/
def isHeaderLine (line : Str) : Bool := ['['].isPrefixOf line

/-- The loop of ParsePresetBlocks (lines 191-215) over the scanned lines: the
table, `inBlock` and `currentBlock` after the lines. -/
def parseLoop : List (Str × PresetBlock) → Bool → PresetBlock → List Str →
    List (Str × PresetBlock) × Bool × PresetBlock
  | blocks, inBlock, cur, [] => (blocks, inBlock, cur)
  | blocks, inBlock, cur, line :: rest =>
    if ['['].isPrefixOf line then
      parseLoop (if inBlock then mapSet blocks cur.Header cur else blocks) true ⟨line, []⟩ rest
    else if inBlock then
      match Split line with
      | [p0, p1] =>
        parseLoop blocks inBlock ⟨cur.Header, mapSet cur.Values (TrimSpace p0) (TrimSpace p1)⟩ rest
      | _ => parseLoop blocks inBlock cur rest
    else parseLoop blocks inBlock cur rest

/-- The last block is added after the loop (lines 217-220). -/
def finishParse (r : List (Str × PresetBlock) × Bool × PresetBlock) : List (Str × PresetBlock) :=
  if r.2.1 then mapSet r.1 r.2.2.Header r.2.2 else r.1

/-- The function `ParsePresetBlocks` on the lines of the preset file. -/
def ParsePresetBlocks (lines : List Str) : List (Str × PresetBlock) :=
  finishParse (parseLoop [] false ⟨[], []⟩ lines)

/-- The table ParsePresetBlocks builds when the preset file cannot be opened:
the empty table (lines 177-181). -/
def emptyPresetTable : List (Str × PresetBlock) := []

/-! ## The scanner -/

/-- The helper `dropCR` of `bufio.ScanLines`: one trailing `\r` is removed. -/
def dropCR (s : Str) : Str :=
  match s.reverse with
  | '\r' :: r => r.reverse
  | _ => s

/-- The raw tokens of `bufio.ScanLines`: the text cut at every `\n`, a final
piece without `\n` being a token when it is not empty. -/
def splitLines : Str → List Str
  | [] => []
  | c :: cs =>
    if c = '\n' then [] :: splitLines cs
    else match splitLines cs with
      | [] => [[c]]
      | l :: ls => (c :: l) :: ls

/-- The lines of a text: the text cut at every `\n`, one trailing `\r` removed
from every piece (what `bufio.ScanLines` makes of a text, without the
scanner's limit on the length of a line). -/
def textLines (text : Str) : List Str :=
  (splitLines text).map dropCR

/-- The bytes of a Go string: its UTF-8 encoding (`[]byte(finalOutput)`). -/
def utf8Bytes (s : Str) : List UInt8 :=
  (s.map String.utf8EncodeChar).flatten

/-- The number of bytes of a Go string. -/
def utf8Len (s : Str) : Nat := (utf8Bytes s).length

/-- The constant `bufio.MaxScanTokenSize`, the size the scanner's buffer never
exceeds. -/
def maxScanTokenSize : Nat := 64 * 1024

/-- The loop `for scanner.Scan()` over the raw lines of the input: a raw line
(with its `\r`, without its `\n`) of `MaxScanTokenSize` bytes or more fills the
buffer before a token is found, the scanner stops there with `ErrTooLong` and
yields nothing more.  The result is the lines yielded and whether
`scanner.Err()` is non-nil. -/
def scanTokens : List Str → List Str × Bool
  | [] => ([], false)
  | raw :: rest =>
    if maxScanTokenSize ≤ utf8Len raw then ([], true)
    else (dropCR raw :: (scanTokens rest).1, (scanTokens rest).2)

/-- The lines a `bufio.Scanner` with the default buffer yields for a text
(`scanner.Text()` of every `scanner.Scan()`), and whether it stopped with an
error. -/
def ScanLines (text : Str) : List Str × Bool :=
  scanTokens (splitLines text)

/-! ## The Windows-1251 reader and writer -/

/-- The characters of the bytes 0x80 to 0xBF in the Windows-1251 table of
golang.org/x/text/encoding/charmap, as code points.  The byte 0x98 has no
character and decodes to U+FFFD. -/
def windows1251High : List Nat :=
  [
    0x0402, 0x0403, 0x201A, 0x0453, 0x201E, 0x2026, 0x2020, 0x2021,
    0x20AC, 0x2030, 0x0409, 0x2039, 0x040A, 0x040C, 0x040B, 0x040F,
    0x0452, 0x2018, 0x2019, 0x201C, 0x201D, 0x2022, 0x2013, 0x2014,
    0xFFFD, 0x2122, 0x0459, 0x203A, 0x045A, 0x045C, 0x045B, 0x045F,
    0x00A0, 0x040E, 0x045E, 0x0408, 0x00A4, 0x0490, 0x00A6, 0x00A7,
    0x0401, 0x00A9, 0x0404, 0x00AB, 0x00AC, 0x00AD, 0x00AE, 0x0407,
    0x00B0, 0x00B1, 0x0406, 0x0456, 0x0491, 0x00B5, 0x00B6, 0x00B7,
    0x0451, 0x2116, 0x0454, 0x00BB, 0x0458, 0x0405, 0x0455, 0x0457 ]

/-- The character U+FFFD (`utf8.RuneError`). -/
def replacementChar : Char := Char.ofNat 0xFFFD

/-- The character the Windows-1251 decoder gives a byte: the ASCII character
below 0x80, the table's character from 0x80 to 0xBF, and the Cyrillic letters
U+0410 to U+044F from 0xC0 to 0xFF. -/
def decodeByte (b : UInt8) : Char :=
  if b.toNat < 128 then Char.ofNat b.toNat
  else if b.toNat < 192 then Char.ofNat (windows1251High.getD (b.toNat - 128) 0xFFFD)
  else Char.ofNat (0x0410 + (b.toNat - 192))

/-- The reader `transform.NewReader(file, charmap.Windows1251.NewDecoder())`:
every byte becomes one character. -/
def decodeWindows1251 (bytes : List UInt8) : Str :=
  bytes.map decodeByte

/-- The byte the Windows-1251 encoder gives a character: the character itself
below U+0080, otherwise the byte from 0x80 whose character it is; none for
U+FFFD and for every character outside the table (the encoder reports a
repertoire error). -/
def encodeRune (c : Char) : Option UInt8 :=
  if c.toNat < 128 then some (UInt8.ofNat c.toNat)
  else if c = replacementChar then none
  else ((List.range 128).find? (fun i => decodeByte (UInt8.ofNat (128 + i)) == c)).map
    (fun i => UInt8.ofNat (128 + i))

/-- One call `writer.Write([]byte(s))` on the writer
`transform.NewWriter(tempFile, charmap.Windows1251.NewEncoder())` of line 63:
the bytes that reach the file.  The encoder stops at the first character it
cannot encode; the bytes before it are written, the rest of the string is
dropped, and the error the call returns is ignored by the code. -/
def encodeWrite : Str → List UInt8
  | [] => []
  | c :: cs =>
    match encodeRune c with
    | some b => b :: encodeWrite cs
    | none => []

/-- The content of the temporary file after a sequence of writes. -/
def fileBytes (writes : List Str) : List UInt8 :=
  (writes.map encodeWrite).flatten

/-! ## The converter -/

/-- Go's `strings.Replace(text, [c, c], [c], -1)`: every non-overlapping pair
`cc`, found from the left, becomes one `c`. -/
def collapsePairs (c : Char) : Str → Str
  | [] => []
  | [a] => [a]
  | a :: b :: rest =>
    if a = c ∧ b = c then c :: collapsePairs c rest
    else a :: collapsePairs c (b :: rest)

/-- The function `replaceDoubleBrackets` of github_parser.go. -/
def replaceDoubleBrackets (text : Str) : Str :=
  collapsePairs ']' (collapsePairs '[' text)

/-- The decimal rendering `fmt.Sprintf("%d", i)` of a loop index. -/
def itoa (i : Nat) : Str := Nat.toDigits 10 i

/-- The text one pass of the loop body of ConvertJSONToTxt (lines 134-149) adds
to the builder for the entry `block`; a missing entry is Go's nil map, in which
no key exists. -/
def convertEntry (block : Option StrMap) : Str :=
  let get : Str → Option Str := fun k =>
    match block with
    | some m => mapGet m k
    | none => none
  (match get "path".toList with
    | some path => "[".toList ++ replaceDoubleBrackets path ++ "]\n".toList
    | none => []) ++
  (keysOrder.filterMap (fun key =>
    match get key with
    | some val => some (key ++ ['='] ++ val ++ ['\n'])
    | none => none)).flatten

/-- The function `ConvertJSONToTxt`: the text (`finalOutput`) it writes to the
output file, for a JSON object whose entries have string fields. -/
def ConvertJSONToTxt (jsonData : List (Str × StrMap)) : Str :=
  replaceDoubleBrackets
    (((List.range (mapLen jsonData)).map
      (fun i => convertEntry (mapGet jsonData (itoa (i + 1))))).flatten)

/-- The lines the loop body of ConvertJSONToTxt writes for an entry, before the
final collapse of doubled brackets over the whole text. -/
def rawEntryLines (e : StrMap) : List Str :=
  (match mapGet e "path".toList with
    | some path => ["[".toList ++ replaceDoubleBrackets path ++ "]".toList]
    | none => []) ++
  keysOrder.filterMap (fun key => (mapGet e key).map (fun v => key ++ ['='] ++ v))

/-! ## The run on a file system -/

/-- A file system: the content of the file at a path, when there is one. -/
abbrev FileSystem := Str → Option (List UInt8)

/-- The file at `path` is created or overwritten with `content`. -/
def FileSystem.write (fs : FileSystem) (path : Str) (content : List UInt8) : FileSystem :=
  fun q => if q = path then some content else fs q

/-- The call `os.Remove(path)` when it succeeds. -/
def FileSystem.remove (fs : FileSystem) (path : Str) : FileSystem :=
  fun q => if q = path then none else fs q

/-- The call `os.Rename(old, new)` when it succeeds. -/
def FileSystem.rename (fs : FileSystem) (old new : Str) : FileSystem :=
  fun q => if q = new then fs old else if q = old then none else fs q

/-- The failures the environment can inject into a run of ReplaceBlocksInIni:
one flag per system call whose error the function checks, and for the scanner
the number of lines it yields before a read error makes `scanner.Err()`
non-nil. -/
structure Faults where
  openSession : Bool
  createTemp : Bool
  scanErrorAfter : Option Nat
  removeOriginal : Bool
  renameTemp : Bool

/-- A run in which no system call fails. -/
def noFaults : Faults := ⟨false, false, none, false, false⟩

/-- How a run of ReplaceBlocksInIni ends: the success message of line 169 or
one of the five error returns. -/
inductive Outcome where
  | completed
  | errorOpeningSession
  | errorCreatingTemp
  | errorReadingSession
  | errorRemovingOriginal
  | errorRenamingTemp
deriving DecidableEq, Repr

/-- The function `ParsePresetBlocks` on a path: the empty table when the file
cannot be opened, otherwise the table of the lines the scanner yields for the
decoded file (`scanner.Err()` is never looked at). -/
def ParsePresetBlocksFile (fs : FileSystem) (filePath : Str) : List (Str × PresetBlock) :=
  match fs filePath with
  | none => emptyPresetTable
  | some bytes => ParsePresetBlocks (ScanLines (decodeWindows1251 bytes)).1

/-- The function `ReplaceBlocksInIni` on a file system: how the run ends and
the file system it leaves.  The lines the scanner yields before an error
(an injected read error or a line beyond the token limit) are processed and
their writes reach the temporary file before the error is looked at. -/
def ReplaceBlocksInIni (faults : Faults) (fs : FileSystem)
    (sessionFilePath presetFilePath projectName : Str) : Outcome × FileSystem :=
  let presetBlocks := ParsePresetBlocksFile fs presetFilePath
  match (if faults.openSession then none else fs sessionFilePath) with
  | none => (Outcome.errorOpeningSession, fs)
  | some content =>
    let tempFilePath := sessionFilePath ++ ".tmp".toList
    if faults.createTemp then (Outcome.errorCreatingTemp, fs)
    else
      let fs1 := fs.write tempFilePath []
      let scanned := ScanLines (decodeWindows1251 content)
      let lines :=
        match faults.scanErrorAfter with
        | some k => scanned.1.take k
        | none => scanned.1
      if faults.scanErrorAfter.isSome || scanned.2 then
        (Outcome.errorReadingSession,
          fs1.write tempFilePath
            (fileBytes (scanLoop presetBlocks projectName ScanState.init lines).2))
      else
        let fs2 := fs1.write tempFilePath (fileBytes (rewriteLines presetBlocks projectName lines))
        if faults.removeOriginal ∨ fs2 sessionFilePath = none then
          (Outcome.errorRemovingOriginal, fs2)
        else
          let fs3 := fs2.remove sessionFilePath
          if faults.renameTemp ∨ fs3 tempFilePath = none then
            (Outcome.errorRenamingTemp, fs3)
          else (Outcome.completed, fs3.rename tempFilePath sessionFilePath)

/-! ## Definitions for the statements -/

/-- The pair the specification assigns to a preset line: for a line with
exactly one `=`, the trimmed text left of it and the trimmed text right of it;
nothing for a line with no or several `=`. -/
def specPair (line : Str) : Option (Str × Str) :=
  if line.count '=' = 1 then
    some (TrimSpace (line.takeWhile (fun c => c ≠ '=')),
      TrimSpace ((line.dropWhile (fun c => c ≠ '=')).drop 1))
  else none

/-- The value the specification gives key `k` in a block with the body lines
`body`: that of the last pair with key `k`. -/
def specValue (body : List Str) (k : Str) : Option Str :=
  ((body.filterMap specPair).reverse.find? (fun p => p.1 = k)).map Prod.snd

/-- Every character of `s` is in the repertoire of the Windows-1251 encoder. -/
def encodable (s : Str) : Bool :=
  s.all (fun c => (encodeRune c).isSome)

/-- The Windows-1251 bytes of a text, when every character has one. -/
def encodeText : Str → Option (List UInt8)
  | [] => some []
  | c :: cs =>
    match encodeRune c, encodeText cs with
    | some b, some bs => some (b :: bs)
    | _, _ => none

/-- One write per line, the line followed by `\r\n`. -/
def lineWrites (ls : List Str) : List Str :=
  ls.map (fun l => l ++ crlf)

/-- The text of lines, each followed by `\r\n`. -/
def renderLines (ls : List Str) : Str :=
  (lineWrites ls).flatten

/-- The lines of the text a sequence of writes makes up when every write is
carried out in full. -/
def writtenLines (writes : List Str) : List Str :=
  textLines writes.flatten

/-- The lines the specification gives a written block: the header, then
`key=value` for every KeyOrder key that has a value, in KeyOrder order. -/
def specBlockLines (header : Str) (vals : Str → Option Str) : List Str :=
  header :: keysOrder.filterMap (fun key => (vals key).map (fun v => key ++ ['='] ++ v))

/-- The header line the converter writes for a `path` value: `[path]` with the
doubled brackets collapsed, first in the path (line 139), then in the whole
text (line 154). -/
def headerLineOf (path : Str) : Str :=
  replaceDoubleBrackets ("[".toList ++ replaceDoubleBrackets path ++ "]".toList)

/-- The lines of the preset text for one JSON entry: the header line when the
entry has a `path`, then `key=value` for every KeyOrder key the entry has. -/
def entryLines (e : StrMap) : List Str :=
  (match mapGet e "path".toList with
    | some path => [headerLineOf path]
    | none => []) ++
  keysOrder.filterMap (fun key => (mapGet e key).map (fun v => key ++ ['='] ++ v))

/-- A `path` value that survives the conversion as one header line: ASCII
characters only (the file is written as UTF-8 and read as Windows-1251) and no
line feed. -/
def cleanPath (path : Str) : Bool :=
  path.all (fun c => decide (c.toNat < 128) && decide (c ≠ '\n'))

/-- A field value that survives the conversion and the loading unchanged: ASCII
characters only, no line feed, no `=`, no white space at either end, and no
doubled bracket. -/
def cleanValue (v : Str) : Bool :=
  v.all (fun c => decide (c.toNat < 128) && decide (c ≠ '\n') && decide (c ≠ '=')) &&
    decide (TrimSpace v = v) && decide (replaceDoubleBrackets v = v)

/-- A JSON entry with a clean `path` and clean values for its KeyOrder keys. -/
def cleanFields (e : StrMap) : Bool :=
  (match mapGet e "path".toList with
    | some path => cleanPath path
    | none => false) &&
  keysOrder.all (fun key =>
    match mapGet e key with
    | some v => cleanValue v
    | none => true)

/-- A JSON entry with clean fields whose lines of the preset text are all
shorter than the scanner's token limit of 64 KiB. -/
def cleanEntry (e : StrMap) : Bool :=
  cleanFields e && (entryLines e).all (fun l => decide (l.length < maxScanTokenSize))

/-- A value that a second run reads back from an echoed `key=value` line: no
line feed, no `=`, no white space at either end, and a slot match inside (the
second run parses only lines with a slot match). -/
def echoSafeValue (v : Str) : Bool :=
  decide ('\n' ∉ v) && decide ('=' ∉ v) && decide (TrimSpace v = v) &&
    (FindStringSubmatch v).isSome

/-- An open block of a run without preset entry for it: its header is a
recognised header line without line feed and without entry in the table, and
its values for the KeyOrder keys can be read back. -/
def EchoBlock (presetBlocks : List (Str × PresetBlock)) (projectName : Str)
    (c : PresetBlock) : Prop :=
  isBlockStart projectName c.Header = true ∧ mapGet presetBlocks c.Header = none ∧
    '\n' ∉ c.Header ∧
    ∀ k ∈ keysOrder, ∀ v, mapGet c.Values k = some v → echoSafeValue v = true

/-- An open block of a run whose written lines a second run reads back: its
header is a recognised header line without line feed, and its values for the
KeyOrder keys can be read back. -/
def OpenBlock (projectName : Str) (c : PresetBlock) : Prop :=
  isBlockStart projectName c.Header = true ∧ '\n' ∉ c.Header ∧
    ∀ k ∈ keysOrder, ∀ v, mapGet c.Values k = some v → echoSafeValue v = true

/-- The `key=value` lines of the keys `ks` that have a value in `vals`. -/
def keyLines (vals : StrMap) (ks : List Str) : List Str :=
  ks.filterMap (fun key => (mapGet vals key).map (fun v => key ++ ['='] ++ v))

/-- The values a second run collects from the echoed key lines of `vals`. -/
def readBack (vals : StrMap) : StrMap :=
  collectValues [] (keyLines vals keysOrder)

/-- Whether a second run closes a block written from the preset entry `e` at
its last line: the entry has a `HeightHighLimit` value and the line written
for it holds a slot match and parses as a key line. -/
def rereadCloses (e : PresetBlock) : Bool :=
  match mapGet e.Values "HeightHighLimit".toList with
  | some v =>
    (FindStringSubmatch ("HeightHighLimit".toList ++ '=' :: v)).isSome &&
      (keyValueOf ("HeightHighLimit".toList ++ '=' :: v)).isSome
  | none => false

/-- Whether a block with this header, closed by a terminal key line in the
first run, is still open for a second run that has read what the first run
wrote for it: the block was replaced from a preset entry the second run cannot
close. -/
def staleAfter (presetBlocks : List (Str × PresetBlock)) (header : Str) : Bool :=
  match mapGet presetBlocks header with
  | some e => !rereadCloses e
  | none => false

/-- No line is copied verbatim while `stale` holds: `stale` becomes true
when a terminal key line closes a block for which `staleAfter` holds, and
false at the next recognised header.  The scan follows the loop from the state
`st`. -/
def rereadSafe (presetBlocks : List (Str × PresetBlock)) (projectName : Str) :
    Bool → ScanState → List Str → Bool
  | _, _, [] => true
  | stale, st, line :: rest =>
    let st2 := (scanStep presetBlocks projectName st line).1
    if isBlockStart projectName line then rereadSafe presetBlocks projectName false st2 rest
    else if st.inBlock then
      rereadSafe presetBlocks projectName
        (!st2.inBlock && staleAfter presetBlocks st.currentBlock.Header) st2 rest
    else if (FindStringSubmatch line).isSome then
      !stale && rereadSafe presetBlocks projectName stale st2 rest
    else rereadSafe presetBlocks projectName stale st2 rest

/-! ## Sample inputs -/

/-- The header line of slot 3 of project `Proj1`. -/
def proj1Slot3 : Str := expectedBlockHeader "Proj1".toList "3".toList

/-- A preset file with one block, for slot 3 of project `Proj1`. -/
def proj1Preset : List Str :=
  [proj1Slot3, "VerticalMask=1".toList, "HeightHighLimit=9".toList]

/-- A preset file whose block for slot 3 of `Proj1` has no `HeightHighLimit`. -/
def openEndedPreset : List Str :=
  [proj1Slot3, "VerticalMask=MaterialPairSlot1".toList]

/-- A preset file whose `VerticalMask` value for slot 3 of `Proj1` ends in
U+FFFD. -/
def brokenCharPreset : List Str :=
  [proj1Slot3, "VerticalMask=1".toList ++ [replacementChar], "HeightHighLimit=9".toList]

/-- A session file whose first block has a key line with U+FFFD before the
slot word, and a second block after it. -/
def brokenCharSession : List Str :=
  [proj1Slot3,
    "Probability=".toList ++ [replacementChar] ++ "MaterialPairSlot1".toList,
    expectedBlockHeader "Proj1".toList "4".toList]

/-- A project name that itself holds a slot match. -/
def slotLikeProject : Str := "MaterialPairSlot7".toList

/-- A preset file in which the header `[A]` opens two blocks, with a line before
the first header, a repeated key and a line with two `=`. -/
def samplePreset : List Str :=
  [ "junk=1".toList, "[A]".toList, "k = v".toList, "[B]".toList, "x=1".toList,
    "[A]".toList, " k =z".toList, "a=b=c".toList, "k= w ".toList, "plain".toList ]

/-- A session file with a pass-through line, two blocks of `Proj1`, a key line
that holds a slot match, and the header of another project. -/
def sampleSession : List Str :=
  [ "[General]".toList,
    proj1Slot3,
    "HeightHighLimit=MaterialPairSlot1".toList,
    expectedBlockHeader "Other".toList "4".toList,
    expectedBlockHeader "Proj1".toList "12".toList,
    "Probability=MaterialPairSlot2".toList ]

/-- A session file whose block for slot 3 of `Proj1` is closed by a key line
with a slot match and followed by a line that is written verbatim. -/
def closedBlockSession : List Str :=
  [proj1Slot3, "HeightHighLimit=MaterialPairSlot1".toList, "xMaterialPairSlot5".toList]

/-- A preset JSON source with one entry whose `VerticalMask` value starts with
a blank. -/
def blankValueJson : List (Str × StrMap) :=
  [("1".toList, [("path".toList, "p".toList), ("VerticalMask".toList, " 1".toList)])]

/-- A JSON source with one entry whose `VerticalMask` value is 65536 times the
digit `1`. -/
def longValueJson : List (Str × StrMap) :=
  [("1".toList, [("path".toList, "p".toList),
    ("VerticalMask".toList, List.replicate 65536 '1')])]

/-- A JSON entry whose path carries its own brackets. -/
def sampleEntry1 : StrMap :=
  [("path".toList, "[Slot1]".toList), ("VerticalMask".toList, "1".toList),
    ("HeightHighLimit".toList, "9".toList)]

/-- A JSON entry with a bare path. -/
def sampleEntry2 : StrMap :=
  [("path".toList, "Slot2".toList), ("Probability".toList, "0.5".toList)]

/-- A preset JSON source with the two sample entries under "1" and "2". -/
def sampleJson : List (Str × StrMap) :=
  [("1".toList, sampleEntry1), ("2".toList, sampleEntry2)]

/-- A file system with one file, `user.ini`, holding the bytes of `x\r\n`. -/
def oneFileSystem : FileSystem :=
  fun q => if q = "user.ini".toList then some [120, 13, 10] else none

/-- A file system with two files, the session file `user.ini` and the preset
file `preset.txt`. -/
def twoFileSystem (session preset : List UInt8) : FileSystem :=
  fun q => if q = "user.ini".toList then some session
    else if q = "preset.txt".toList then some preset else none

/-- The bytes of a session file with the header line of slot 3 of `Proj1` and
the key line `Probability=`, byte 0x98, `MaterialPairSlot1`. -/
def undefinedByteSession : List UInt8 :=
  utf8Bytes (proj1Slot3 ++ crlf ++ "Probability=".toList) ++ [0x98] ++
    utf8Bytes ("MaterialPairSlot1".toList ++ crlf)

/-! ## The slot pattern and the expected header -/

theorem matchSlotAt_digits {l s : Str} (h : matchSlotAt l = some s) :
    s ≠ [] ∧ ∀ c ∈ s, c.isDigit = true := by
  unfold matchSlotAt at h
  split at h
  · simp only at h
    split at h
    · cases h
    · rename_i hne
      cases h
      refine ⟨hne, ?_⟩
      intro c hc
      exact (List.mem_takeWhile_imp hc)
  · cases h

theorem findStringSubmatch_digits {l s : Str} (h : FindStringSubmatch l = some s) :
    s ≠ [] ∧ ∀ c ∈ s, c.isDigit = true := by
  induction l with
  | nil => simp [FindStringSubmatch] at h
  | cons c cs ih =>
    unfold FindStringSubmatch at h
    split at h
    · rename_i ds hm
      cases h
      exact matchSlotAt_digits hm
    · exact ih h

theorem matchSlotAt_word (d : Char) (rest : Str) (hd : d.isDigit = true) :
    (matchSlotAt (slotWord ++ d :: rest)).isSome = true := by
  unfold matchSlotAt
  have hp : slotWord.isPrefixOf (slotWord ++ d :: rest) = true := by
    rw [List.isPrefixOf_iff_prefix]; exact List.prefix_append _ _
  simp [hp, List.takeWhile_cons, hd]

theorem findStringSubmatch_isSome_append (pre : Str) {l : Str}
    (h : (matchSlotAt l).isSome = true) : (FindStringSubmatch (pre ++ l)).isSome = true := by
  induction pre with
  | nil =>
    cases l with
    | nil => simp [matchSlotAt, slotWord] at h
    | cons c cs =>
      simp only [List.nil_append, FindStringSubmatch]
      cases hm : matchSlotAt (c :: cs) with
      | none => rw [hm] at h; cases h
      | some ds => rfl
  | cons c cs ih =>
    simp only [List.cons_append, FindStringSubmatch]
    cases hm : matchSlotAt (c :: (cs ++ l)) with
    | none => exact ih
    | some ds => rfl

theorem digits_tail_unique {x y s n : Str} {t u : Char}
    (ht : t.isDigit = false) (hu : u.isDigit = false)
    (hs : ∀ c ∈ s, c.isDigit = true) (hn : ∀ c ∈ n, c.isDigit = true)
    (h : x ++ t :: s = y ++ u :: n) : x = y ∧ s = n := by
  rcases List.append_eq_append_iff.mp h with ⟨a, hy, hts⟩ | ⟨a, hx, hun⟩
  · cases a with
    | nil =>
      simp at hy hts
      refine ⟨hy.symm, hts.2⟩
    | cons c cs =>
      simp only [List.cons_append, List.cons.injEq] at hts
      have : u ∈ s := by rw [hts.2]; simp
      have := hs u this
      rw [hu] at this; cases this
  · cases a with
    | nil =>
      simp at hx hun
      exact ⟨hx, hun.2.symm⟩
    | cons c cs =>
      simp only [List.cons_append, List.cons.injEq] at hun
      have : t ∈ n := by rw [hun.2]; simp
      have := hn t this
      rw [ht] at this; cases this

theorem expectedBlockHeader_inj {p q s n : Str}
    (hs : ∀ c ∈ s, c.isDigit = true) (hn : ∀ c ∈ n, c.isDigit = true)
    (h : expectedBlockHeader p s = expectedBlockHeader q n) : p = q ∧ s = n := by
  unfold expectedBlockHeader at h
  have h1 := List.append_cancel_right h
  have e : ".w2w/Tools/TerrainEdit/MaterialPairSlot".toList
      = ".w2w/Tools/TerrainEdit/MaterialPairSlo".toList ++ ['t'] := by decide
  rw [e] at h1
  simp only [List.append_assoc, List.singleton_append] at h1
  have h2 := List.append_cancel_left h1
  have h3 : (p ++ ("\\data\\levels\\".toList ++ (p ++ ("\\".toList ++ (p ++
      ".w2w/Tools/TerrainEdit/MaterialPairSlo".toList))))) ++ 't' :: s =
      (q ++ ("\\data\\levels\\".toList ++ (q ++ ("\\".toList ++ (q ++
      ".w2w/Tools/TerrainEdit/MaterialPairSlo".toList))))) ++ 't' :: n := by
    simpa only [List.append_assoc] using h2
  obtain ⟨h4, h5⟩ := digits_tail_unique (by decide) (by decide) hs hn h3
  refine ⟨?_, h5⟩
  have hl := congrArg List.length h4
  simp only [List.length_append] at hl
  have hlen : p.length = q.length := by omega
  exact (List.append_inj h4 hlen).1

theorem Split_length (s : Str) : (Split s).length = s.count '=' + 1 := by
  induction s with
  | nil => rfl
  | cons c cs ih =>
    unfold Split
    by_cases hc : c = '='
    · subst hc; simp [ih]
    · simp only [hc, if_false]
      have : List.count '=' (c :: cs) = List.count '=' cs := by
        rw [List.count_cons_of_ne]; exact fun h => hc h.symm
      rw [this]
      cases hsp : Split cs with
      | nil => rw [hsp] at ih; simp at ih
      | cons p ps => rw [hsp] at ih; simpa using ih

theorem count_eq_expectedBlockHeader (q n : Str) (hn : ∀ c ∈ n, c.isDigit = true) :
    (expectedBlockHeader q n).count '=' = 3 * q.count '=' := by
  have h0 : n.count '=' = 0 := by
    rw [List.count_eq_zero]
    intro hmem
    have := hn _ hmem
    revert this; decide
  unfold expectedBlockHeader
  simp only [List.count_append, h0]
  have a1 : List.count '=' "[Session/dlc\\".toList = 0 := by decide
  have a2 : List.count '=' "\\data\\levels\\".toList = 0 := by decide
  have a3 : List.count '=' "\\".toList = 0 := by decide
  have a4 : List.count '=' ".w2w/Tools/TerrainEdit/MaterialPairSlot".toList = 0 := by decide
  have a5 : List.count '=' "]".toList = 0 := by decide
  omega

theorem findStringSubmatch_expectedBlockHeader_isSome (q n : Str) (hne : n ≠ [])
    (hn : ∀ c ∈ n, c.isDigit = true) :
    (FindStringSubmatch (expectedBlockHeader q n)).isSome = true := by
  cases n with
  | nil => exact absurd rfl hne
  | cons d ds =>
    have e : expectedBlockHeader q (d :: ds) =
        ("[Session/dlc\\".toList ++ q ++ "\\data\\levels\\".toList ++ q ++ "\\".toList ++ q ++
          ".w2w/Tools/TerrainEdit/".toList) ++ (slotWord ++ d :: (ds ++ "]".toList)) := by
      have w : ".w2w/Tools/TerrainEdit/MaterialPairSlot".toList
          = ".w2w/Tools/TerrainEdit/".toList ++ slotWord := by decide
      unfold expectedBlockHeader
      rw [w]
      simp only [List.append_assoc, List.cons_append]
    rw [e]
    exact findStringSubmatch_isSome_append _ (matchSlotAt_word d _ (hn d (by simp)))

theorem isBlockStart_eq_true {p line : Str} :
    isBlockStart p line = true ↔
      ∃ s, FindStringSubmatch line = some s ∧ line = expectedBlockHeader p s := by
  unfold isBlockStart
  cases h : FindStringSubmatch line with
  | none => simp
  | some s => simp

/-! ## Where a slot match can lie -/

theorem findStringSubmatch_cons_isSome (c : Char) {l : Str}
    (h : (FindStringSubmatch l).isSome = true) : (FindStringSubmatch (c :: l)).isSome = true := by
  unfold FindStringSubmatch
  cases matchSlotAt (c :: l) with
  | none => exact h
  | some ds => rfl

theorem findStringSubmatch_append_left (pre : Str) {l : Str}
    (h : (FindStringSubmatch l).isSome = true) :
    (FindStringSubmatch (pre ++ l)).isSome = true := by
  induction pre with
  | nil => exact h
  | cons c cs ih => exact findStringSubmatch_cons_isSome c ih

theorem findStringSubmatch_of_matchSlotAt {l : Str} (h : (matchSlotAt l).isSome = true) :
    (FindStringSubmatch l).isSome = true := by
  have := findStringSubmatch_isSome_append [] h
  simpa using this

theorem matchSlotAt_cons_ne (c : Char) (cs : Str) (hc : c ≠ 'M') :
    matchSlotAt (c :: cs) = none := by
  have hb : ('M' == c) = false := by
    rw [beq_eq_false_iff_ne]
    exact fun h => hc h.symm
  simp [matchSlotAt, slotWord, List.isPrefixOf, hb]

theorem findStringSubmatch_cons_ne (c : Char) (cs : Str) (hc : c ≠ 'M') :
    FindStringSubmatch (c :: cs) = FindStringSubmatch cs := by
  rw [FindStringSubmatch, matchSlotAt_cons_ne c cs hc]

theorem matchSlotAt_before_sep {x : Str} {r : Char} (rest : Str) (hr : r ∉ slotWord)
    (hd : r.isDigit = false) (h : (matchSlotAt (x ++ r :: rest)).isSome = true) :
    (matchSlotAt x).isSome = true := by
  unfold matchSlotAt at h
  by_cases hp : slotWord.isPrefixOf (x ++ r :: rest) = true
  · rw [if_pos hp] at h
    have hpre : slotWord <+: x ++ r :: rest := List.isPrefixOf_iff_prefix.mp hp
    rcases List.prefix_or_prefix_of_prefix hpre (List.prefix_append x (r :: rest)) with h1 | h1
    · obtain ⟨t, ht⟩ := h1
      have hlen : slotWord.length = 16 := by decide
      have hdrop : (x ++ r :: rest).drop slotWord.length = t ++ r :: rest := by
        rw [← ht, List.append_assoc, List.drop_left]
      rw [hdrop] at h
      unfold matchSlotAt
      have hpx : slotWord.isPrefixOf x = true := by
        rw [List.isPrefixOf_iff_prefix]; exact ⟨t, ht⟩
      have hdx : x.drop slotWord.length = t := by rw [← ht, List.drop_left]
      rw [if_pos hpx, hdx]
      cases t with
      | nil => simp [List.takeWhile, hd] at h
      | cons d ds =>
        by_cases hdd : d.isDigit = true
        · simp [List.takeWhile, hdd]
        · simp [List.takeWhile, hdd] at h
    · obtain ⟨y, hy⟩ := h1
      exfalso
      rw [← hy] at hpre
      have h2 := (List.prefix_append_right_inj x).mp hpre
      cases y with
      | nil =>
        have : x = slotWord := by simpa using hy
        rw [this] at h
        simp [List.takeWhile, hd] at h
      | cons z zs =>
        obtain ⟨u, hu⟩ := h2
        simp only [List.cons_append, List.cons.injEq] at hu
        apply hr
        rw [← hy, ← hu.1]
        simp
  · rw [if_neg hp] at h
    cases h

theorem findStringSubmatch_append_sep {a : Str} {r : Char} (b : Str) (hr : r ∉ slotWord)
    (hd : r.isDigit = false) (h : (FindStringSubmatch (a ++ r :: b)).isSome = true) :
    (FindStringSubmatch a).isSome = true ∨ (FindStringSubmatch b).isSome = true := by
  have hrM : r ≠ 'M' := fun e => hr (by rw [e]; decide)
  induction a with
  | nil =>
    right
    rw [List.nil_append, findStringSubmatch_cons_ne r b hrM] at h
    exact h
  | cons c cs ih =>
    cases hm : matchSlotAt (c :: cs ++ r :: b) with
    | some ds =>
      left
      apply findStringSubmatch_of_matchSlotAt
      exact matchSlotAt_before_sep b hr hd (by rw [List.cons_append] at hm ⊢; rw [hm]; rfl)
    | none =>
      rw [List.cons_append, FindStringSubmatch] at h
      rw [List.cons_append] at hm
      rw [hm] at h
      rcases ih h with h1 | h1
      · left; exact findStringSubmatch_cons_isSome c h1
      · right; exact h1

theorem isSpace_not_word {c : Char} (h : isSpace c = true) :
    c ∉ slotWord ∧ c.isDigit = false ∧ c ≠ 'M' := by
  have hw : ∀ x ∈ slotWord, isSpace x = false := by decide
  refine ⟨fun hm => (by rw [hw c hm] at h; cases h), ?_, ?_⟩
  · cases hd : c.isDigit with
    | false => rfl
    | true =>
      exfalso
      simp only [Char.isDigit, Bool.and_eq_true, decide_eq_true_eq] at hd
      have h1 : 48 ≤ c.toNat := UInt32.le_def.mp hd.1
      have h2 : c.toNat ≤ 57 := UInt32.le_def.mp hd.2
      simp only [isSpace, Bool.or_eq_true, Bool.and_eq_true, decide_eq_true_eq] at h
      omega
  · intro e
    rw [e] at h
    revert h
    decide

theorem findStringSubmatch_dropWhile_isSpace (s : Str) :
    FindStringSubmatch (s.dropWhile isSpace) = FindStringSubmatch s := by
  induction s with
  | nil => rfl
  | cons c cs ih =>
    rw [List.dropWhile_cons]
    by_cases hc : isSpace c = true
    · rw [if_pos hc, ih, findStringSubmatch_cons_ne c cs (isSpace_not_word hc).2.2]
    · rw [if_neg hc]

theorem findStringSubmatch_reverse_dropWhile (r : Str)
    (h : (FindStringSubmatch r.reverse).isSome = true) :
    (FindStringSubmatch (r.dropWhile isSpace).reverse).isSome = true := by
  induction r with
  | nil => exact h
  | cons c cs ih =>
    rw [List.dropWhile_cons]
    by_cases hc : isSpace c = true
    · rw [if_pos hc]
      apply ih
      rw [List.reverse_cons] at h
      obtain ⟨h1, h2, _⟩ := isSpace_not_word hc
      rcases findStringSubmatch_append_sep [] h1 h2 h with h3 | h3
      · exact h3
      · simp [FindStringSubmatch] at h3
    · rw [if_neg hc]
      exact h

theorem findStringSubmatch_TrimSpace {s : Str} (h : (FindStringSubmatch s).isSome = true) :
    (FindStringSubmatch (TrimSpace s)).isSome = true := by
  unfold TrimSpace
  apply findStringSubmatch_reverse_dropWhile
  rw [List.reverse_reverse, findStringSubmatch_dropWhile_isSpace]
  exact h

theorem findStringSubmatch_skip_plain (x y : Str) (hx : ∀ c ∈ x, c ≠ 'M') :
    FindStringSubmatch (x ++ y) = FindStringSubmatch y := by
  induction x with
  | nil => rfl
  | cons c cs ih =>
    rw [List.cons_append, findStringSubmatch_cons_ne c _ (hx c (by simp)),
      ih (fun d hd => hx d (by simp [hd]))]

theorem findStringSubmatch_skip_free {x : Str} {r : Char} (rest : Str)
    (hx : FindStringSubmatch x = none) (hr : r ∉ slotWord) (hd : r.isDigit = false) :
    FindStringSubmatch (x ++ r :: rest) = FindStringSubmatch (r :: rest) := by
  induction x with
  | nil => rfl
  | cons c cs ih =>
    unfold FindStringSubmatch at hx
    cases hm : matchSlotAt (c :: cs) with
    | some ds => rw [hm] at hx; cases hx
    | none =>
      rw [hm] at hx
      rw [List.cons_append, FindStringSubmatch]
      cases hm2 : matchSlotAt (c :: (cs ++ r :: rest)) with
      | some ds =>
        have := matchSlotAt_before_sep (x := c :: cs) rest hr hd (by
          rw [List.cons_append, hm2]; rfl)
        rw [hm] at this
        cases this
      | none => exact ih hx

theorem findStringSubmatch_slot_tail (n : Str) (hne : n ≠ [])
    (hn : ∀ c ∈ n, c.isDigit = true) :
    FindStringSubmatch (slotWord ++ n ++ "]".toList) = some n := by
  have htake : List.takeWhile Char.isDigit (n ++ "]".toList) = n := by
    induction n with
    | nil => exact absurd rfl hne
    | cons d ds ih =>
      rw [List.cons_append, List.takeWhile_cons, if_pos (hn d (by simp))]
      cases ds with
      | nil => rfl
      | cons e es => rw [ih (by simp) (fun c hc => hn c (by simp [hc]))]
  have hm : matchSlotAt (slotWord ++ n ++ "]".toList) = some n := by
    unfold matchSlotAt
    have hp : slotWord.isPrefixOf (slotWord ++ n ++ "]".toList) = true := by
      rw [List.isPrefixOf_iff_prefix, List.append_assoc]
      exact List.prefix_append _ _
    rw [if_pos hp, List.append_assoc, List.drop_left, htake]
    simp [hne]
  have hcons : slotWord ++ n ++ "]".toList = 'M' :: ("aterialPairSlot".toList ++ n ++ "]".toList) := rfl
  rw [hcons, FindStringSubmatch, ← hcons, hm]

theorem findStringSubmatch_expectedBlockHeader {p n : Str} (hp : FindStringSubmatch p = none)
    (hne : n ≠ []) (hn : ∀ c ∈ n, c.isDigit = true) :
    FindStringSubmatch (expectedBlockHeader p n) = some n := by
  have e : expectedBlockHeader p n =
      "[Session/dlc".toList ++ ('\\' :: (p ++ '\\' :: ("data\\levels".toList ++ ('\\' :: (p ++
        '\\' :: (p ++ '.' :: ("w2w/Tools/TerrainEdit/".toList ++
          (slotWord ++ n ++ "]".toList)))))))) := by
    unfold expectedBlockHeader
    have w : ".w2w/Tools/TerrainEdit/MaterialPairSlot".toList =
        '.' :: ("w2w/Tools/TerrainEdit/".toList ++ slotWord) := by decide
    have a : "[Session/dlc\\".toList = "[Session/dlc".toList ++ ['\\'] := by decide
    have b : "\\data\\levels\\".toList = '\\' :: ("data\\levels".toList ++ ['\\']) := by decide
    have c : "\\".toList = ['\\'] := by decide
    rw [w, a, b, c]
    simp only [List.append_assoc, List.cons_append, List.nil_append]
  have hb : ('\\' : Char) ≠ 'M' := by decide
  rw [e, findStringSubmatch_skip_plain _ _ (by decide), findStringSubmatch_cons_ne _ _ hb,
    findStringSubmatch_skip_free _ hp (by decide) (by decide),
    findStringSubmatch_cons_ne _ _ hb, findStringSubmatch_skip_plain _ _ (by decide),
    findStringSubmatch_cons_ne _ _ hb,
    findStringSubmatch_skip_free _ hp (by decide) (by decide),
    findStringSubmatch_cons_ne _ _ hb,
    findStringSubmatch_skip_free _ hp (by decide) (by decide),
    findStringSubmatch_cons_ne _ _ (by decide), findStringSubmatch_skip_plain _ _ (by decide),
    findStringSubmatch_slot_tail n hne hn]

theorem isBlockStart_expectedBlockHeader {p n : Str} (hp : FindStringSubmatch p = none)
    (hne : n ≠ []) (hn : ∀ c ∈ n, c.isDigit = true) :
    isBlockStart p (expectedBlockHeader p n) = true := by
  unfold isBlockStart
  rw [findStringSubmatch_expectedBlockHeader hp hne hn]
  simp

/-! ## The preset loader -/

theorem Split_of_not_mem {s : Str} (h : '=' ∉ s) : Split s = [s] := by
  induction s with
  | nil => rfl
  | cons c cs ih =>
    have hc : c ≠ '=' := fun e => h (by simp [e])
    have hcs : '=' ∉ cs := fun e => h (by simp [e])
    simp [Split, hc, ih hcs]

theorem Split_append_eq {a : Str} (b : Str) (h : '=' ∉ a) :
    Split (a ++ '=' :: b) = a :: Split b := by
  induction a with
  | nil => simp [Split]
  | cons c cs ih =>
    have hc : c ≠ '=' := fun e => h (by simp [e])
    have hcs : '=' ∉ cs := fun e => h (by simp [e])
    simp [Split, hc, ih hcs]

theorem takeWhile_ne_eq_not_mem (s : Str) : '=' ∉ s.takeWhile (fun c => c ≠ '=') := by
  intro h
  have := List.mem_takeWhile_imp h
  simp at this

theorem dropWhile_head_not {α : Type} (p : α → Bool) (l : List α) {d : α} {ds : List α}
    (h : l.dropWhile p = d :: ds) : p d = false := by
  induction l with
  | nil => simp at h
  | cons c cs ih =>
    rw [List.dropWhile_cons] at h
    by_cases hc : p c = true
    · rw [if_pos hc] at h; exact ih h
    · rw [if_neg hc] at h
      cases h
      simpa using hc

theorem keyValueOf_eq_specPair (line : Str) : keyValueOf line = specPair line := by
  unfold keyValueOf specPair
  have hlen := Split_length line
  by_cases h1 : line.count '=' = 1
  · rw [if_pos h1]
    have hsplit : line = line.takeWhile (fun c => c ≠ '=') ++ line.dropWhile (fun c => c ≠ '=') :=
      (List.takeWhile_append_dropWhile _ _).symm
    have hnm := takeWhile_ne_eq_not_mem line
    cases hd : line.dropWhile (fun c => c ≠ '=') with
    | nil =>
      rw [hd, List.append_nil] at hsplit
      rw [← hsplit] at hnm
      have := List.count_eq_zero.mpr hnm
      omega
    | cons d ds =>
      have hde : d = '=' := by
        have := dropWhile_head_not (fun c => decide (c ≠ '=')) line hd
        simpa using this
      subst hde
      rw [hd] at hsplit
      have hcnt : ds.count '=' = 0 := by
        have := congrArg (List.count '=') hsplit
        rw [List.count_append, List.count_eq_zero.mpr hnm, List.count_cons_self] at this
        omega
      have hds : '=' ∉ ds := List.count_eq_zero.mp hcnt
      have hS : Split line = [line.takeWhile (fun c => c ≠ '='), ds] := by
        conv_lhs => rw [hsplit]
        rw [Split_append_eq _ hnm, Split_of_not_mem hds]
      rw [hS]
      simp
  · rw [if_neg h1]
    split
    · rename_i p0 p1 hsp
      rw [hsp] at hlen
      simp at hlen
      omega
    · rfl

theorem parseLoop_header (blocks : List (Str × PresetBlock)) (inBlock : Bool) (cur : PresetBlock)
    (line : Str) (rest : List Str) (h : isHeaderLine line = true) :
    parseLoop blocks inBlock cur (line :: rest) =
      parseLoop (if inBlock then mapSet blocks cur.Header cur else blocks) true ⟨line, []⟩ rest := by
  unfold isHeaderLine at h
  rw [parseLoop, if_pos h]

theorem parseLoop_body_line (blocks : List (Str × PresetBlock)) (cur : PresetBlock)
    (line : Str) (rest : List Str) (h : isHeaderLine line = false) :
    parseLoop blocks true cur (line :: rest) =
      parseLoop blocks true ⟨cur.Header, collectValues cur.Values [line]⟩ rest := by
  unfold isHeaderLine at h
  rw [parseLoop, if_neg (by simp [h])]
  simp only [if_true, collectValues, List.foldl, keyValueOf]
  split <;> simp_all

theorem parseLoop_closed_line (blocks : List (Str × PresetBlock)) (cur : PresetBlock)
    (line : Str) (rest : List Str) (h : isHeaderLine line = false) :
    parseLoop blocks false cur (line :: rest) = parseLoop blocks false cur rest := by
  unfold isHeaderLine at h
  rw [parseLoop, if_neg (by simp [h])]
  simp

theorem parseLoop_append (xs ys : List Str) (blocks : List (Str × PresetBlock)) (inBlock : Bool)
    (cur : PresetBlock) :
    parseLoop blocks inBlock cur (xs ++ ys) =
      parseLoop (parseLoop blocks inBlock cur xs).1 (parseLoop blocks inBlock cur xs).2.1
        (parseLoop blocks inBlock cur xs).2.2 ys := by
  induction xs generalizing blocks inBlock cur with
  | nil => simp [parseLoop]
  | cons x xs ih =>
    by_cases hx : isHeaderLine x = true
    · rw [List.cons_append, parseLoop_header _ _ _ _ _ hx, parseLoop_header _ _ _ _ _ hx, ih]
    · have hx' : isHeaderLine x = false := by simpa using hx
      cases inBlock with
      | true =>
        rw [List.cons_append, parseLoop_body_line _ _ _ _ hx', parseLoop_body_line _ _ _ _ hx', ih]
      | false =>
        rw [List.cons_append, parseLoop_closed_line _ _ _ _ hx',
          parseLoop_closed_line _ _ _ _ hx', ih]

theorem collectValues_cons (vals : StrMap) (line : Str) (body : List Str) :
    collectValues vals (line :: body) = collectValues (collectValues vals [line]) body := by
  simp [collectValues]

theorem parseLoop_body (body : List Str) (blocks : List (Str × PresetBlock)) (cur : PresetBlock)
    (hb : ∀ l ∈ body, isHeaderLine l = false) :
    parseLoop blocks true cur body = (blocks, true, ⟨cur.Header, collectValues cur.Values body⟩) := by
  induction body generalizing cur with
  | nil => simp [parseLoop, collectValues]
  | cons l ls ih =>
    rw [parseLoop_body_line _ _ _ _ (hb l (by simp)), ih _ (fun x hx => hb x (by simp [hx]))]
    simp only
    rw [← collectValues_cons]

theorem mapGet_collectValues (body : List Str) (vals : StrMap) (k : Str) :
    mapGet (collectValues vals body) k =
      match specValue body k with
      | some v => some v
      | none => mapGet vals k := by
  induction body generalizing vals with
  | nil => simp [collectValues, specValue]
  | cons l ls ih =>
    rw [collectValues_cons, ih]
    have hs : specValue (l :: ls) k =
        match specValue ls k with
        | some v => some v
        | none => (match specPair l with
          | some (k', v) => if k' = k then some v else none
          | none => none) := by
      unfold specValue
      cases hp : specPair l with
      | none =>
        simp only [List.filterMap_cons, hp]
        generalize Option.map Prod.snd
          (List.find? (fun p => decide (p.1 = k)) (List.filterMap specPair ls).reverse) = o
        cases o <;> rfl
      | some kv =>
        obtain ⟨k', v⟩ := kv
        simp only [List.filterMap_cons, hp, List.reverse_cons, List.find?_append]
        cases hf : List.find? (fun p => decide (p.1 = k)) (List.filterMap specPair ls).reverse with
        | some x => simp
        | none =>
          by_cases hk : k' = k
          · simp [hk]
          · simp [hk]
    rw [hs]
    cases hv : specValue ls k with
    | some v => rfl
    | none =>
      simp only [collectValues, List.foldl, keyValueOf_eq_specPair]
      cases hp : specPair l with
      | none => rfl
      | some kv =>
        obtain ⟨k', v⟩ := kv
        simp only [mapSet, mapGet]
        by_cases hk : k' = k <;> simp [hk]

theorem mapGet_mapSet {β : Type} (m : List (Str × β)) (k k' : Str) (v : β) :
    mapGet (mapSet m k v) k' = if k = k' then some v else mapGet m k' := by
  simp [mapSet, mapGet]

theorem parseLoop_stable (h : Str) (rest : List Str) (blocks : List (Str × PresetBlock))
    (inBlock : Bool) (cur : PresetBlock) (hrest : h ∉ rest)
    (hcur : inBlock = true → cur.Header ≠ h) :
    mapGet (finishParse (parseLoop blocks inBlock cur rest)) h = mapGet blocks h := by
  induction rest generalizing blocks inBlock cur with
  | nil =>
    cases inBlock with
    | false => simp [parseLoop, finishParse]
    | true => simp [parseLoop, finishParse, mapGet_mapSet, hcur rfl]
  | cons l ls ih =>
    have hl : l ≠ h := fun e => hrest (by simp [e])
    have hls : h ∉ ls := fun e => hrest (by simp [e])
    by_cases hx : isHeaderLine l = true
    · rw [parseLoop_header _ _ _ _ _ hx, ih _ _ _ hls (fun _ => hl)]
      cases inBlock with
      | false => simp
      | true => simp [mapGet_mapSet, hcur rfl]
    · have hx' : isHeaderLine l = false := by simpa using hx
      cases inBlock with
      | true =>
        rw [parseLoop_body_line _ _ _ _ hx']
        exact ih _ _ _ hls (fun _ => hcur rfl)
      | false =>
        rw [parseLoop_closed_line _ _ _ _ hx']
        exact ih _ _ _ hls (by simp)

theorem parseLoop_inv (Q : PresetBlock → Prop) (ls : List Str)
    (blocks : List (Str × PresetBlock)) (inBlock : Bool) (cur : PresetBlock)
    (hnew : ∀ l ∈ ls, isHeaderLine l = true → Q ⟨l, []⟩)
    (hstep : ∀ l ∈ ls, ∀ c, Q c → Q ⟨c.Header, collectValues c.Values [l]⟩)
    (hblocks : ∀ h b, mapGet blocks h = some b → b.Header = h ∧ Q b)
    (hcur : inBlock = true → Q cur) :
    ∀ h b, mapGet (finishParse (parseLoop blocks inBlock cur ls)) h = some b →
      b.Header = h ∧ Q b := by
  induction ls generalizing blocks inBlock cur with
  | nil =>
    intro h b hb
    cases inBlock with
    | false => exact hblocks h b (by simpa [parseLoop, finishParse] using hb)
    | true =>
      simp only [parseLoop, finishParse, if_true, mapGet_mapSet] at hb
      by_cases hk : cur.Header = h
      · rw [if_pos hk] at hb
        cases hb
        exact ⟨hk, hcur rfl⟩
      · rw [if_neg hk] at hb
        exact hblocks h b hb
  | cons l ls ih =>
    have hnew' : ∀ x ∈ ls, isHeaderLine x = true → Q ⟨x, []⟩ :=
      fun x hx => hnew x (by simp [hx])
    have hstep' : ∀ x ∈ ls, ∀ c, Q c → Q ⟨c.Header, collectValues c.Values [x]⟩ :=
      fun x hx => hstep x (by simp [hx])
    by_cases hx : isHeaderLine l = true
    · rw [parseLoop_header _ _ _ _ _ hx]
      apply ih _ _ _ hnew' hstep' _ (fun _ => hnew l (by simp) hx)
      intro h b hb
      cases inBlock with
      | false => exact hblocks h b (by simpa using hb)
      | true =>
        simp only [if_true, mapGet_mapSet] at hb
        by_cases hk : cur.Header = h
        · rw [if_pos hk] at hb
          cases hb
          exact ⟨hk, hcur rfl⟩
        · rw [if_neg hk] at hb
          exact hblocks h b hb
    · have hx' : isHeaderLine l = false := by simpa using hx
      cases inBlock with
      | true =>
        rw [parseLoop_body_line _ _ _ _ hx']
        exact ih _ _ _ hnew' hstep' hblocks (fun _ => hstep l (by simp) cur (hcur rfl))
      | false =>
        rw [parseLoop_closed_line _ _ _ _ hx']
        exact ih _ _ _ hnew' hstep' hblocks (by simp)

theorem parsePresetBlocks_entry_header {lines : List Str} {h : Str} {b : PresetBlock}
    (hb : mapGet (ParsePresetBlocks lines) h = some b) :
    b.Header = h ∧ h ∈ lines ∧ isHeaderLine h = true := by
  have := parseLoop_inv (fun c => c.Header ∈ lines ∧ isHeaderLine c.Header = true) lines []
    false ⟨[], []⟩ (fun l hl hh => ⟨hl, hh⟩) (fun _ _ c hc => hc) (by simp [mapGet]) (by simp)
    h b hb
  exact ⟨this.1, this.1 ▸ this.2.1, this.1 ▸ this.2.2⟩

theorem mem_TrimSpace {c : Char} {s : Str} (h : c ∈ TrimSpace s) : c ∈ s := by
  unfold TrimSpace at h
  have h1 := List.mem_reverse.mp h
  have h2 := (List.dropWhile_sublist _).subset h1
  have h3 := List.mem_reverse.mp h2
  exact (List.dropWhile_sublist _).subset h3

theorem keyValueOf_mem {l k v : Str} (h : keyValueOf l = some (k, v)) :
    (∀ c ∈ k, c ∈ l) ∧ (∀ c ∈ v, c ∈ l) := by
  rw [keyValueOf_eq_specPair] at h
  unfold specPair at h
  split at h
  · simp only [Option.some.injEq, Prod.mk.injEq] at h
    obtain ⟨hk, hv⟩ := h
    subst hk hv
    constructor
    · intro c hc
      exact (List.takeWhile_sublist _).subset (mem_TrimSpace hc)
    · intro c hc
      exact (List.dropWhile_sublist _).subset ((List.drop_sublist _ _).subset (mem_TrimSpace hc))
  · cases h

theorem mapGet_collectValues_single (vals : StrMap) (l k : Str) :
    mapGet (collectValues vals [l]) k =
      match keyValueOf l with
      | some (key, value) => if key = k then some value else mapGet vals k
      | none => mapGet vals k := by
  simp only [collectValues, List.foldl]
  cases keyValueOf l with
  | none => rfl
  | some kv => obtain ⟨key, value⟩ := kv; simp [mapGet_mapSet]

theorem parsePresetBlocks_entry_chars (P : Char → Prop) {lines : List Str} {h : Str}
    {b : PresetBlock} (hl : ∀ l ∈ lines, ∀ c ∈ l, P c)
    (hb : mapGet (ParsePresetBlocks lines) h = some b) :
    (∀ c ∈ b.Header, P c) ∧ ∀ k v, mapGet b.Values k = some v → ∀ c ∈ v, P c := by
  refine (parseLoop_inv
    (fun x => (∀ c ∈ x.Header, P c) ∧ ∀ k v, mapGet x.Values k = some v → ∀ c ∈ v, P c)
    lines [] false ⟨[], []⟩ (fun l hmem _ => ⟨hl l hmem, by simp [mapGet]⟩) ?_ (by simp [mapGet])
    (by simp) h b hb).2
  intro l hmem x hx
  refine ⟨hx.1, ?_⟩
  intro k v hv
  rw [mapGet_collectValues_single] at hv
  cases hkv : keyValueOf l with
  | none => rw [hkv] at hv; exact hx.2 k v hv
  | some kv =>
    obtain ⟨key, value⟩ := kv
    rw [hkv] at hv
    simp only at hv
    by_cases hk : key = k
    · rw [if_pos hk] at hv
      cases hv
      exact fun c hc => hl l hmem c ((keyValueOf_mem hkv).2 _ hc)
    · rw [if_neg hk] at hv
      exact hx.2 k v hv

theorem parsePresetBlocks_entry_no_newline {lines : List Str} {h : Str} {b : PresetBlock}
    (hl : ∀ l ∈ lines, '\n' ∉ l) (hb : mapGet (ParsePresetBlocks lines) h = some b) :
    '\n' ∉ b.Header ∧ ∀ k v, mapGet b.Values k = some v → '\n' ∉ v := by
  have := parsePresetBlocks_entry_chars (fun c => c ≠ '\n') (fun l hl' c hc e => hl l hl' (e ▸ hc)) hb
  exact ⟨fun hm => this.1 _ hm rfl, fun k v hv hm => this.2 k v hv _ hm rfl⟩

theorem parsePresetBlocks_block (pre body rest : List Str) (h : Str)
    (hh : isHeaderLine h = true) (hbody : ∀ l ∈ body, isHeaderLine l = false)
    (hrest : ∀ l, rest.head? = some l → isHeaderLine l = true) (hlast : h ∉ rest) :
    mapGet (ParsePresetBlocks (pre ++ h :: (body ++ rest))) h =
      some ⟨h, collectValues [] body⟩ := by
  unfold ParsePresetBlocks
  rw [parseLoop_append, parseLoop_header _ _ _ _ _ hh, parseLoop_append,
    parseLoop_body body _ _ hbody]
  simp only
  cases rest with
  | nil => simp [parseLoop, finishParse, mapGet_mapSet]
  | cons r rs =>
    have hr : isHeaderLine r = true := hrest r rfl
    have hne : r ≠ h := fun e => hlast (by simp [e])
    have hrs : h ∉ rs := fun e => hlast (by simp [e])
    rw [parseLoop_header _ _ _ _ _ hr, parseLoop_stable h rs _ _ _ hrs (fun _ => hne)]
    simp [mapGet_mapSet]

theorem exists_last_occurrence {α : Type} [DecidableEq α] {a : α} {l : List α} (h : a ∈ l) :
    ∃ pre post, l = pre ++ a :: post ∧ a ∉ post := by
  have hr : a ∈ l.reverse := List.mem_reverse.mpr h
  obtain ⟨as, bs, hab, hna⟩ := List.eq_append_cons_of_mem hr
  refine ⟨bs.reverse, as.reverse, ?_, by simpa using hna⟩
  have := congrArg List.reverse hab
  simpa using this

theorem head_dropWhile_not {α : Type} (p : α → Bool) (l : List α) (x : α)
    (h : (l.dropWhile p).head? = some x) : p x = false := by
  cases hd : l.dropWhile p with
  | nil => rw [hd] at h; cases h
  | cons d ds =>
    rw [hd] at h
    cases h
    exact dropWhile_head_not p l hd

/-- C5: the table of ParsePresetBlocks has an entry under `h` exactly when `h`
is a line of the file that starts with `[`; and when the file is
`pre ++ h :: body ++ rest` with `body` free of `[` lines, `rest` empty or
starting with a `[` line, and no line of `rest` equal to `h` (the last block
opened by `h`), the entry is the block with header `h` whose value for every
key is that of the last line of `body` with exactly one `=` and that trimmed
key, trimmed. -/
theorem parsePresetBlocks_table (lines : List Str) (h : Str) :
    ((mapGet (ParsePresetBlocks lines) h).isSome = true ↔
      (h ∈ lines ∧ isHeaderLine h = true)) ∧
    (∀ pre body rest : List Str, lines = pre ++ h :: (body ++ rest) →
      isHeaderLine h = true → (∀ l ∈ body, isHeaderLine l = false) →
      (∀ l, rest.head? = some l → isHeaderLine l = true) → h ∉ rest →
      ∃ vals, mapGet (ParsePresetBlocks lines) h = some ⟨h, vals⟩ ∧
        ∀ k, mapGet vals k = specValue body k) := by
  have key : ∀ pre body rest : List Str, lines = pre ++ h :: (body ++ rest) →
      isHeaderLine h = true → (∀ l ∈ body, isHeaderLine l = false) →
      (∀ l, rest.head? = some l → isHeaderLine l = true) → h ∉ rest →
      ∃ vals, mapGet (ParsePresetBlocks lines) h = some ⟨h, vals⟩ ∧
        ∀ k, mapGet vals k = specValue body k := by
    intro pre body rest hl hh hbody hrest hlast
    refine ⟨collectValues [] body, ?_, ?_⟩
    · rw [hl]; exact parsePresetBlocks_block pre body rest h hh hbody hrest hlast
    · intro k
      rw [mapGet_collectValues]
      cases specValue body k <;> rfl
  refine ⟨⟨?_, ?_⟩, key⟩
  · intro hs
    obtain ⟨b, hb⟩ := Option.isSome_iff_exists.mp hs
    exact (parsePresetBlocks_entry_header hb).2
  · rintro ⟨hmem, hh⟩
    obtain ⟨pre, post, hl, hpost⟩ := exists_last_occurrence hmem
    have hsplit : post = post.takeWhile (fun l => !isHeaderLine l) ++
        post.dropWhile (fun l => !isHeaderLine l) := (List.takeWhile_append_dropWhile _ _).symm
    obtain ⟨vals, hv, _⟩ := key pre (post.takeWhile (fun l => !isHeaderLine l))
      (post.dropWhile (fun l => !isHeaderLine l)) (by rw [← hsplit]; exact hl) hh
      (fun l hl' => by simpa using List.mem_takeWhile_imp hl')
      (fun l hl' => by simpa using head_dropWhile_not _ post l hl')
      (fun hm => hpost ((List.dropWhile_sublist _).subset hm))
    rw [hv]; rfl

/-- C5 at the sample preset file: `[A]` is a line of it starting with `[`, and
its last block, the lines after the second `[A]`, gives key `k` the value
`w`. -/
theorem parsePresetBlocks_table_witness :
    ("[A]".toList ∈ samplePreset ∧ isHeaderLine "[A]".toList = true) ∧
    (mapGet (ParsePresetBlocks samplePreset) "[A]".toList).isSome = true ∧
    ∃ vals, mapGet (ParsePresetBlocks samplePreset) "[A]".toList = some ⟨"[A]".toList, vals⟩ ∧
      mapGet vals "k".toList = some "w".toList :=
  ⟨by decide,
    (parsePresetBlocks_table samplePreset "[A]".toList).1.mpr (by decide),
    ((parsePresetBlocks_table samplePreset "[A]".toList).2
      [ "junk=1".toList, "[A]".toList, "k = v".toList, "[B]".toList, "x=1".toList ]
      [ " k =z".toList, "a=b=c".toList, "k= w ".toList, "plain".toList ] []
      (by decide) (by decide) (by decide) (by simp) (by simp)).imp
      (fun vals hv => ⟨hv.1, (hv.2 "k".toList).trans (by decide)⟩)⟩

/-! ## Key lines -/

theorem Split_two {s a b : Str} (h : Split s = [a, b]) :
    s = a ++ '=' :: b ∧ '=' ∉ a ∧ '=' ∉ b := by
  induction s generalizing a with
  | nil => simp [Split] at h
  | cons c cs ih =>
    unfold Split at h
    by_cases hc : c = '='
    · rw [if_pos hc] at h
      simp only [List.cons.injEq] at h
      obtain ⟨ha, hb⟩ := h
      have hl := Split_length cs
      rw [hb] at hl
      have hcnt : cs.count '=' = 0 := by simpa using hl.symm
      have hnm : '=' ∉ cs := List.count_eq_zero.mp hcnt
      have := Split_of_not_mem hnm
      rw [hb] at this
      simp only [List.cons.injEq, and_true] at this
      subst ha
      subst hc
      rw [this]
      exact ⟨rfl, by simp, hnm⟩
    · rw [if_neg hc] at h
      cases hs : Split cs with
      | nil => rw [hs] at h; simp at h
      | cons p ps =>
        rw [hs] at h
        simp only [List.cons.injEq] at h
        obtain ⟨ha, hps⟩ := h
        subst ha
        rw [hps] at hs
        obtain ⟨h1, h2, h3⟩ := ih hs
        refine ⟨by rw [h1]; rfl, ?_, h3⟩
        intro hm
        rcases List.mem_cons.mp hm with hm | hm
        · exact hc hm.symm
        · exact h2 hm

theorem TrimSpace_idem (s : Str) : TrimSpace (TrimSpace s) = TrimSpace s := by
  have hpre : TrimSpace s <+: s.dropWhile isSpace := by
    unfold TrimSpace
    exact List.rdropWhile_prefix isSpace (s.dropWhile isSpace)
  have h1 : (TrimSpace s).dropWhile isSpace = TrimSpace s := by
    cases hw : TrimSpace s with
    | nil => rfl
    | cons x w =>
      rw [hw] at hpre
      obtain ⟨t, ht⟩ := hpre
      have hx : isSpace x = false := dropWhile_head_not isSpace s ht.symm
      simp [List.dropWhile_cons, hx]
  have h2 : (TrimSpace s).reverse.dropWhile isSpace = (TrimSpace s).reverse := by
    unfold TrimSpace
    rw [List.reverse_reverse, List.dropWhile_idempotent]
  have h3 : TrimSpace (TrimSpace s) =
      (((TrimSpace s).dropWhile isSpace).reverse.dropWhile isSpace).reverse := rfl
  rw [h3, h1, h2, List.reverse_reverse]

theorem keyValueOf_parts {l k v : Str} (h : keyValueOf l = some (k, v)) :
    ∃ a b, l = a ++ '=' :: b ∧ '=' ∉ a ∧ '=' ∉ b ∧ k = TrimSpace a ∧ v = TrimSpace b := by
  unfold keyValueOf at h
  split at h
  · rename_i p0 p1 hs
    simp only [Option.some.injEq, Prod.mk.injEq] at h
    obtain ⟨h1, h2, h3⟩ := Split_two hs
    exact ⟨p0, p1, h1, h2, h3, h.1.symm, h.2.symm⟩
  · cases h

theorem keysOrder_no_match : ∀ key ∈ keysOrder, FindStringSubmatch key = none := by
  decide

theorem keyValueOf_value_good {l k v : Str} (h : keyValueOf l = some (k, v))
    (hk : k ∈ keysOrder) (hm : (FindStringSubmatch l).isSome = true) :
    '=' ∉ v ∧ TrimSpace v = v ∧ (FindStringSubmatch v).isSome = true := by
  obtain ⟨a, b, hl, _, hb, hka, hvb⟩ := keyValueOf_parts h
  refine ⟨?_, ?_, ?_⟩
  · rw [hvb]
    exact fun hmem => hb (mem_TrimSpace hmem)
  · rw [hvb, TrimSpace_idem]
  · rw [hl] at hm
    rcases findStringSubmatch_append_sep b (by decide) (by decide) hm with h1 | h1
    · have := findStringSubmatch_TrimSpace h1
      rw [← hka, keysOrder_no_match k hk] at this
      cases this
    · rw [hvb]
      exact findStringSubmatch_TrimSpace h1

theorem keysOrder_chars : ∀ key ∈ keysOrder,
    (∀ c ∈ key, c.toNat < 128 ∧ c ≠ '\n' ∧ c ≠ '=') ∧ TrimSpace key = key := by
  decide

theorem keyValueOf_key_line {key v : Str} (hk : key ∈ keysOrder) (h1 : '=' ∉ v)
    (h2 : TrimSpace v = v) : keyValueOf (key ++ '=' :: v) = some (key, v) := by
  obtain ⟨hkc, hkt⟩ := keysOrder_chars key hk
  have h0 : '=' ∉ key := fun hm => (hkc _ hm).2.2 rfl
  unfold keyValueOf
  rw [Split_append_eq _ h0, Split_of_not_mem h1]
  simp [hkt, h2]

theorem mapGet_collectValues_keyLines (e : StrMap) (ks : List Str)
    (hks : ∀ key ∈ ks, ∀ v, mapGet e key = some v →
      keyValueOf (key ++ '=' :: v) = some (key, v))
    (vals : StrMap) (k : Str) :
    mapGet (collectValues vals
      (ks.filterMap (fun key => (mapGet e key).map (fun v => key ++ ['='] ++ v)))) k =
      if k ∈ ks then
        (match mapGet e k with
          | some v => some v
          | none => mapGet vals k)
      else mapGet vals k := by
  induction ks generalizing vals with
  | nil => simp [collectValues]
  | cons key ks ih =>
    have hks' : ∀ x ∈ ks, ∀ v, mapGet e x = some v →
        keyValueOf (x ++ '=' :: v) = some (x, v) := fun x hx => hks x (by simp [hx])
    cases hv : mapGet e key with
    | none =>
      simp only [List.filterMap_cons, hv, Option.map_none']
      rw [ih hks']
      by_cases hk : k = key
      · subst hk
        simp [hv]
      · simp [hk]
    | some v =>
      simp only [List.filterMap_cons, hv, Option.map_some']
      rw [collectValues_cons, ih hks']
      have hline : key ++ ['='] ++ v = key ++ '=' :: v := by simp
      have hcv : collectValues vals [key ++ ['='] ++ v] = mapSet vals key v := by
        simp only [collectValues, List.foldl, hline, hks key (by simp) v hv]
      rw [hcv, mapGet_mapSet]
      by_cases hk : k = key
      · subst hk
        simp [hv]
      · have hk' : ¬ key = k := fun h => hk h.symm
        simp [hk, hk']

/-! ## The Windows-1251 writer -/

theorem decodeByte_of_encodeRune {c : Char} {b : UInt8} (h : encodeRune c = some b) :
    decodeByte b = c := by
  unfold encodeRune at h
  by_cases h1 : c.toNat < 128
  · rw [if_pos h1] at h
    cases h
    have h2 : (UInt8.ofNat c.toNat).toNat = c.toNat := by
      simp [UInt8.ofNat, UInt8.toNat]
      omega
    unfold decodeByte
    rw [h2, if_pos h1, Char.ofNat_toNat]
  · rw [if_neg h1] at h
    by_cases h2 : c = replacementChar
    · rw [if_pos h2] at h; cases h
    · rw [if_neg h2] at h
      cases hf : (List.range 128).find?
          (fun i => decodeByte (UInt8.ofNat (128 + i)) == c) with
      | none => rw [hf] at h; cases h
      | some i =>
        rw [hf] at h
        simp only [Option.map_some', Option.some.injEq] at h
        have := List.find?_some hf
        rw [← h]
        simpa using this

theorem encodable_iff {s : Str} :
    encodable s = true ↔ ∀ c ∈ s, (encodeRune c).isSome = true := by
  simp [encodable, List.all_eq_true]

theorem encodable_append {a b : Str} :
    encodable (a ++ b) = true ↔ encodable a = true ∧ encodable b = true := by
  simp [encodable, List.all_append]

theorem encodable_of_ascii {s : Str} (h : ∀ c ∈ s, c.toNat < 128) : encodable s = true := by
  rw [encodable_iff]
  intro c hc
  simp [encodeRune, h c hc]

theorem encodable_crlf : encodable crlf = true := by decide

theorem keysOrder_encodable : ∀ key ∈ keysOrder, encodable key = true := by decide

theorem encodeWrite_append {a : Str} (b : Str) (h : encodable a = true) :
    encodeWrite (a ++ b) = encodeWrite a ++ encodeWrite b := by
  induction a with
  | nil => rfl
  | cons c cs ih =>
    have hc : (encodeRune c).isSome = true := (encodable_iff.mp h) c (by simp)
    have hcs : encodable cs = true :=
      encodable_iff.mpr (fun x hx => (encodable_iff.mp h) x (by simp [hx]))
    obtain ⟨x, hx⟩ := Option.isSome_iff_exists.mp hc
    simp only [List.cons_append, encodeWrite, hx]
    exact congrArg (List.cons x) (ih hcs)

theorem encodeText_of_encodable {s : Str} (h : encodable s = true) :
    encodeText s = some (encodeWrite s) := by
  induction s with
  | nil => rfl
  | cons c cs ih =>
    have hc : (encodeRune c).isSome = true := (encodable_iff.mp h) c (by simp)
    have hcs : encodable cs = true :=
      encodable_iff.mpr (fun x hx => (encodable_iff.mp h) x (by simp [hx]))
    obtain ⟨x, hx⟩ := Option.isSome_iff_exists.mp hc
    simp only [encodeText, encodeWrite, hx, ih hcs]

theorem decode_encodeWrite {s : Str} (h : encodable s = true) :
    decodeWindows1251 (encodeWrite s) = s := by
  induction s with
  | nil => rfl
  | cons c cs ih =>
    have hc : (encodeRune c).isSome = true := (encodable_iff.mp h) c (by simp)
    have hcs : encodable cs = true :=
      encodable_iff.mpr (fun x hx => (encodable_iff.mp h) x (by simp [hx]))
    obtain ⟨x, hx⟩ := Option.isSome_iff_exists.mp hc
    have ih' := ih hcs
    unfold decodeWindows1251 at ih' ⊢
    simp only [encodeWrite, hx, List.map_cons, decodeByte_of_encodeRune hx, ih']

theorem fileBytes_append (a b : List Str) : fileBytes (a ++ b) = fileBytes a ++ fileBytes b := by
  simp [fileBytes]

theorem fileBytes_nil : fileBytes [] = [] := rfl

theorem fileBytes_cons (w : Str) (ws : List Str) :
    fileBytes (w :: ws) = encodeWrite w ++ fileBytes ws := by
  simp [fileBytes]

theorem decode_fileBytes {ws : List Str} (h : ∀ w ∈ ws, encodable w = true) :
    decodeWindows1251 (fileBytes ws) = ws.flatten := by
  induction ws with
  | nil => rfl
  | cons w ws ih =>
    have ih' := ih (fun x hx => h x (by simp [hx]))
    have hw := decode_encodeWrite (h w (by simp))
    unfold decodeWindows1251 at ih' hw ⊢
    rw [fileBytes_cons, List.map_append, hw, ih']
    rfl

theorem fileBytes_of_encodable {ws : List Str} (h : ∀ w ∈ ws, encodable w = true) :
    encodeText ws.flatten = some (fileBytes ws) := by
  have henc : encodable ws.flatten = true := by
    rw [encodable_iff]
    intro c hc
    obtain ⟨w, hw, hcw⟩ := List.mem_flatten.mp hc
    exact (encodable_iff.mp (h w hw)) c hcw
  rw [encodeText_of_encodable henc]
  congr 1
  induction ws with
  | nil => rfl
  | cons w ws ih =>
    have hws : ∀ x ∈ ws, encodable x = true := fun x hx => h x (by simp [hx])
    have henc' : encodable ws.flatten = true := by
      rw [encodable_iff]
      intro c hc
      obtain ⟨x, hx, hcx⟩ := List.mem_flatten.mp hc
      exact (encodable_iff.mp (hws x hx)) c hcx
    rw [List.flatten_cons, encodeWrite_append _ (h w (by simp)), fileBytes_cons, ih hws henc']

/-! ## The scan loop -/

theorem rewriteLines_eq_runFrom (presetBlocks : List (Str × PresetBlock)) (p : Str)
    (doc : List Str) : rewriteLines presetBlocks p doc = runFrom presetBlocks p ScanState.init doc :=
  rfl

theorem runFrom_nil (presetBlocks : List (Str × PresetBlock)) (p : Str) (st : ScanState) :
    runFrom presetBlocks p st [] = finalFlush presetBlocks st := by
  simp [runFrom, scanLoop]

theorem runFrom_cons (presetBlocks : List (Str × PresetBlock)) (p : Str) (st : ScanState)
    (l : Str) (ls : List Str) :
    runFrom presetBlocks p st (l :: ls) =
      (scanStep presetBlocks p st l).2 ++ runFrom presetBlocks p (scanStep presetBlocks p st l).1 ls := by
  simp [runFrom, scanLoop, List.append_assoc]

theorem scanLoop_append (presetBlocks : List (Str × PresetBlock)) (p : Str) (xs ys : List Str)
    (st : ScanState) :
    scanLoop presetBlocks p st (xs ++ ys) =
      ((scanLoop presetBlocks p (scanLoop presetBlocks p st xs).1 ys).1,
        (scanLoop presetBlocks p st xs).2 ++
          (scanLoop presetBlocks p (scanLoop presetBlocks p st xs).1 ys).2) := by
  induction xs generalizing st with
  | nil => simp [scanLoop]
  | cons x xs ih => simp [scanLoop, ih, List.append_assoc]

theorem runFrom_append (presetBlocks : List (Str × PresetBlock)) (p : Str) (xs ys : List Str)
    (st : ScanState) :
    runFrom presetBlocks p st (xs ++ ys) =
      (scanLoop presetBlocks p st xs).2 ++
        runFrom presetBlocks p (scanLoop presetBlocks p st xs).1 ys := by
  simp [runFrom, scanLoop_append, List.append_assoc]

theorem writeBlockToFile_eq (b : PresetBlock) :
    writeBlockToFile b = lineWrites (specBlockLines b.Header (mapGet b.Values)) := by
  unfold writeBlockToFile lineWrites specBlockLines
  simp only [List.map_cons, List.map_filterMap]
  congr 1
  apply List.filterMap_congr
  intro key _
  cases mapGet b.Values key <;> simp

theorem scanStep_start (presetBlocks : List (Str × PresetBlock)) (p : Str) (st : ScanState)
    (l : Str) (h : isBlockStart p l = true) :
    scanStep presetBlocks p st l = (⟨true, ⟨l, []⟩⟩, finalFlush presetBlocks st) := by
  obtain ⟨s, hs, he⟩ := isBlockStart_eq_true.mp h
  unfold scanStep finalFlush
  rw [hs]
  simp only [← he, if_true]

theorem scanStep_closed (presetBlocks : List (Str × PresetBlock)) (p : Str) (c : PresetBlock)
    (l : Str) (h : isBlockStart p l = false) :
    scanStep presetBlocks p ⟨false, c⟩ l =
      (⟨false, c⟩, if (FindStringSubmatch l).isSome then [l ++ crlf] else []) := by
  unfold scanStep
  unfold isBlockStart at h
  cases hs : FindStringSubmatch l with
  | none => simp
  | some s =>
    rw [hs] at h
    have hne : l ≠ expectedBlockHeader p s := by simpa using h
    simp [hne]

theorem scanStep_open (presetBlocks : List (Str × PresetBlock)) (p : Str) (c : PresetBlock)
    (l : Str) (h : isBlockStart p l = false) :
    scanStep presetBlocks p ⟨true, c⟩ l =
      match (if (FindStringSubmatch l).isSome then keyValueOf l else none) with
      | some (key, value) =>
        if key = "HeightHighLimit".toList then
          (⟨false, ⟨c.Header, mapSet c.Values key value⟩⟩,
            flushBlock presetBlocks ⟨c.Header, mapSet c.Values key value⟩)
        else (⟨true, ⟨c.Header, mapSet c.Values key value⟩⟩, [])
      | none => (⟨true, c⟩, []) := by
  unfold scanStep
  unfold isBlockStart at h
  cases hs : FindStringSubmatch l with
  | none => simp
  | some s =>
    rw [hs] at h
    have hne : l ≠ expectedBlockHeader p s := by simpa using h
    simp only [hne, if_false, if_true, Option.isSome_some, keyValueOf]
    split <;> simp_all

theorem runFrom_closed (presetBlocks : List (Str × PresetBlock)) (p : Str) (c c' : PresetBlock)
    (ls : List Str) :
    runFrom presetBlocks p ⟨false, c⟩ ls = runFrom presetBlocks p ⟨false, c'⟩ ls := by
  induction ls with
  | nil => simp [runFrom_nil, finalFlush]
  | cons l ls ih =>
    rw [runFrom_cons, runFrom_cons]
    by_cases h : isBlockStart p l = true
    · rw [scanStep_start _ _ _ _ h, scanStep_start _ _ _ _ h]
      simp [finalFlush]
    · have h' : isBlockStart p l = false := by simpa using h
      rw [scanStep_closed _ _ _ _ h', scanStep_closed _ _ _ _ h']
      simp only
      rw [ih]

theorem flushBlock_of_entry {presetBlocks : List (Str × PresetBlock)} {c e : PresetBlock}
    (he : mapGet presetBlocks c.Header = some e) :
    flushBlock presetBlocks c = writeBlockToFile e := by
  simp [flushBlock, he]

theorem flushBlock_of_no_entry {presetBlocks : List (Str × PresetBlock)} {c : PresetBlock}
    (he : mapGet presetBlocks c.Header = none) :
    flushBlock presetBlocks c = writeBlockToFile c := by
  simp [flushBlock, he]

theorem runFrom_init_start (presetBlocks : List (Str × PresetBlock)) (p l : Str)
    (ls : List Str) (h : isBlockStart p l = true) :
    runFrom presetBlocks p ScanState.init (l :: ls) =
      runFrom presetBlocks p ⟨true, ⟨l, []⟩⟩ ls := by
  rw [runFrom_cons, scanStep_start _ _ _ _ h]
  simp [finalFlush, ScanState.init]

theorem runFrom_open_entry (presetBlocks : List (Str × PresetBlock)) (p : Str)
    (post : List Str) (c e : PresetBlock) (he : mapGet presetBlocks c.Header = some e) :
    ∃ post', post' <:+ post ∧
      runFrom presetBlocks p ⟨true, c⟩ post =
        writeBlockToFile e ++ runFrom presetBlocks p ScanState.init post' := by
  induction post generalizing c with
  | nil =>
    refine ⟨[], List.suffix_refl _, ?_⟩
    simp [runFrom_nil, finalFlush, flushBlock_of_entry he, ScanState.init]
  | cons l ls ih =>
    by_cases h : isBlockStart p l = true
    · refine ⟨l :: ls, List.suffix_refl _, ?_⟩
      rw [runFrom_cons, scanStep_start _ _ _ _ h, runFrom_init_start _ _ _ _ h]
      simp [finalFlush, flushBlock_of_entry he]
    · have h' : isBlockStart p l = false := by simpa using h
      rw [runFrom_cons, scanStep_open _ _ _ _ h']
      cases hkv : (if (FindStringSubmatch l).isSome then keyValueOf l else none) with
      | none =>
        obtain ⟨post', hsuf, hrun⟩ := ih c he
        exact ⟨post', hsuf.trans (List.suffix_cons _ _), by simpa using hrun⟩
      | some kv =>
        obtain ⟨key, value⟩ := kv
        by_cases hk : key = "HeightHighLimit".toList
        · refine ⟨ls, List.suffix_cons _ _, ?_⟩
          simp only [hk, if_true]
          rw [flushBlock_of_entry (by simpa using he)]
          rw [runFrom_closed presetBlocks p _ ScanState.init.currentBlock]
          rfl
        · obtain ⟨post', hsuf, hrun⟩ := ih ⟨c.Header, mapSet c.Values key value⟩ he
          refine ⟨post', hsuf.trans (List.suffix_cons _ _), ?_⟩
          simp only [hk, if_false]
          simpa using hrun

theorem specBlockLines_encodable {header : Str} {vals : Str → Option Str}
    (hh : encodable header = true)
    (hv : ∀ k ∈ keysOrder, ∀ v, vals k = some v → encodable v = true) :
    ∀ w ∈ lineWrites (specBlockLines header vals), encodable w = true := by
  intro w hw
  obtain ⟨l, hl, rfl⟩ := List.mem_map.mp hw
  rw [encodable_append]
  refine ⟨?_, encodable_crlf⟩
  have hl' : l = header ∨ l ∈ keysOrder.filterMap
      (fun key => (vals key).map (fun v => key ++ ['='] ++ v)) := by
    simpa [specBlockLines] using hl
  rcases hl' with rfl | hl'
  · exact hh
  · obtain ⟨key, hk, hkv⟩ := List.mem_filterMap.mp hl'
    cases hvk : vals key with
    | none => rw [hvk] at hkv; cases hkv
    | some v =>
      rw [hvk] at hkv
      simp only [Option.map_some', Option.some.injEq] at hkv
      rw [← hkv, encodable_append, encodable_append]
      exact ⟨⟨keysOrder_encodable key hk, by decide⟩, hv key hk v hvk⟩

/-- C2 as stated fails, in two ways.  With the project name `MaterialPairSlot7`
the header line of slot 3 has a preset entry (with `VerticalMask=1`), yet the
document made of that line is written as the line alone.  With the project
name `Proj1` and a preset entry whose `VerticalMask` value holds U+FFFD (the
character the decoder gives the byte 0x98), the write of that key line is cut
at the character and the next write follows on the same line. -/
theorem rewriteLines_block_not_as_claimed :
    (mapGet (ParsePresetBlocks [expectedBlockHeader slotLikeProject "3".toList,
        "VerticalMask=1".toList]) (expectedBlockHeader slotLikeProject "3".toList)
      = some ⟨expectedBlockHeader slotLikeProject "3".toList,
          [("VerticalMask".toList, "1".toList)]⟩ ∧
    decodeWindows1251 (fileBytes (rewriteLines
        (ParsePresetBlocks [expectedBlockHeader slotLikeProject "3".toList,
          "VerticalMask=1".toList]) slotLikeProject
        [expectedBlockHeader slotLikeProject "3".toList]))
      = expectedBlockHeader slotLikeProject "3".toList ++ crlf) ∧
    (isBlockStart "Proj1".toList proj1Slot3 = true ∧
    mapGet (ParsePresetBlocks brokenCharPreset) proj1Slot3
      = some ⟨proj1Slot3, [("HeightHighLimit".toList, "9".toList),
          ("VerticalMask".toList, "1".toList ++ [replacementChar])]⟩ ∧
    decodeWindows1251 (fileBytes (rewriteLines (ParsePresetBlocks brokenCharPreset)
        "Proj1".toList [proj1Slot3]))
      = proj1Slot3 ++ crlf ++ "VerticalMask=1HeightHighLimit=9".toList ++ crlf) := by
  decide

/-- C2 amended: when the header line of project `p` and slot `n` is recognised
as a block start (the slot number captured from its leftmost match is `n`), the
table loaded from the preset file has an entry under it, and the header line
and the entry's values for the KeyOrder keys hold only characters of the
Windows-1251 repertoire, then for every document `pre ++ header :: post` the
writes are those for `pre`, then one write per line of the block (the header
line and one `key=value` line per KeyOrder key of the entry, in KeyOrder order,
each with `\r\n`), then those for a final part of `post`; and the bytes of
the file are the bytes for `pre`, the Windows-1251 bytes of the block's text,
and the bytes for that final part.  The lines of `post` that belonged to the
block leave no trace. -/
theorem rewriteLines_preset_block (presetLines : List Str) (p n : Str) (pre post : List Str)
    (entry : PresetBlock)
    (hstart : isBlockStart p (expectedBlockHeader p n) = true)
    (hentry : mapGet (ParsePresetBlocks presetLines) (expectedBlockHeader p n) = some entry)
    (hhead : encodable (expectedBlockHeader p n) = true)
    (hvals : ∀ key ∈ keysOrder, ∀ v, mapGet entry.Values key = some v → encodable v = true) :
    ∃ post' block, post' <:+ post ∧
      rewriteLines (ParsePresetBlocks presetLines) p (pre ++ expectedBlockHeader p n :: post) =
        rewriteLines (ParsePresetBlocks presetLines) p pre ++
          lineWrites (specBlockLines (expectedBlockHeader p n) (mapGet entry.Values)) ++
          rewriteLines (ParsePresetBlocks presetLines) p post' ∧
      encodeText (renderLines (specBlockLines (expectedBlockHeader p n) (mapGet entry.Values)))
        = some block ∧
      fileBytes (rewriteLines (ParsePresetBlocks presetLines) p
          (pre ++ expectedBlockHeader p n :: post)) =
        fileBytes (rewriteLines (ParsePresetBlocks presetLines) p pre) ++ block ++
          fileBytes (rewriteLines (ParsePresetBlocks presetLines) p post') := by
  obtain ⟨post', hsuf, hrun⟩ := runFrom_open_entry (ParsePresetBlocks presetLines) p post
    ⟨expectedBlockHeader p n, []⟩ entry hentry
  have hhead' := (parsePresetBlocks_entry_header hentry).1
  have hw : rewriteLines (ParsePresetBlocks presetLines) p
      (pre ++ expectedBlockHeader p n :: post) =
      rewriteLines (ParsePresetBlocks presetLines) p pre ++
        lineWrites (specBlockLines (expectedBlockHeader p n) (mapGet entry.Values)) ++
        rewriteLines (ParsePresetBlocks presetLines) p post' := by
    rw [rewriteLines_eq_runFrom, runFrom_append, runFrom_cons, scanStep_start _ _ _ _ hstart]
    simp only
    rw [hrun, writeBlockToFile_eq, hhead']
    simp [rewriteLines_eq_runFrom, runFrom, List.append_assoc]
  refine ⟨post', fileBytes (lineWrites (specBlockLines (expectedBlockHeader p n)
    (mapGet entry.Values))), hsuf, hw, ?_, ?_⟩
  · exact fileBytes_of_encodable (specBlockLines_encodable hhead hvals)
  · rw [hw, fileBytes_append, fileBytes_append]

/-- The amended C2 at the scenario of the specification: the block of slot 3 of
`Proj1` with body `HeightHighLimit=5`, preset entry `VerticalMask=1`,
`HeightHighLimit=9`; the file reads as the header line, `VerticalMask=1` and
`HeightHighLimit=9`. -/
theorem rewriteLines_preset_block_witness :
    decodeWindows1251 (fileBytes (rewriteLines (ParsePresetBlocks proj1Preset) "Proj1".toList
        [proj1Slot3, "HeightHighLimit=5".toList]))
      = renderLines [proj1Slot3, "VerticalMask=1".toList, "HeightHighLimit=9".toList] ∧
    ∃ post' block, post' <:+ ["HeightHighLimit=5".toList] ∧
      rewriteLines (ParsePresetBlocks proj1Preset) "Proj1".toList
          ([] ++ expectedBlockHeader "Proj1".toList "3".toList :: ["HeightHighLimit=5".toList]) =
        rewriteLines (ParsePresetBlocks proj1Preset) "Proj1".toList [] ++
          lineWrites (specBlockLines (expectedBlockHeader "Proj1".toList "3".toList)
            (mapGet [("HeightHighLimit".toList, "9".toList),
              ("VerticalMask".toList, "1".toList)])) ++
          rewriteLines (ParsePresetBlocks proj1Preset) "Proj1".toList post' ∧
      encodeText (renderLines (specBlockLines (expectedBlockHeader "Proj1".toList "3".toList)
          (mapGet [("HeightHighLimit".toList, "9".toList),
            ("VerticalMask".toList, "1".toList)]))) = some block ∧
      fileBytes (rewriteLines (ParsePresetBlocks proj1Preset) "Proj1".toList
          ([] ++ expectedBlockHeader "Proj1".toList "3".toList :: ["HeightHighLimit=5".toList])) =
        fileBytes (rewriteLines (ParsePresetBlocks proj1Preset) "Proj1".toList []) ++ block ++
          fileBytes (rewriteLines (ParsePresetBlocks proj1Preset) "Proj1".toList post') :=
  ⟨by decide,
    rewriteLines_preset_block proj1Preset "Proj1".toList "3".toList []
      ["HeightHighLimit=5".toList]
      ⟨proj1Slot3, [("HeightHighLimit".toList, "9".toList), ("VerticalMask".toList, "1".toList)]⟩
      (isBlockStart_expectedBlockHeader (by decide) (by decide) (by decide)) (by decide)
      (by decide) (by decide)⟩

/-! ## A header line of another project -/

theorem encodable_of_digits {n : Str} (hn : ∀ c ∈ n, c.isDigit = true) : encodable n = true := by
  apply encodable_of_ascii
  intro c hc
  have h := hn c hc
  simp only [Char.isDigit, Bool.and_eq_true, decide_eq_true_eq] at h
  have h2 : c.val ≤ 57 := h.2
  have h3 : c.val.toNat ≤ 57 := UInt32.le_def.mp h2
  have h4 : c.toNat = c.val.toNat := rfl
  omega

theorem encodable_expectedBlockHeader {q n : Str} (hq : encodable q = true)
    (hn : ∀ c ∈ n, c.isDigit = true) : encodable (expectedBlockHeader q n) = true := by
  have hd := encodable_of_digits hn
  unfold expectedBlockHeader
  simp only [encodable_append, hq, hd, and_true, true_and]
  decide

/-- C7 as stated fails in its last part: with `p = Proj1`, `q` the one
character U+FFFD (what the decoder gives the byte 0x98 of a session file),
slot 3 and no block open, the line is not a block start, but the write of the
line is cut at that character: the file receives `[Session/dlc` and a
backslash, without the rest of the line and without `\r\n`. -/
theorem scanStep_other_project_header_cut :
    "Proj1".toList ≠ [replacementChar] ∧
    isBlockStart "Proj1".toList (expectedBlockHeader [replacementChar] "3".toList) = false ∧
    decodeWindows1251 (fileBytes (scanStep [] "Proj1".toList ScanState.init
        (expectedBlockHeader [replacementChar] "3".toList)).2) = "[Session/dlc\\".toList ∧
    decodeWindows1251 (fileBytes (scanStep [] "Proj1".toList ScanState.init
        (expectedBlockHeader [replacementChar] "3".toList)).2) ≠
      expectedBlockHeader [replacementChar] "3".toList ++ crlf := by
  decide

/-- C7 amended: for project names `p ≠ q` and a slot number `n` (a non-empty
string of digits), the header line of project `q` and slot `n` is not a block
start for a run with project name `p`; one pass of the loop over it leaves the
state as it is (no block is opened or closed, nothing is taken from the preset
table) and issues one write of the line followed by `\r\n` when no block is
open, none when one is; and when `q` holds only characters of the Windows-1251
repertoire, the bytes that reach the file for that pass decode to the line
followed by `\r\n` when no block is open, to nothing when one is. -/
theorem scanStep_other_project_header (presetBlocks : List (Str × PresetBlock))
    (p q n : Str) (st : ScanState) (hpq : p ≠ q) (hne : n ≠ [])
    (hn : ∀ c ∈ n, c.isDigit = true) :
    isBlockStart p (expectedBlockHeader q n) = false ∧
    scanStep presetBlocks p st (expectedBlockHeader q n) =
      (st, if st.inBlock then [] else [expectedBlockHeader q n ++ crlf]) ∧
    (encodable q = true →
      decodeWindows1251 (fileBytes (scanStep presetBlocks p st (expectedBlockHeader q n)).2) =
        if st.inBlock then [] else expectedBlockHeader q n ++ crlf) := by
  obtain ⟨s, hs⟩ := Option.isSome_iff_exists.mp
    (findStringSubmatch_expectedBlockHeader_isSome q n hne hn)
  have hsd := (findStringSubmatch_digits hs).2
  have hneq : expectedBlockHeader q n ≠ expectedBlockHeader p s := by
    intro h
    exact hpq (expectedBlockHeader_inj hn hsd h).1.symm
  have hstep : scanStep presetBlocks p st (expectedBlockHeader q n) =
      (st, if st.inBlock then [] else [expectedBlockHeader q n ++ crlf]) := by
    unfold scanStep
    rw [hs]
    simp only [hneq, if_false]
    cases hb : st.inBlock with
    | false => simp
    | true =>
      simp only [if_true]
      have hl := Split_length (expectedBlockHeader q n)
      rw [count_eq_expectedBlockHeader q n hn] at hl
      split
      · rename_i p0 p1 hsp
        rw [hsp] at hl
        simp at hl
      · rfl
  refine ⟨?_, hstep, ?_⟩
  · unfold isBlockStart
    rw [hs]
    simp [hneq]
  · intro hq
    rw [hstep]
    cases hb : st.inBlock with
    | true => rfl
    | false =>
      have henc : encodable (expectedBlockHeader q n ++ crlf) = true :=
        encodable_append.mpr ⟨encodable_expectedBlockHeader hq hn, encodable_crlf⟩
      have := @decode_fileBytes [expectedBlockHeader q n ++ crlf] (by simpa using henc)
      simpa using this

/-- The amended C7 at `p = Proj1`, `q = Other`, slot 3 and the initial state:
the line is not a block start, the pass issues one write of the line with
`\r\n`, and the file receives exactly that. -/
theorem scanStep_other_project_header_witness :
    isBlockStart "Proj1".toList (expectedBlockHeader "Other".toList "3".toList) = false ∧
    scanStep [] "Proj1".toList ScanState.init (expectedBlockHeader "Other".toList "3".toList) =
      (ScanState.init, [expectedBlockHeader "Other".toList "3".toList ++ crlf]) ∧
    decodeWindows1251 (fileBytes (scanStep [] "Proj1".toList ScanState.init
        (expectedBlockHeader "Other".toList "3".toList)).2) =
      expectedBlockHeader "Other".toList "3".toList ++ crlf :=
  ⟨(scanStep_other_project_header [] "Proj1".toList "Other".toList "3".toList ScanState.init
      (by decide) (by decide) (by decide)).1,
    (scanStep_other_project_header [] "Proj1".toList "Other".toList "3".toList ScanState.init
      (by decide) (by decide) (by decide)).2.1,
    (scanStep_other_project_header [] "Proj1".toList "Other".toList "3".toList ScanState.init
      (by decide) (by decide) (by decide)).2.2 (by decide)⟩

/-! ## The written text, read back as lines -/

theorem splitLines_line_append (l t : Str) (h : '\n' ∉ l) :
    splitLines (l ++ '\n' :: t) = l :: splitLines t := by
  induction l with
  | nil => simp [splitLines]
  | cons c cs ih =>
    have hc : c ≠ '\n' := fun e => h (by simp [e])
    have hcs : '\n' ∉ cs := fun e => h (by simp [e])
    simp [splitLines, hc, ih hcs]

theorem dropCR_append_cr (l : Str) : dropCR (l ++ ['\r']) = l := by
  simp [dropCR]

theorem textLines_line (l t : Str) (h : '\n' ∉ l) :
    textLines (l ++ crlf ++ t) = l :: textLines t := by
  have e : l ++ crlf ++ t = (l ++ ['\r']) ++ '\n' :: t := by simp [crlf]
  have hn : '\n' ∉ l ++ ['\r'] := by
    intro hm
    rcases List.mem_append.mp hm with hm | hm
    · exact h hm
    · simp at hm
  rw [e]
  unfold textLines
  rw [splitLines_line_append _ _ hn, List.map_cons, dropCR_append_cr]

theorem textLines_renderLines_append (ls : List Str) (t : Str) (h : ∀ l ∈ ls, '\n' ∉ l) :
    textLines (renderLines ls ++ t) = ls ++ textLines t := by
  induction ls with
  | nil => simp [renderLines, lineWrites]
  | cons l ls ih =>
    have e : renderLines (l :: ls) ++ t = l ++ crlf ++ (renderLines ls ++ t) := by
      simp [renderLines, lineWrites, List.append_assoc]
    rw [e, textLines_line _ _ (h l (by simp)), ih (fun x hx => h x (by simp [hx]))]
    rfl

theorem writtenLines_nil : writtenLines [] = [] := by
  simp [writtenLines, textLines, splitLines]

theorem writtenLines_lineWrites_append (ls : List Str) (ws : List Str)
    (h : ∀ l ∈ ls, '\n' ∉ l) :
    writtenLines (lineWrites ls ++ ws) = ls ++ writtenLines ws := by
  have := textLines_renderLines_append ls ws.flatten h
  simpa [writtenLines, renderLines] using this

theorem writtenLines_line (l : Str) (ws : List Str) (h : '\n' ∉ l) :
    writtenLines ((l ++ crlf) :: ws) = l :: writtenLines ws := by
  have := writtenLines_lineWrites_append [l] ws (by simpa using h)
  simpa [lineWrites] using this

theorem isBlockStart_head {p l : Str} (h : isBlockStart p l = true) : l.head? = some '[' := by
  obtain ⟨s, _, he⟩ := isBlockStart_eq_true.mp h
  rw [he]
  simp [expectedBlockHeader]

theorem keysOrder_head : ∀ key ∈ keysOrder, key ≠ [] ∧ key.head? ≠ some '[' ∧ '\n' ∉ key := by
  decide

theorem isBlockStart_key_line (p : Str) {key : Str} (v : Str) (hk : key ∈ keysOrder) :
    isBlockStart p (key ++ ['='] ++ v) = false := by
  obtain ⟨hne, hh, _⟩ := keysOrder_head key hk
  cases hb : isBlockStart p (key ++ ['='] ++ v) with
  | false => rfl
  | true =>
    have := isBlockStart_head hb
    cases key with
    | nil => exact absurd rfl hne
    | cons c cs =>
      simp only [List.cons_append, List.head?_cons, Option.some.injEq] at this
      simp [this] at hh

theorem specBlockLines_tail_mem {header : Str} {vals : Str → Option Str} {l : Str}
    (h : l ∈ (specBlockLines header vals).tail) :
    ∃ key ∈ keysOrder, ∃ v, vals key = some v ∧ l = key ++ ['='] ++ v := by
  simp only [specBlockLines, List.tail_cons, List.mem_filterMap] at h
  obtain ⟨key, hk, hv⟩ := h
  cases hvk : vals key with
  | none => rw [hvk] at hv; cases hv
  | some v =>
    rw [hvk] at hv
    simp only [Option.map_some', Option.some.injEq] at hv
    exact ⟨key, hk, v, hvk, hv.symm⟩

theorem specBlockLines_no_newline {header : Str} {vals : Str → Option Str}
    (hh : '\n' ∉ header) (hv : ∀ k ∈ keysOrder, ∀ v, vals k = some v → '\n' ∉ v) :
    ∀ l ∈ specBlockLines header vals, '\n' ∉ l := by
  intro l hl
  have hl' : l = header ∨ l ∈ (specBlockLines header vals).tail := by
    simpa [specBlockLines] using hl
  rcases hl' with rfl | hl'
  · exact hh
  · obtain ⟨key, hk, v, hvk, rfl⟩ := specBlockLines_tail_mem hl'
    intro hm
    rcases List.mem_append.mp hm with hm | hm
    · rcases List.mem_append.mp hm with hm | hm
      · exact (keysOrder_head key hk).2.2 hm
      · simp at hm
    · exact hv key hk v hvk hm

theorem blockHeaders_block (p header : Str) (vals : Str → Option Str) (ws : List Str)
    (hh : '\n' ∉ header) (hv : ∀ k v, vals k = some v → '\n' ∉ v) :
    (writtenLines (lineWrites (specBlockLines header vals) ++ ws)).filter (isBlockStart p) =
      (if isBlockStart p header = true then [header] else []) ++
        (writtenLines ws).filter (isBlockStart p) := by
  rw [writtenLines_lineWrites_append _ _
    (specBlockLines_no_newline hh (fun k _ v h => hv k v h)), List.filter_append]
  congr 1
  have htail : (specBlockLines header vals).tail.filter (isBlockStart p) = [] := by
    rw [List.filter_eq_nil_iff]
    intro l hl
    obtain ⟨key, hk, v, _, rfl⟩ := specBlockLines_tail_mem hl
    have := isBlockStart_key_line p v hk
    simp only [this]
    exact Bool.false_ne_true
  have hcons : specBlockLines header vals = header :: (specBlockLines header vals).tail := rfl
  rw [hcons, List.filter_cons, htail]

theorem flushBlock_lines (Q : Str → Prop) {presetBlocks : List (Str × PresetBlock)}
    (c : PresetBlock)
    (htbl : ∀ h b, mapGet presetBlocks h = some b →
      b.Header = h ∧ ∀ k v, mapGet b.Values k = some v → Q v)
    (hc : ∀ k v, mapGet c.Values k = some v → Q v) :
    ∃ vals : Str → Option Str, (∀ k v, vals k = some v → Q v) ∧
      flushBlock presetBlocks c = lineWrites (specBlockLines c.Header vals) := by
  cases he : mapGet presetBlocks c.Header with
  | none => exact ⟨mapGet c.Values, hc, by rw [flushBlock_of_no_entry he, writeBlockToFile_eq]⟩
  | some e =>
    refine ⟨mapGet e.Values, (htbl _ _ he).2, ?_⟩
    rw [flushBlock_of_entry he, writeBlockToFile_eq, (htbl _ _ he).1]

theorem blockHeaders_flush {presetBlocks : List (Str × PresetBlock)} (p : Str) (c : PresetBlock)
    (ws : List Str)
    (htbl : ∀ h b, mapGet presetBlocks h = some b →
      b.Header = h ∧ ∀ k v, mapGet b.Values k = some v → '\n' ∉ v)
    (hstart : isBlockStart p c.Header = true) (hh : '\n' ∉ c.Header)
    (hc : ∀ k v, mapGet c.Values k = some v → '\n' ∉ v) :
    (writtenLines (flushBlock presetBlocks c ++ ws)).filter (isBlockStart p) =
      c.Header :: (writtenLines ws).filter (isBlockStart p) := by
  obtain ⟨vals, hvals, hf⟩ := flushBlock_lines (fun v => '\n' ∉ v) c htbl hc
  rw [hf, blockHeaders_block p c.Header vals ws hh hvals, if_pos hstart]
  rfl

theorem blockHeaders_runFrom {presetBlocks : List (Str × PresetBlock)} (p : Str)
    (htbl : ∀ h b, mapGet presetBlocks h = some b →
      b.Header = h ∧ ∀ k v, mapGet b.Values k = some v → '\n' ∉ v)
    (doc : List Str) (hdoc : ∀ l ∈ doc, '\n' ∉ l) (st : ScanState)
    (hst : st.inBlock = true → isBlockStart p st.currentBlock.Header = true ∧
      '\n' ∉ st.currentBlock.Header ∧
      ∀ k v, mapGet st.currentBlock.Values k = some v → '\n' ∉ v) :
    (writtenLines (runFrom presetBlocks p st doc)).filter (isBlockStart p) =
      (if st.inBlock = true then [st.currentBlock.Header] else []) ++
        doc.filter (isBlockStart p) := by
  induction doc generalizing st with
  | nil =>
    rw [runFrom_nil]
    obtain ⟨b, c⟩ := st
    cases b with
    | false => simp [finalFlush, writtenLines_nil]
    | true =>
      obtain ⟨h1, h2, h3⟩ := hst rfl
      have := blockHeaders_flush p c [] htbl h1 h2 h3
      simpa [finalFlush, writtenLines_nil] using this
  | cons l ls ih =>
    have hl : '\n' ∉ l := hdoc l (by simp)
    have hls : ∀ x ∈ ls, '\n' ∉ x := fun x hx => hdoc x (by simp [hx])
    rw [runFrom_cons]
    by_cases h : isBlockStart p l = true
    · rw [scanStep_start _ _ _ _ h, List.filter_cons, if_pos h]
      have ih' := ih hls ⟨true, ⟨l, []⟩⟩ (fun _ => ⟨h, hl, by simp [mapGet]⟩)
      obtain ⟨b, c⟩ := st
      cases b with
      | false => simpa [finalFlush] using ih'
      | true =>
        obtain ⟨h1, h2, h3⟩ := hst rfl
        simp only [finalFlush, if_true]
        rw [blockHeaders_flush p c _ htbl h1 h2 h3, ih']
        simp
    · have h' : isBlockStart p l = false := by simpa using h
      rw [List.filter_cons, if_neg h]
      obtain ⟨b, c⟩ := st
      cases b with
      | false =>
        rw [scanStep_closed _ _ _ _ h']
        have ih' := ih hls ⟨false, c⟩ (by simp)
        by_cases hm : (FindStringSubmatch l).isSome = true
        · rw [if_pos hm]
          simp only [List.singleton_append]
          rw [writtenLines_line _ _ hl, List.filter_cons, if_neg h, ih']
        · rw [if_neg hm]
          simpa using ih'
      | true =>
        obtain ⟨h1, h2, h3⟩ := hst rfl
        rw [scanStep_open _ _ _ _ h']
        cases hkv : (if (FindStringSubmatch l).isSome then keyValueOf l else none) with
        | none =>
          have ih' := ih hls ⟨true, c⟩ (fun _ => ⟨h1, h2, h3⟩)
          simpa using ih'
        | some kv =>
          obtain ⟨key, value⟩ := kv
          have hkv' : keyValueOf l = some (key, value) := by
            by_cases hm : (FindStringSubmatch l).isSome = true
            · simpa [hm] using hkv
            · simp [hm] at hkv
          have hval : '\n' ∉ value := fun hm => hl ((keyValueOf_mem hkv').2 _ hm)
          have hvals : ∀ k v, mapGet (mapSet c.Values key value) k = some v → '\n' ∉ v := by
            intro k v hv
            rw [mapGet_mapSet] at hv
            by_cases hk : key = k
            · rw [if_pos hk] at hv; cases hv; exact hval
            · rw [if_neg hk] at hv; exact h3 k v hv
          by_cases hk : key = "HeightHighLimit".toList
          · simp only [if_pos hk]
            rw [blockHeaders_flush p ⟨c.Header, mapSet c.Values key value⟩ _ htbl h1 h2 hvals,
              ih hls ⟨false, _⟩ (by simp)]
            simp
          · simp only [if_neg hk, List.nil_append]
            exact ih hls ⟨true, ⟨c.Header, mapSet c.Values key value⟩⟩ (fun _ => ⟨h1, h2, hvals⟩)

/-! ## Every write stays inside the Windows-1251 repertoire -/

theorem flushBlock_encodable {presetBlocks : List (Str × PresetBlock)} (c : PresetBlock)
    (htbl : ∀ h b, mapGet presetBlocks h = some b →
      b.Header = h ∧ ∀ k v, mapGet b.Values k = some v → encodable v = true)
    (hh : encodable c.Header = true)
    (hc : ∀ k v, mapGet c.Values k = some v → encodable v = true) :
    ∀ w ∈ flushBlock presetBlocks c, encodable w = true := by
  obtain ⟨vals, hvals, hf⟩ := flushBlock_lines (fun v => encodable v = true) c htbl hc
  rw [hf]
  exact specBlockLines_encodable hh (fun k _ v hv => hvals k v hv)

theorem encodable_of_subset {a b : Str} (h : ∀ c ∈ a, c ∈ b) (hb : encodable b = true) :
    encodable a = true :=
  encodable_iff.mpr (fun c hc => (encodable_iff.mp hb) c (h c hc))

theorem runFrom_encodable {presetBlocks : List (Str × PresetBlock)} (p : Str)
    (htbl : ∀ h b, mapGet presetBlocks h = some b →
      b.Header = h ∧ ∀ k v, mapGet b.Values k = some v → encodable v = true)
    (doc : List Str) (hdoc : ∀ l ∈ doc, encodable l = true) (st : ScanState)
    (hst : st.inBlock = true → encodable st.currentBlock.Header = true ∧
      ∀ k v, mapGet st.currentBlock.Values k = some v → encodable v = true) :
    ∀ w ∈ runFrom presetBlocks p st doc, encodable w = true := by
  induction doc generalizing st with
  | nil =>
    rw [runFrom_nil]
    obtain ⟨b, c⟩ := st
    cases b with
    | false => simp [finalFlush]
    | true =>
      obtain ⟨h1, h2⟩ := hst rfl
      simpa [finalFlush] using flushBlock_encodable c htbl h1 h2
  | cons l ls ih =>
    have hl : encodable l = true := hdoc l (by simp)
    have hls : ∀ x ∈ ls, encodable x = true := fun x hx => hdoc x (by simp [hx])
    rw [runFrom_cons]
    intro w hw
    rcases List.mem_append.mp hw with hw | hw
    · by_cases h : isBlockStart p l = true
      · rw [scanStep_start _ _ _ _ h] at hw
        obtain ⟨b, c⟩ := st
        cases b with
        | false => simp [finalFlush] at hw
        | true =>
          obtain ⟨h1, h2⟩ := hst rfl
          exact flushBlock_encodable c htbl h1 h2 w (by simpa [finalFlush] using hw)
      · have h' : isBlockStart p l = false := by simpa using h
        obtain ⟨b, c⟩ := st
        cases b with
        | false =>
          rw [scanStep_closed _ _ _ _ h'] at hw
          by_cases hm : (FindStringSubmatch l).isSome = true
          · rw [if_pos hm] at hw
            simp only [List.mem_singleton] at hw
            rw [hw, encodable_append]
            exact ⟨hl, encodable_crlf⟩
          · rw [if_neg hm] at hw
            cases hw
        | true =>
          obtain ⟨h1, h2⟩ := hst rfl
          rw [scanStep_open _ _ _ _ h'] at hw
          cases hkv : (if (FindStringSubmatch l).isSome then keyValueOf l else none) with
          | none => rw [hkv] at hw; cases hw
          | some kv =>
            obtain ⟨key, value⟩ := kv
            rw [hkv] at hw
            have hkv' : keyValueOf l = some (key, value) := by
              by_cases hm : (FindStringSubmatch l).isSome = true
              · simpa [hm] using hkv
              · simp [hm] at hkv
            have hval : encodable value = true :=
              encodable_of_subset (keyValueOf_mem hkv').2 hl
            have hvals : ∀ k v, mapGet (mapSet c.Values key value) k = some v →
                encodable v = true := by
              intro k v hv
              rw [mapGet_mapSet] at hv
              by_cases hk : key = k
              · rw [if_pos hk] at hv; cases hv; exact hval
              · rw [if_neg hk] at hv; exact h2 k v hv
            by_cases hk : key = "HeightHighLimit".toList
            · simp only [if_pos hk] at hw
              exact flushBlock_encodable ⟨c.Header, mapSet c.Values key value⟩ htbl h1 hvals w hw
            · simp only [if_neg hk] at hw
              cases hw
    · refine ih hls _ ?_ w hw
      by_cases h : isBlockStart p l = true
      · rw [scanStep_start _ _ _ _ h]
        intro _
        exact ⟨hl, by simp [mapGet]⟩
      · have h' : isBlockStart p l = false := by simpa using h
        obtain ⟨b, c⟩ := st
        cases b with
        | false =>
          rw [scanStep_closed _ _ _ _ h']
          intro hb
          cases hb
        | true =>
          obtain ⟨h1, h2⟩ := hst rfl
          rw [scanStep_open _ _ _ _ h']
          cases hkv : (if (FindStringSubmatch l).isSome then keyValueOf l else none) with
          | none => exact fun _ => ⟨h1, h2⟩
          | some kv =>
            obtain ⟨key, value⟩ := kv
            have hkv' : keyValueOf l = some (key, value) := by
              by_cases hm : (FindStringSubmatch l).isSome = true
              · simpa [hm] using hkv
              · simp [hm] at hkv
            have hval : encodable value = true :=
              encodable_of_subset (keyValueOf_mem hkv').2 hl
            have hvals : ∀ k v, mapGet (mapSet c.Values key value) k = some v →
                encodable v = true := by
              intro k v hv
              rw [mapGet_mapSet] at hv
              by_cases hk : key = k
              · rw [if_pos hk] at hv; cases hv; exact hval
              · rw [if_neg hk] at hv; exact h2 k v hv
            by_cases hk : key = "HeightHighLimit".toList
            · simp only [if_pos hk]
              intro hb
              cases hb
            · simp only [if_neg hk]
              exact fun _ => ⟨h1, hvals⟩

theorem parsePresetBlocks_entry_encodable {lines : List Str} {h : Str} {b : PresetBlock}
    (hl : ∀ l ∈ lines, encodable l = true) (hb : mapGet (ParsePresetBlocks lines) h = some b) :
    encodable b.Header = true ∧ ∀ k v, mapGet b.Values k = some v → encodable v = true := by
  have := parsePresetBlocks_entry_chars (fun c => (encodeRune c).isSome = true)
    (fun l hl' => encodable_iff.mp (hl l hl')) hb
  exact ⟨encodable_iff.mpr this.1, fun k v hv => encodable_iff.mpr (this.2 k v hv)⟩

theorem rewriteLines_encodable (presetLines doc : List Str) (p : Str)
    (hpreset : ∀ l ∈ presetLines, encodable l = true) (hdoc : ∀ l ∈ doc, encodable l = true) :
    ∀ w ∈ rewriteLines (ParsePresetBlocks presetLines) p doc, encodable w = true := by
  rw [rewriteLines_eq_runFrom]
  exact @runFrom_encodable (ParsePresetBlocks presetLines) p
    (fun h b hb => ⟨(parsePresetBlocks_entry_header hb).1,
      (parsePresetBlocks_entry_encodable hpreset hb).2⟩)
    doc hdoc ScanState.init (by simp [ScanState.init])

theorem rewriteLines_written_headers (presetLines doc : List Str) (p : Str)
    (hpreset : ∀ l ∈ presetLines, '\n' ∉ l) (hdoc : ∀ l ∈ doc, '\n' ∉ l) :
    (writtenLines (rewriteLines (ParsePresetBlocks presetLines) p doc)).filter (isBlockStart p) =
      doc.filter (isBlockStart p) := by
  have := @blockHeaders_runFrom (ParsePresetBlocks presetLines) p
    (fun h b hb => ⟨(parsePresetBlocks_entry_header hb).1,
      (parsePresetBlocks_entry_no_newline hpreset hb).2⟩)
    doc hdoc ScanState.init (by simp [ScanState.init])
  simpa [rewriteLines_eq_runFrom, ScanState.init] using this

/-- C9 as stated fails: with no preset entry, the document of the header line
of slot 3 of `Proj1`, a line `Probability=` followed by U+FFFD (what the
decoder gives the byte 0x98) and `MaterialPairSlot1`, and the header line of
slot 4 has two recognised header lines, and the file
written for it has one: the write of the key line is cut at the character, so
the header line of slot 4 follows `Probability=` on the same line. -/
theorem rewriteLines_block_header_lost :
    brokenCharSession.filter (isBlockStart "Proj1".toList) =
      [proj1Slot3, expectedBlockHeader "Proj1".toList "4".toList] ∧
    textLines (decodeWindows1251 (fileBytes
        (rewriteLines (ParsePresetBlocks []) "Proj1".toList brokenCharSession))) =
      [proj1Slot3, "Probability=".toList ++ expectedBlockHeader "Proj1".toList "4".toList] ∧
    (textLines (decodeWindows1251 (fileBytes
        (rewriteLines (ParsePresetBlocks []) "Proj1".toList brokenCharSession)))).filter
        (isBlockStart "Proj1".toList) = [proj1Slot3] := by
  decide

/-- C9 amended: when no line of the session file or of the preset file holds a
line feed (they are scanner lines) and every write of the run holds only
characters of the Windows-1251 repertoire, the recognised block-header lines
of the file written, decoded and split into lines, are the recognised
block-header lines of the document, in the same order and with the same
multiplicity. -/
theorem rewriteLines_block_headers (presetLines doc : List Str) (p : Str)
    (hpreset : ∀ l ∈ presetLines, '\n' ∉ l) (hdoc : ∀ l ∈ doc, '\n' ∉ l)
    (hwrites : ∀ w ∈ rewriteLines (ParsePresetBlocks presetLines) p doc, encodable w = true) :
    (textLines (decodeWindows1251 (fileBytes
        (rewriteLines (ParsePresetBlocks presetLines) p doc)))).filter (isBlockStart p) =
      doc.filter (isBlockStart p) := by
  rw [decode_fileBytes hwrites]
  exact rewriteLines_written_headers presetLines doc p hpreset hdoc

/-- The amended C9 at the sample session file and the preset for slot 3 of
`Proj1`: no line holds a line feed, every write is inside the repertoire, and
the recognised headers of the file written are those of the document, slot 3
then slot 12. -/
theorem rewriteLines_block_headers_witness :
    (∀ l ∈ proj1Preset, '\n' ∉ l) ∧ (∀ l ∈ sampleSession, '\n' ∉ l) ∧
    (∀ w ∈ rewriteLines (ParsePresetBlocks proj1Preset) "Proj1".toList sampleSession,
      encodable w = true) ∧
    (textLines (decodeWindows1251 (fileBytes
        (rewriteLines (ParsePresetBlocks proj1Preset) "Proj1".toList sampleSession)))).filter
        (isBlockStart "Proj1".toList) =
      sampleSession.filter (isBlockStart "Proj1".toList) ∧
    sampleSession.filter (isBlockStart "Proj1".toList) =
      [proj1Slot3, expectedBlockHeader "Proj1".toList "12".toList] :=
  ⟨by decide, by decide, by decide,
    rewriteLines_block_headers proj1Preset sampleSession "Proj1".toList (by decide) (by decide)
      (by decide),
    by decide⟩

/-! ## The converter and the loader -/

theorem collapsePairs_sep (c sep : Char) (hsep : sep ≠ c) (a b : Str) :
    collapsePairs c (a ++ sep :: b) = collapsePairs c a ++ sep :: collapsePairs c b := by
  induction a using collapsePairs.induct c with
  | case1 =>
    cases b with
    | nil => simp [collapsePairs]
    | cons x xs => simp [collapsePairs, hsep]
  | case2 a =>
    simp only [List.cons_append, List.nil_append, collapsePairs]
    rw [if_neg (by intro h; exact hsep h.2)]
    cases b with
    | nil => simp [collapsePairs]
    | cons x xs => simp [collapsePairs, hsep]
  | case3 a b' rest h ih =>
    simp only [List.cons_append, collapsePairs, if_pos h]
    exact congrArg (List.cons c) ih
  | case4 a b' rest h ih =>
    simp only [List.cons_append, collapsePairs, if_neg h]
    exact congrArg (List.cons a) ih

theorem mem_collapsePairs (c : Char) (s : Str) {x : Char} (h : x ∈ collapsePairs c s) :
    x ∈ s := by
  induction s using collapsePairs.induct c with
  | case1 => simp [collapsePairs] at h
  | case2 a => simpa [collapsePairs] using h
  | case3 a b rest hab ih =>
    simp only [collapsePairs, if_pos hab, List.mem_cons] at h
    rcases h with h | h
    · simp [h, hab.1]
    · simp [ih h]
  | case4 a b rest hab ih =>
    simp only [collapsePairs, if_neg hab, List.mem_cons] at h
    rcases h with h | h
    · simp [h]
    · have := ih h
      simp only [List.mem_cons] at this ⊢
      exact Or.inr this

theorem collapsePairs_head (c : Char) (a : Char) (s : Str) :
    ∃ t, collapsePairs c (a :: s) = a :: t := by
  cases s with
  | nil => exact ⟨[], by simp [collapsePairs]⟩
  | cons b rest =>
    by_cases h : a = c ∧ b = c
    · exact ⟨collapsePairs c rest, by simp [collapsePairs, h]⟩
    · exact ⟨collapsePairs c (b :: rest), by simp only [collapsePairs, if_neg h]⟩

theorem collapsePairs_getLast (c : Char) (s : Str) :
    (collapsePairs c s).getLast? = s.getLast? := by
  induction s using collapsePairs.induct c with
  | case1 => simp [collapsePairs]
  | case2 a => simp [collapsePairs]
  | case3 a b rest hab ih =>
    simp only [collapsePairs, if_pos hab]
    cases rest with
    | nil => simp [collapsePairs, hab.2]
    | cons r rs =>
      obtain ⟨t, ht⟩ := collapsePairs_head c r rs
      rw [ht] at ih ⊢
      simp only [List.getLast?_cons_cons] at ih ⊢
      exact ih
  | case4 a b rest hab ih =>
    simp only [collapsePairs, if_neg hab]
    obtain ⟨t, ht⟩ := collapsePairs_head c b rest
    rw [ht] at ih ⊢
    simp only [List.getLast?_cons_cons]
    exact ih

theorem replaceDoubleBrackets_sep (sep : Char) (h1 : sep ≠ '[') (h2 : sep ≠ ']') (a b : Str) :
    replaceDoubleBrackets (a ++ sep :: b) =
      replaceDoubleBrackets a ++ sep :: replaceDoubleBrackets b := by
  unfold replaceDoubleBrackets
  rw [collapsePairs_sep _ _ h1, collapsePairs_sep _ _ h2]

theorem mem_replaceDoubleBrackets {s : Str} {x : Char} (h : x ∈ replaceDoubleBrackets s) :
    x ∈ s :=
  mem_collapsePairs _ _ (mem_collapsePairs _ _ h)

theorem replaceDoubleBrackets_lines (ls : List Str) :
    replaceDoubleBrackets ((ls.map (fun l => l ++ ['\n'])).flatten) =
      ((ls.map replaceDoubleBrackets).map (fun l => l ++ ['\n'])).flatten := by
  induction ls with
  | nil => rfl
  | cons l ls ih =>
    simp only [List.map_cons, List.flatten_cons, List.append_assoc, List.singleton_append]
    rw [replaceDoubleBrackets_sep _ (by decide) (by decide), ih]

theorem headerLineOf_head (path : Str) : ∃ t, headerLineOf path = '[' :: t := by
  unfold headerLineOf replaceDoubleBrackets
  obtain ⟨t, ht⟩ := collapsePairs_head '[' '[' (collapsePairs ']' (collapsePairs '[' path) ++ "]".toList)
  have e : "[".toList ++ collapsePairs ']' (collapsePairs '[' path) ++ "]".toList =
      '[' :: (collapsePairs ']' (collapsePairs '[' path) ++ "]".toList) := by simp
  rw [e, ht]
  obtain ⟨t', ht'⟩ := collapsePairs_head ']' '[' t
  exact ⟨t', ht'⟩

theorem headerLineOf_getLast (path : Str) : (headerLineOf path).getLast? = some ']' := by
  unfold headerLineOf replaceDoubleBrackets
  rw [collapsePairs_getLast, collapsePairs_getLast]
  have e : "[".toList ++ collapsePairs ']' (collapsePairs '[' path) ++ "]".toList =
      ('[' :: collapsePairs ']' (collapsePairs '[' path)) ++ [']'] := by simp
  rw [e, List.getLast?_concat]

theorem utf8EncodeChar_ascii (c : Char) (h : c.toNat < 128) :
    String.utf8EncodeChar c = [c.val.toUInt8] := by
  unfold String.utf8EncodeChar
  have : c.val ≤ 127 := by
    rw [UInt32.le_def]
    exact Nat.le_of_lt_succ h
  simp [this]

theorem toUInt8_toNat_ascii (c : Char) (h : c.toNat < 128) :
    (c.val.toUInt8).toNat = c.toNat := by
  simp [UInt32.toUInt8, Nat.toUInt8, UInt8.ofNat, UInt8.toNat, Char.toNat, Fin.ofNat]
  unfold Char.toNat at h
  omega

theorem utf8Len_ascii (s : Str) (h : ∀ c ∈ s, c.toNat < 128) : utf8Len s = s.length := by
  induction s with
  | nil => rfl
  | cons c cs ih =>
    have hc : c.toNat < 128 := h c (by simp)
    have ih' := ih (fun x hx => h x (by simp [hx]))
    unfold utf8Len utf8Bytes at ih' ⊢
    simp only [List.map_cons, List.flatten_cons, utf8EncodeChar_ascii c hc, List.singleton_append,
      List.length_cons, ih']

theorem decode_utf8_ascii (s : Str) (h : ∀ c ∈ s, c.toNat < 128) :
    decodeWindows1251 (utf8Bytes s) = s := by
  induction s with
  | nil => rfl
  | cons c cs ih =>
    have hc : c.toNat < 128 := h c (by simp)
    have ih' := ih (fun x hx => h x (by simp [hx]))
    unfold utf8Bytes decodeWindows1251 at ih' ⊢
    simp only [List.map_cons, List.flatten_cons, utf8EncodeChar_ascii c hc, List.singleton_append,
      decodeByte, toUInt8_toNat_ascii c hc, hc, if_true, Char.ofNat_toNat]
    rw [ih']

theorem convertEntry_eq (e : StrMap) :
    convertEntry (some e) = ((rawEntryLines e).map (fun l => l ++ ['\n'])).flatten := by
  unfold convertEntry rawEntryLines
  simp only [List.map_append, List.flatten_append, List.map_filterMap]
  congr 1
  · cases mapGet e "path".toList <;> simp
  · congr 1
    apply List.filterMap_congr
    intro key _
    cases mapGet e key <;> simp

theorem keysOrder_replace : ∀ key ∈ keysOrder, replaceDoubleBrackets key = key := by decide

theorem cleanFields_value {e : StrMap} (he : cleanFields e = true) {key v : Str}
    (hk : key ∈ keysOrder) (hv : mapGet e key = some v) : cleanValue v = true := by
  unfold cleanFields at he
  simp only [Bool.and_eq_true, List.all_eq_true] at he
  have := he.2 key hk
  rw [hv] at this
  exact this

theorem cleanValue_spec {v : Str} (h : cleanValue v = true) :
    (∀ c ∈ v, c.toNat < 128 ∧ c ≠ '\n' ∧ c ≠ '=') ∧ TrimSpace v = v ∧
      replaceDoubleBrackets v = v := by
  unfold cleanValue at h
  simp only [Bool.and_eq_true, List.all_eq_true, decide_eq_true_eq] at h
  exact ⟨fun c hc => ⟨(h.1.1 c hc).1.1, (h.1.1 c hc).1.2, (h.1.1 c hc).2⟩, h.1.2, h.2⟩

theorem rawEntryLines_replace {e : StrMap} (he : cleanFields e = true) :
    (rawEntryLines e).map replaceDoubleBrackets = entryLines e := by
  unfold rawEntryLines entryLines
  rw [List.map_append]
  congr 1
  · cases mapGet e "path".toList <;> simp [headerLineOf]
  · rw [List.map_filterMap]
    apply List.filterMap_congr
    intro key hk
    cases hv : mapGet e key with
    | none => rfl
    | some v =>
      have hc := (cleanValue_spec (cleanFields_value he hk hv)).2.2
      simp only [Option.map_some', Option.bind_some, Option.some.injEq]
      have : key ++ ['='] ++ v = key ++ '=' :: v := by simp
      rw [this, replaceDoubleBrackets_sep _ (by decide) (by decide), keysOrder_replace key hk, hc]

theorem convertEntries_raw (entries : List StrMap) :
    (entries.map (fun e => convertEntry (some e))).flatten =
      (((entries.map rawEntryLines).flatten).map (fun l => l ++ ['\n'])).flatten := by
  induction entries with
  | nil => rfl
  | cons e es ih =>
    simp only [List.map_cons, List.flatten_cons, List.map_append, List.flatten_append]
    rw [convertEntry_eq]
    exact congrArg _ ih

theorem rawEntries_replace (entries : List StrMap) (hclean : ∀ e ∈ entries, cleanFields e = true) :
    ((entries.map rawEntryLines).flatten).map replaceDoubleBrackets =
      (entries.map entryLines).flatten := by
  induction entries with
  | nil => rfl
  | cons e es ih =>
    simp only [List.map_cons, List.flatten_cons, List.map_append]
    rw [rawEntryLines_replace (hclean e (by simp)), ih (fun x hx => hclean x (by simp [hx]))]

theorem convertJSONToTxt_lines (jsonData : List (Str × StrMap)) (entries : List StrMap)
    (hlen : mapLen jsonData = entries.length)
    (hget : ∀ i e, entries[i]? = some e → mapGet jsonData (itoa (i + 1)) = some e)
    (hclean : ∀ e ∈ entries, cleanFields e = true) :
    ConvertJSONToTxt jsonData =
      (((entries.map entryLines).flatten).map (fun l => l ++ ['\n'])).flatten := by
  unfold ConvertJSONToTxt
  have hmap : (List.range (mapLen jsonData)).map
      (fun i => convertEntry (mapGet jsonData (itoa (i + 1)))) =
      entries.map (fun e => convertEntry (some e)) := by
    apply List.ext_getElem
    · simp [hlen]
    · intro n h1 h2
      simp only [List.length_map, List.length_range] at h1 h2
      simp [hget n entries[n] (List.getElem?_eq_getElem h2)]
  rw [hmap, convertEntries_raw, replaceDoubleBrackets_lines, rawEntries_replace entries hclean]

theorem splitLines_lines (ls : List Str) (h : ∀ l ∈ ls, '\n' ∉ l) :
    splitLines ((ls.map (fun l => l ++ ['\n'])).flatten) = ls := by
  induction ls with
  | nil => rfl
  | cons l ls ih =>
    simp only [List.map_cons, List.flatten_cons, List.append_assoc, List.singleton_append]
    rw [splitLines_line_append _ _ (h l (by simp)), ih (fun x hx => h x (by simp [hx]))]

theorem dropCR_eq_self {l : Str} (h : l.getLast? ≠ some '\r') : dropCR l = l := by
  unfold dropCR
  split
  · rename_i r hr
    exfalso
    apply h
    rw [List.getLast?_eq_head?_reverse, hr]
    rfl
  · rfl

theorem scanTokens_short (ls : List Str) (h : ∀ l ∈ ls, utf8Len l < maxScanTokenSize) :
    scanTokens ls = (ls.map dropCR, false) := by
  induction ls with
  | nil => rfl
  | cons l ls ih =>
    have hl : ¬ maxScanTokenSize ≤ utf8Len l := Nat.not_le.mpr (h l (by simp))
    have ih' := ih (fun x hx => h x (by simp [hx]))
    simp only [scanTokens, if_neg hl, ih', List.map_cons]

theorem scanTokens_long (ls : List Str) (l : Str) (rest : List Str)
    (h : ∀ x ∈ ls, utf8Len x < maxScanTokenSize) (hl : maxScanTokenSize ≤ utf8Len l) :
    scanTokens (ls ++ l :: rest) = (ls.map dropCR, true) := by
  induction ls with
  | nil => simp only [List.nil_append, scanTokens, if_pos hl, List.map_nil]
  | cons x xs ih =>
    have hx : ¬ maxScanTokenSize ≤ utf8Len x := Nat.not_le.mpr (h x (by simp))
    have ih' := ih (fun y hy => h y (by simp [hy]))
    rw [List.cons_append]
    simp only [scanTokens, if_neg hx, List.map_cons]
    rw [ih']

theorem ScanLines_of_short (text : Str)
    (h : ∀ l ∈ splitLines text, utf8Len l < maxScanTokenSize) :
    ScanLines text = (textLines text, false) := by
  unfold ScanLines textLines
  exact scanTokens_short _ h

theorem map_dropCR_eq_self (ls : List Str) (hcr : ∀ l ∈ ls, l.getLast? ≠ some '\r') :
    ls.map dropCR = ls := by
  conv_rhs => rw [← List.map_id ls]
  apply List.map_congr_left
  intro l hl
  exact dropCR_eq_self (hcr l hl)

theorem ScanLines_lines (ls : List Str) (h : ∀ l ∈ ls, '\n' ∉ l)
    (hcr : ∀ l ∈ ls, l.getLast? ≠ some '\r')
    (hlen : ∀ l ∈ ls, utf8Len l < maxScanTokenSize) :
    ScanLines ((ls.map (fun l => l ++ ['\n'])).flatten) = (ls, false) := by
  unfold ScanLines
  rw [splitLines_lines ls h, scanTokens_short ls hlen, map_dropCR_eq_self ls hcr]

theorem TrimSpace_getLast {v : Str} (h : TrimSpace v = v) {c : Char}
    (hc : v.getLast? = some c) : isSpace c = false := by
  unfold TrimSpace at h
  have h1 : ((v.dropWhile isSpace).reverse.dropWhile isSpace).length ≤
      (v.dropWhile isSpace).reverse.length := (List.dropWhile_sublist _).length_le
  have h2 : (v.dropWhile isSpace).length ≤ v.length := (List.dropWhile_sublist _).length_le
  have h3 := congrArg List.length h
  simp only [List.length_reverse] at h1 h3
  have h4 : v.dropWhile isSpace = v :=
    (List.dropWhile_sublist _).eq_of_length_le (by omega)
  rw [h4] at h
  have h5 : v.reverse.dropWhile isSpace = v.reverse := by
    have := congrArg List.reverse h
    simpa using this
  rw [List.getLast?_eq_head?_reverse] at hc
  cases hr : v.reverse with
  | nil => rw [hr] at hc; cases hc
  | cons d ds =>
    rw [hr] at hc h5
    simp only [List.head?_cons, Option.some.injEq] at hc
    subst hc
    exact dropWhile_head_not isSpace (d :: ds) h5

theorem mem_entryLines {e : StrMap} {l : Str} (h : l ∈ entryLines e) :
    (∃ p, mapGet e "path".toList = some p ∧ l = headerLineOf p) ∨
    (∃ key ∈ keysOrder, ∃ v, mapGet e key = some v ∧ l = key ++ '=' :: v) := by
  unfold entryLines at h
  rcases List.mem_append.mp h with h | h
  · left
    cases hp : mapGet e "path".toList with
    | none => rw [hp] at h; simp at h
    | some p => rw [hp] at h; exact ⟨p, rfl, by simpa using h⟩
  · right
    obtain ⟨key, hk, hv⟩ := List.mem_filterMap.mp h
    cases hvk : mapGet e key with
    | none => rw [hvk] at hv; cases hv
    | some v =>
      rw [hvk] at hv
      simp only [Option.map_some', Option.some.injEq] at hv
      exact ⟨key, hk, v, hvk, by rw [← hv]; simp⟩

theorem cleanFields_path {e : StrMap} (he : cleanFields e = true) :
    ∃ p, mapGet e "path".toList = some p ∧ ∀ c ∈ p, c.toNat < 128 ∧ c ≠ '\n' := by
  unfold cleanFields at he
  simp only [Bool.and_eq_true] at he
  cases hp : mapGet e "path".toList with
  | none => rw [hp] at he; simp at he
  | some p =>
    rw [hp] at he
    refine ⟨p, rfl, ?_⟩
    have := he.1
    unfold cleanPath at this
    simpa using this

theorem mem_headerLineOf {p : Str} {c : Char} (h : c ∈ headerLineOf p) :
    c = '[' ∨ c = ']' ∨ c ∈ p := by
  unfold headerLineOf at h
  have := mem_replaceDoubleBrackets h
  simp only [List.mem_append, String.toList] at this
  rcases this with (h1 | h1) | h1
  · left; simpa using h1
  · right; right; exact mem_replaceDoubleBrackets h1
  · right; left; simpa using h1

theorem keyLine_getLast (key : Str) {v : Str} (hv : TrimSpace v = v) :
    (key ++ '=' :: v).getLast? ≠ some '\r' := by
  rw [List.getLast?_append]
  cases v with
  | nil => simp
  | cons d ds =>
    rw [List.getLast?_cons_cons]
    cases hl : (d :: ds).getLast? with
    | none => simp at hl
    | some c =>
      have := TrimSpace_getLast hv hl
      simp only [Option.or_some, ne_eq, Option.some.injEq]
      intro hc
      rw [hc] at this
      revert this
      decide

theorem entryLines_good {e : StrMap} (he : cleanFields e = true) {l : Str}
    (hl : l ∈ entryLines e) :
    '\n' ∉ l ∧ l.getLast? ≠ some '\r' ∧ ∀ c ∈ l, c.toNat < 128 := by
  rcases mem_entryLines hl with ⟨p, hp, rfl⟩ | ⟨key, hk, v, hv, rfl⟩
  · obtain ⟨p', hp', hchars⟩ := cleanFields_path he
    rw [hp] at hp'
    cases hp'
    have hall : ∀ c ∈ headerLineOf p, c.toNat < 128 ∧ c ≠ '\n' := by
      intro c hc
      rcases mem_headerLineOf hc with rfl | rfl | hc
      · decide
      · decide
      · exact hchars c hc
    refine ⟨fun hm => (hall _ hm).2 rfl, ?_, fun c hc => (hall c hc).1⟩
    rw [headerLineOf_getLast]
    decide
  · obtain ⟨hvc, hvt, _⟩ := cleanValue_spec (cleanFields_value he hk hv)
    have hkc := (keysOrder_chars key hk).1
    have hall : ∀ c ∈ key ++ '=' :: v, c.toNat < 128 ∧ c ≠ '\n' := by
      intro c hc
      rcases List.mem_append.mp hc with hc | hc
      · exact ⟨(hkc c hc).1, (hkc c hc).2.1⟩
      · rcases List.mem_cons.mp hc with rfl | hc
        · decide
        · exact ⟨(hvc c hc).1, (hvc c hc).2.1⟩
    exact ⟨fun hm => (hall _ hm).2 rfl, keyLine_getLast key hvt, fun c hc => (hall c hc).1⟩

theorem cleanFields_keyValueOf {e : StrMap} (he : cleanFields e = true) :
    ∀ key ∈ keysOrder, ∀ v, mapGet e key = some v →
      keyValueOf (key ++ '=' :: v) = some (key, v) := by
  intro key hk v hv
  obtain ⟨hvc, hvt, _⟩ := cleanValue_spec (cleanFields_value he hk hv)
  exact keyValueOf_key_line hk (fun hm => (hvc _ hm).2.2 rfl) hvt

theorem isHeaderLine_keyLine {key : Str} (v : Str) (hk : key ∈ keysOrder) :
    isHeaderLine (key ++ '=' :: v) = false := by
  obtain ⟨hne, hh, _⟩ := keysOrder_head key hk
  cases key with
  | nil => exact absurd rfl hne
  | cons c cs =>
    simp only [List.head?_cons, ne_eq, Option.some.injEq] at hh
    have hb : ('[' == c) = false := by
      rw [beq_eq_false_iff_ne]
      exact fun h => hh h.symm
    simp [isHeaderLine, List.isPrefixOf, hb]

theorem isHeaderLine_headerLineOf (p : Str) : isHeaderLine (headerLineOf p) = true := by
  obtain ⟨t, ht⟩ := headerLineOf_head p
  rw [ht]
  simp [isHeaderLine]

theorem cleanFields_of_cleanEntry {e : StrMap} (he : cleanEntry e = true) :
    cleanFields e = true := by
  unfold cleanEntry at he
  simp only [Bool.and_eq_true] at he
  exact he.1

theorem cleanEntry_short {e : StrMap} (he : cleanEntry e = true) {l : Str}
    (hl : l ∈ entryLines e) : l.length < maxScanTokenSize := by
  unfold cleanEntry at he
  simp only [Bool.and_eq_true, List.all_eq_true, decide_eq_true_eq] at he
  exact he.2 l hl

theorem converted_text (jsonData : List (Str × StrMap))
    (entries : List StrMap) (hlen : mapLen jsonData = entries.length)
    (hget : ∀ i e, entries[i]? = some e → mapGet jsonData (itoa (i + 1)) = some e)
    (hclean : ∀ e ∈ entries, cleanFields e = true) :
    decodeWindows1251 (utf8Bytes (ConvertJSONToTxt jsonData)) =
      (((entries.map entryLines).flatten).map (fun l => l ++ ['\n'])).flatten := by
  have hgood : ∀ l ∈ (entries.map entryLines).flatten,
      '\n' ∉ l ∧ l.getLast? ≠ some '\r' ∧ ∀ c ∈ l, c.toNat < 128 := by
    intro l hl
    obtain ⟨ls, hls, hmem⟩ := List.mem_flatten.mp hl
    obtain ⟨e, he, rfl⟩ := List.mem_map.mp hls
    exact entryLines_good (hclean e he) hmem
  rw [convertJSONToTxt_lines jsonData entries hlen hget hclean, decode_utf8_ascii]
  intro c hc
  obtain ⟨x, hx, hcx⟩ := List.mem_flatten.mp hc
  obtain ⟨l, hl, rfl⟩ := List.mem_map.mp hx
  rcases List.mem_append.mp hcx with h | h
  · exact (hgood l hl).2.2 c h
  · have : c = '\n' := by simpa using h
    subst this
    decide

theorem loaded_lines (jsonData : List (Str × StrMap))
    (entries : List StrMap) (hlen : mapLen jsonData = entries.length)
    (hget : ∀ i e, entries[i]? = some e → mapGet jsonData (itoa (i + 1)) = some e)
    (hclean : ∀ e ∈ entries, cleanEntry e = true) :
    ScanLines (decodeWindows1251 (utf8Bytes (ConvertJSONToTxt jsonData))) =
      ((entries.map entryLines).flatten, false) := by
  have hgood : ∀ l ∈ (entries.map entryLines).flatten,
      ('\n' ∉ l ∧ l.getLast? ≠ some '\r' ∧ ∀ c ∈ l, c.toNat < 128) ∧
        l.length < maxScanTokenSize := by
    intro l hl
    obtain ⟨ls, hls, hmem⟩ := List.mem_flatten.mp hl
    obtain ⟨e, he, rfl⟩ := List.mem_map.mp hls
    exact ⟨entryLines_good (cleanFields_of_cleanEntry (hclean e he)) hmem,
      cleanEntry_short (hclean e he) hmem⟩
  rw [converted_text jsonData entries hlen hget
      (fun e he => cleanFields_of_cleanEntry (hclean e he)),
    ScanLines_lines _ (fun l hl => (hgood l hl).1.1) (fun l hl => (hgood l hl).1.2.1)]
  intro l hl
  rw [utf8Len_ascii l (hgood l hl).1.2.2]
  exact (hgood l hl).2

theorem entryLines_of_path {e : StrMap} {path : Str} (hp : mapGet e "path".toList = some path) :
    entryLines e = headerLineOf path ::
      keysOrder.filterMap (fun key => (mapGet e key).map (fun v => key ++ ['='] ++ v)) := by
  unfold entryLines
  rw [hp]
  rfl

theorem entries_rest_head (after : List StrMap) (hclean : ∀ e ∈ after, cleanFields e = true)
    (l : Str) (h : ((after.map entryLines).flatten).head? = some l) : isHeaderLine l = true := by
  cases after with
  | nil => simp at h
  | cons e es =>
    obtain ⟨p, hp, _⟩ := cleanFields_path (hclean e (by simp))
    simp only [List.map_cons, List.flatten_cons, entryLines_of_path hp, List.cons_append,
      List.head?_cons, Option.some.injEq] at h
    rw [← h]
    exact isHeaderLine_headerLineOf p

theorem collapsePairs_of_not_mem (c : Char) (s : Str) (h : c ∉ s) : collapsePairs c s = s := by
  induction s using collapsePairs.induct c with
  | case1 => rfl
  | case2 a => rfl
  | case3 a b rest hab ih => exact absurd (by simp [hab.1]) h
  | case4 a b rest hab ih =>
    simp only [collapsePairs, if_neg hab]
    rw [ih (fun hm => h (List.mem_cons_of_mem _ hm))]

theorem cleanValue_replicate (n : Nat) : cleanValue (List.replicate n '1') = true := by
  have hmem : ∀ c ∈ List.replicate n '1', c = '1' := fun c hc => List.eq_of_mem_replicate hc
  have htrim : TrimSpace (List.replicate n '1') = List.replicate n '1' := by
    cases n with
    | zero => rfl
    | succ m =>
      have h1 : isSpace '1' = false := by decide
      unfold TrimSpace
      rw [List.replicate_succ, List.dropWhile_cons_of_neg (by simp [h1]), ← List.replicate_succ,
        List.reverse_replicate, List.replicate_succ, List.dropWhile_cons_of_neg (by simp [h1]),
        ← List.replicate_succ, List.reverse_replicate]
  have hrep : replaceDoubleBrackets (List.replicate n '1') = List.replicate n '1' := by
    unfold replaceDoubleBrackets
    rw [collapsePairs_of_not_mem '[' _ (fun hm => absurd (hmem _ hm) (by decide)),
      collapsePairs_of_not_mem ']' _ (fun hm => absurd (hmem _ hm) (by decide))]
  unfold cleanValue
  simp only [Bool.and_eq_true, List.all_eq_true, decide_eq_true_eq]
  refine ⟨⟨?_, htrim⟩, hrep⟩
  intro c hc
  rw [hmem c hc]
  decide

theorem long_value_not_loaded (v : Str) (hv : cleanValue v = true)
    (hlong : maxScanTokenSize ≤ v.length) :
    (mapGet (ParsePresetBlocks (ScanLines (decodeWindows1251 (utf8Bytes (ConvertJSONToTxt
        [("1".toList, [("path".toList, "p".toList), ("VerticalMask".toList, v)])])))).1)
      "[p]".toList).map (fun b => mapGet b.Values "VerticalMask".toList) = some none := by
  have hf : cleanFields [("path".toList, "p".toList), ("VerticalMask".toList, v)] = true := by
    unfold cleanFields
    simp only [Bool.and_eq_true, List.all_eq_true]
    refine ⟨rfl, ?_⟩
    intro key hk
    by_cases h1 : "path".toList = key
    · subst h1
      rfl
    · by_cases h2 : "VerticalMask".toList = key
      · simp only [mapGet, if_neg h1, if_pos h2]
        exact hv
      · simp only [mapGet, if_neg h1, if_neg h2]
  have hlines : entryLines [("path".toList, "p".toList), ("VerticalMask".toList, v)] =
      ["[p]".toList, "VerticalMask".toList ++ ['='] ++ v] := rfl
  have hgood := fun l hl => @entryLines_good _ hf l hl
  rw [hlines] at hgood
  have htext := converted_text
    [("1".toList, [("path".toList, "p".toList), ("VerticalMask".toList, v)])]
    [[("path".toList, "p".toList), ("VerticalMask".toList, v)]] rfl
    (by
      intro i e h
      match i, h with
      | 0, h => cases h; rfl
      | n + 1, h => simp at h)
    (by simpa using hf)
  rw [htext]
  simp only [List.map_cons, List.map_nil, List.flatten_cons, List.flatten_nil, List.append_nil,
    hlines]
  unfold ScanLines
  have hsplit := splitLines_lines ["[p]".toList, "VerticalMask".toList ++ ['='] ++ v]
    (fun l hl => (hgood l hl).1)
  simp only [List.map_cons, List.map_nil, List.flatten_cons, List.flatten_nil,
    List.append_nil] at hsplit
  rw [hsplit]
  have hlen : maxScanTokenSize ≤ utf8Len ("VerticalMask".toList ++ ['='] ++ v) := by
    rw [utf8Len_ascii _ (hgood _ (by simp)).2.2]
    simp only [List.length_append]
    omega
  have hscan := scanTokens_long ["[p]".toList] _ [] (by decide) hlen
  rw [show ["[p]".toList] ++ ["VerticalMask".toList ++ ['='] ++ v] =
    ["[p]".toList, "VerticalMask".toList ++ ['='] ++ v] from rfl] at hscan
  rw [hscan]
  decide

/-- C6 as stated fails, in two ways.  For the JSON source with the single entry
`path = p`, `VerticalMask = " 1"`, the loaded table has the value `1` under
`[p]` for `VerticalMask`, not the JSON value with its leading blank.  For the
JSON source with the single entry `path = p`, `VerticalMask` = 65536 times the
digit `1`, the line `VerticalMask=1...1` of the converted text reaches the
scanner's token limit, the loader's scan stops there, and the loaded table has
no value under `[p]` for `VerticalMask`. -/
theorem roundtrip_value_not_kept :
    (mapGet blankValueJson "1".toList =
        some [("path".toList, "p".toList), ("VerticalMask".toList, " 1".toList)] ∧
      (mapGet (ParsePresetBlocks (ScanLines (decodeWindows1251
          (utf8Bytes (ConvertJSONToTxt blankValueJson)))).1) "[p]".toList).map
        (fun b => mapGet b.Values "VerticalMask".toList) = some (some "1".toList)) ∧
    (mapGet longValueJson "1".toList =
        some [("path".toList, "p".toList),
          ("VerticalMask".toList, List.replicate 65536 '1')] ∧
      (mapGet (ParsePresetBlocks (ScanLines (decodeWindows1251
          (utf8Bytes (ConvertJSONToTxt longValueJson)))).1) "[p]".toList).map
        (fun b => mapGet b.Values "VerticalMask".toList) = some none) :=
  ⟨by decide, rfl,
    long_value_not_loaded (List.replicate 65536 '1') (cleanValue_replicate 65536)
      (by rw [List.length_replicate]; decide)⟩

/-- C6 amended: let the JSON source have the entries `before ++ e :: after`
under the keys "1".."n", every entry with a `path` of ASCII characters without
line feed, for its KeyOrder keys values of ASCII characters without line
feed, `=`, surrounding white space or doubled bracket, and every line of its
preset text (`[path]` with doubled brackets collapsed, `key=value`) shorter
than 65536 characters, the scanner's token limit.  If no later entry has
the header line of `e`, the table loaded from the converted text has under the
header line of `e` (`[path]` with doubled brackets collapsed) a block with that
header whose value for every KeyOrder key is exactly the value `e` has for it,
and none when `e` has none; and every entry of the table sits under the header
line of some JSON entry. -/
theorem convert_then_load (jsonData : List (Str × StrMap))
    (before after : List StrMap) (e : StrMap) (path : Str)
    (hlen : mapLen jsonData = (before ++ e :: after).length)
    (hget : ∀ i x, (before ++ e :: after)[i]? = some x →
      mapGet jsonData (itoa (i + 1)) = some x)
    (hclean : ∀ x ∈ before ++ e :: after, cleanEntry x = true)
    (hpath : mapGet e "path".toList = some path)
    (hlast : ∀ x ∈ after, ∀ q, mapGet x "path".toList = some q →
      headerLineOf q ≠ headerLineOf path) :
    (∃ b, mapGet (ParsePresetBlocks (ScanLines (decodeWindows1251
          (utf8Bytes (ConvertJSONToTxt jsonData)))).1) (headerLineOf path) = some b ∧
        b.Header = headerLineOf path ∧
        ∀ key ∈ keysOrder, mapGet b.Values key = mapGet e key) ∧
    (∀ h, (mapGet (ParsePresetBlocks (ScanLines (decodeWindows1251
          (utf8Bytes (ConvertJSONToTxt jsonData)))).1) h).isSome = true →
        ∃ x ∈ before ++ e :: after, ∃ q, mapGet x "path".toList = some q ∧
          h = headerLineOf q) := by
  rw [loaded_lines jsonData (before ++ e :: after) hlen hget hclean]
  have he : cleanFields e = true := cleanFields_of_cleanEntry (hclean e (by simp))
  constructor
  · have hsplit : ((before ++ e :: after).map entryLines).flatten =
        (before.map entryLines).flatten ++ headerLineOf path ::
          (keysOrder.filterMap (fun key => (mapGet e key).map (fun v => key ++ ['='] ++ v)) ++
            (after.map entryLines).flatten) := by
      simp [entryLines_of_path hpath]
    rw [hsplit, parsePresetBlocks_block _ _ _ _ (isHeaderLine_headerLineOf path)]
    · refine ⟨_, rfl, rfl, ?_⟩
      intro key hk
      simp only
      rw [mapGet_collectValues_keyLines e keysOrder
        (fun key hk v hv => cleanFields_keyValueOf he key hk v hv), if_pos hk]
      cases mapGet e key <;> simp [mapGet]
    · intro l hl
      obtain ⟨key, hk, hv⟩ := List.mem_filterMap.mp hl
      cases hvk : mapGet e key with
      | none => rw [hvk] at hv; cases hv
      | some v =>
        rw [hvk] at hv
        simp only [Option.map_some', Option.some.injEq] at hv
        rw [← hv]
        have : key ++ ['='] ++ v = key ++ '=' :: v := by simp
        rw [this]
        exact isHeaderLine_keyLine v hk
    · exact entries_rest_head after
        (fun x hx => cleanFields_of_cleanEntry (hclean x (by simp [hx])))
    · intro hm
      obtain ⟨ls, hls, hmem⟩ := List.mem_flatten.mp hm
      obtain ⟨x, hx, rfl⟩ := List.mem_map.mp hls
      rcases mem_entryLines hmem with ⟨q, hq, heq⟩ | ⟨key, hk, v, _, heq⟩
      · exact hlast x hx q hq heq.symm
      · have h1 := isHeaderLine_headerLineOf path
        rw [heq, isHeaderLine_keyLine v hk] at h1
        cases h1
  · intro h hsome
    obtain ⟨b, hb⟩ := Option.isSome_iff_exists.mp hsome
    obtain ⟨_, hmem, hhead⟩ := parsePresetBlocks_entry_header hb
    obtain ⟨ls, hls, hmem'⟩ := List.mem_flatten.mp hmem
    obtain ⟨x, hx, rfl⟩ := List.mem_map.mp hls
    rcases mem_entryLines hmem' with ⟨q, hq, heq⟩ | ⟨key, hk, v, _, heq⟩
    · exact ⟨x, hx, q, hq, heq⟩
    · rw [heq, isHeaderLine_keyLine v hk] at hhead
      cases hhead

/-- The amended C6 at the sample JSON source: the first entry, with path
`[Slot1]`, is loaded under the header line `[Slot1]` with exactly its KeyOrder
values. -/
theorem convert_then_load_witness :
    headerLineOf "[Slot1]".toList = "[Slot1]".toList ∧
    ∃ b, mapGet (ParsePresetBlocks (ScanLines (decodeWindows1251
          (utf8Bytes (ConvertJSONToTxt sampleJson)))).1) (headerLineOf "[Slot1]".toList) = some b ∧
        b.Header = headerLineOf "[Slot1]".toList ∧
        ∀ key ∈ keysOrder, mapGet b.Values key = mapGet sampleEntry1 key :=
  ⟨by decide,
    (convert_then_load sampleJson [] [sampleEntry2] sampleEntry1 "[Slot1]".toList
      (by decide)
      (by
        intro i x h
        match i, h with
        | 0, h => cases h; decide
        | 1, h => cases h; decide
        | n + 2, h => simp at h)
      (by decide) (by decide)
      (by
        intro x hx q hq
        have hx' : x = sampleEntry2 := by simpa using hx
        subst hx'
        have hq' : q = "Slot2".toList := by
          have : mapGet sampleEntry2 "path".toList = some "Slot2".toList := by decide
          rw [this] at hq
          exact (Option.some.inj hq).symm
        subst hq'
        decide)).1⟩

/-! ## The scan at concrete inputs -/

/-- C1, the code at the failing input: with no preset and project `Proj1`, the
two lines `[General]` and `Language=EN`, read while no block is open and
holding no slot match, are not written: the output is empty, where the claim
has `[General]\r\nLanguage=EN\r\n`. -/
theorem rewriteLines_unmatched_lines_dropped :
    rewriteLines [] "Proj1".toList ["[General]".toList, "Language=EN".toList] = [] := by
  decide

/-- C3, the code at the failing input: the recognised block for slot 3 of
`Proj1` with body `Probability=7`, `HeightHighLimit=5` and no preset entry is
written as the header line alone (one write, and the file holds the header
line and `\r\n`); the two key lines, which hold no slot match, are never
parsed. -/
theorem rewriteLines_echo_loses_keys :
    rewriteLines [] "Proj1".toList
      [expectedBlockHeader "Proj1".toList "3".toList, "Probability=7".toList,
        "HeightHighLimit=5".toList]
      = [expectedBlockHeader "Proj1".toList "3".toList ++ crlf] ∧
    decodeWindows1251 (fileBytes (rewriteLines [] "Proj1".toList
      [expectedBlockHeader "Proj1".toList "3".toList, "Probability=7".toList,
        "HeightHighLimit=5".toList]))
      = expectedBlockHeader "Proj1".toList "3".toList ++ crlf := by
  decide

/-- C10, the code at the failing input: with the block for slot 3 of `Proj1`
open, the line `HeightHighLimit=5` (not the expected header, key
`HeightHighLimit`) writes nothing and leaves the block open. -/
theorem scanStep_terminal_key_ignored :
    scanStep [] "Proj1".toList ⟨true, ⟨expectedBlockHeader "Proj1".toList "3".toList, []⟩⟩
      "HeightHighLimit=5".toList
      = (⟨true, ⟨expectedBlockHeader "Proj1".toList "3".toList, []⟩⟩, []) := by
  decide

/-! ## Lines without a slot match, and the recognition of a header -/

theorem scanStep_no_match (presetBlocks : List (Str × PresetBlock)) (p : Str) (st : ScanState)
    {line : Str} (h : FindStringSubmatch line = none) :
    scanStep presetBlocks p st line = (st, []) := by
  unfold scanStep
  rw [h]

theorem runFrom_filter_matches (presetBlocks : List (Str × PresetBlock)) (p : Str)
    (doc : List Str) (st : ScanState) :
    runFrom presetBlocks p st doc =
      runFrom presetBlocks p st (doc.filter (fun l => (FindStringSubmatch l).isSome)) := by
  induction doc generalizing st with
  | nil => rfl
  | cons l ls ih =>
    cases hm : FindStringSubmatch l with
    | none =>
      rw [runFrom_cons, scanStep_no_match _ _ _ hm, List.filter_cons, hm]
      simpa using ih st
    | some s =>
      rw [List.filter_cons, hm, runFrom_cons]
      simp only [Option.isSome_some, if_true]
      rw [runFrom_cons, ih]

/-- C11: the output for a document equals the output for the document without
its lines that hold no match of `MaterialPairSlot` followed by at least one
digit; one pass of the loop over such a line writes nothing and leaves the
state (the block-open flag and the open block with its collected keys) as it
is. -/
theorem rewriteLines_unmatched_lines_no_effect (presetBlocks : List (Str × PresetBlock))
    (p : Str) (doc : List Str) :
    rewriteLines presetBlocks p doc =
      rewriteLines presetBlocks p (doc.filter (fun l => (FindStringSubmatch l).isSome)) ∧
    ∀ (st : ScanState) (line : Str), (FindStringSubmatch line).isSome = false →
      scanStep presetBlocks p st line = (st, []) := by
  refine ⟨?_, ?_⟩
  · simp only [rewriteLines_eq_runFrom]
    exact runFrom_filter_matches presetBlocks p doc ScanState.init
  · intro st line h
    apply scanStep_no_match
    cases hm : FindStringSubmatch line with
    | none => rfl
    | some s => rw [hm] at h; cases h

/-- C11 at the sample session file, whose first line `[General]` holds no slot
match: that line is the only one deleted, and one pass of the loop over it
from the initial state changes nothing. -/
theorem rewriteLines_unmatched_lines_no_effect_witness :
    (FindStringSubmatch "[General]".toList).isSome = false ∧
    sampleSession.filter (fun l => (FindStringSubmatch l).isSome) = sampleSession.tail ∧
    scanStep (ParsePresetBlocks proj1Preset) "Proj1".toList ScanState.init "[General]".toList =
      (ScanState.init, []) :=
  ⟨by decide, by decide,
    (rewriteLines_unmatched_lines_no_effect (ParsePresetBlocks proj1Preset) "Proj1".toList
      sampleSession).2 ScanState.init "[General]".toList (by decide)⟩

theorem matchSlotAt_occurrence {l : Str} (h : (matchSlotAt l).isSome = true) :
    ∃ d b, d.isDigit = true ∧ l = slotWord ++ d :: b := by
  unfold matchSlotAt at h
  by_cases hp : slotWord.isPrefixOf l = true
  · rw [if_pos hp] at h
    obtain ⟨t, ht⟩ := List.isPrefixOf_iff_prefix.mp hp
    rw [← ht, List.drop_left] at h
    cases t with
    | nil => simp at h
    | cons d b =>
      by_cases hd : d.isDigit = true
      · exact ⟨d, b, hd, ht.symm⟩
      · simp [List.takeWhile, hd] at h
  · rw [if_neg hp] at h
    cases h

theorem findStringSubmatch_occurrence {l : Str} (h : (FindStringSubmatch l).isSome = true) :
    ∃ a d b, d.isDigit = true ∧ l = a ++ slotWord ++ d :: b := by
  induction l with
  | nil => simp [FindStringSubmatch] at h
  | cons c cs ih =>
    cases hm : matchSlotAt (c :: cs) with
    | some ds =>
      obtain ⟨d, b, hd, hl⟩ := matchSlotAt_occurrence (by rw [hm]; rfl)
      exact ⟨[], d, b, hd, by simpa using hl⟩
    | none =>
      rw [FindStringSubmatch, hm] at h
      obtain ⟨a, d, b, hd, hl⟩ := ih h
      exact ⟨c :: a, d, b, hd, by rw [hl]; simp⟩

theorem findStringSubmatch_none_of_no_occurrence {p : Str}
    (hp : ∀ a d b, p = a ++ slotWord ++ d :: b → d.isDigit = false) :
    FindStringSubmatch p = none := by
  cases hm : FindStringSubmatch p with
  | none => rfl
  | some s =>
    obtain ⟨a, d, b, hd, hl⟩ := findStringSubmatch_occurrence (by rw [hm]; rfl)
    have := hp a d b hl
    rw [hd] at this
    cases this

/-- C12: when the project name `p` holds no occurrence of `MaterialPairSlot`
immediately followed by a digit and `n` is a non-empty string of decimal
digits, the slot number the regular expression extracts from the header line
of `p` and `n` is exactly `n`, the line is recognised as a block start, and one
pass of the loop over it opens the block with that header and no keys.  The
condition on `p` is needed: with the project name `MaterialPairSlot7` the slot
extracted from the header line of slot 3 is 7 and the line is not recognised. -/
theorem expectedBlockHeader_recognised (presetBlocks : List (Str × PresetBlock)) (p n : Str)
    (st : ScanState) (hp : ∀ a d b, p = a ++ slotWord ++ d :: b → d.isDigit = false)
    (hne : n ≠ []) (hn : ∀ c ∈ n, c.isDigit = true) :
    (FindStringSubmatch (expectedBlockHeader p n) = some n ∧
      isBlockStart p (expectedBlockHeader p n) = true ∧
      (scanStep presetBlocks p st (expectedBlockHeader p n)).1 =
        ⟨true, ⟨expectedBlockHeader p n, []⟩⟩) ∧
    (FindStringSubmatch (expectedBlockHeader slotLikeProject "3".toList) = some "7".toList ∧
      isBlockStart slotLikeProject (expectedBlockHeader slotLikeProject "3".toList) = false) := by
  have hfree := findStringSubmatch_none_of_no_occurrence hp
  have hstart := isBlockStart_expectedBlockHeader hfree hne hn
  refine ⟨⟨findStringSubmatch_expectedBlockHeader hfree hne hn, hstart, ?_⟩, by decide⟩
  rw [scanStep_start _ _ _ _ hstart]

/-- C12 at the project name `Proj1` and slot 12: `Proj1` is too short to hold
the word, the extracted slot number is 12 and the header line is recognised. -/
theorem expectedBlockHeader_recognised_witness :
    FindStringSubmatch (expectedBlockHeader "Proj1".toList "12".toList) = some "12".toList ∧
    isBlockStart "Proj1".toList (expectedBlockHeader "Proj1".toList "12".toList) = true ∧
    (scanStep [] "Proj1".toList ScanState.init
      (expectedBlockHeader "Proj1".toList "12".toList)).1 =
        ⟨true, ⟨expectedBlockHeader "Proj1".toList "12".toList, []⟩⟩ :=
  (expectedBlockHeader_recognised [] "Proj1".toList "12".toList ScanState.init
    (by
      intro a d b h
      have hl := congrArg List.length h
      simp [slotWord] at hl
      omega)
    (by decide) (by decide)).1

/-! ## The run on a file system -/

theorem temp_path_ne (p : Str) : p ++ ".tmp".toList ≠ p := by
  intro h
  have := congrArg List.length h
  simp at this

theorem session_ne_temp (p : Str) : p ≠ p ++ ".tmp".toList :=
  fun h => temp_path_ne p h.symm

theorem replaceBlocksInIni_cases (faults : Faults) (fs : FileSystem)
    (sessionFilePath presetFilePath projectName : Str)
    (content : List UInt8) (hfile : fs sessionFilePath = some content) :
    ((ReplaceBlocksInIni faults fs sessionFilePath presetFilePath projectName).1
        ≠ Outcome.completed →
      (ReplaceBlocksInIni faults fs sessionFilePath presetFilePath projectName).1
        ≠ Outcome.errorRenamingTemp →
      (ReplaceBlocksInIni faults fs sessionFilePath presetFilePath projectName).2
        sessionFilePath = some content) ∧
    ((ReplaceBlocksInIni faults fs sessionFilePath presetFilePath projectName).1
        = Outcome.errorRenamingTemp →
      (ReplaceBlocksInIni faults fs sessionFilePath presetFilePath projectName).2
        sessionFilePath = none) ∧
    ((ReplaceBlocksInIni faults fs sessionFilePath presetFilePath projectName).1
        = Outcome.completed →
      (ScanLines (decodeWindows1251 content)).2 = false ∧
      (ReplaceBlocksInIni faults fs sessionFilePath presetFilePath projectName).2
        sessionFilePath = some (fileBytes (rewriteLines
          (ParsePresetBlocksFile fs presetFilePath) projectName
          (ScanLines (decodeWindows1251 content)).1))) := by
  have hne := session_ne_temp sessionFilePath
  have hne2 := temp_path_ne sessionFilePath
  simp only [ReplaceBlocksInIni]
  by_cases ho : faults.openSession = true
  · simp [ho, hfile]
  · simp only [ho, Bool.false_eq_true, if_false, hfile]
    by_cases hc : faults.createTemp = true
    · simp [hc, hfile]
    · simp only [hc, Bool.false_eq_true, if_false]
      cases hs : faults.scanErrorAfter with
      | some k => simp [FileSystem.write, hne, hfile]
      | none =>
        cases hlong : (ScanLines (decodeWindows1251 content)).2 with
        | true => simp [FileSystem.write, hne, hfile]
        | false =>
          by_cases hr : faults.removeOriginal = true
          · simp [hr, FileSystem.write, hne, hfile]
          · by_cases hn : faults.renameTemp = true
            · simp [hr, hn, FileSystem.write, FileSystem.remove, hne, hfile]
            · simp [hr, hn, FileSystem.write, FileSystem.remove, FileSystem.rename, hne, hne2,
                hfile]

/-- C8 as stated fails: a run on `user.ini` in which every step succeeds but the
final rename aborts with the rename error, and afterwards no file exists under
the original path, although one did before the run. -/
theorem replaceBlocksInIni_rename_failure_loses_original :
    oneFileSystem "user.ini".toList = some [120, 13, 10] ∧
    (ReplaceBlocksInIni ⟨false, false, none, false, true⟩ oneFileSystem
      "user.ini".toList "preset.txt".toList "Proj1".toList).1 = Outcome.errorRenamingTemp ∧
    (ReplaceBlocksInIni ⟨false, false, none, false, true⟩ oneFileSystem
      "user.ini".toList "preset.txt".toList "Proj1".toList).2 "user.ini".toList = none := by
  decide

/-- C8 amended: when the session file exists, a run that aborts at opening it,
at creating the temporary file, at reading or at deleting the original leaves
the original path with its original content; a run that aborts at the final
rename leaves no file under the original path (the delete has been done); a
completed run leaves there the bytes the encoder passed on for the writes of
the rewrite. -/
theorem replaceBlocksInIni_original_kept
    (faults : Faults) (fs : FileSystem) (sessionFilePath presetFilePath projectName : Str)
    (content : List UInt8) (hfile : fs sessionFilePath = some content) :
    ((ReplaceBlocksInIni faults fs sessionFilePath presetFilePath projectName).1
        ≠ Outcome.completed →
      (ReplaceBlocksInIni faults fs sessionFilePath presetFilePath projectName).1
        ≠ Outcome.errorRenamingTemp →
      (ReplaceBlocksInIni faults fs sessionFilePath presetFilePath projectName).2
        sessionFilePath = some content) ∧
    ((ReplaceBlocksInIni faults fs sessionFilePath presetFilePath projectName).1
        = Outcome.errorRenamingTemp →
      (ReplaceBlocksInIni faults fs sessionFilePath presetFilePath projectName).2
        sessionFilePath = none) ∧
    ((ReplaceBlocksInIni faults fs sessionFilePath presetFilePath projectName).1
        = Outcome.completed →
      (ReplaceBlocksInIni faults fs sessionFilePath presetFilePath projectName).2
        sessionFilePath = some (fileBytes (rewriteLines
          (ParsePresetBlocksFile fs presetFilePath) projectName
          (ScanLines (decodeWindows1251 content)).1))) := by
  have h := replaceBlocksInIni_cases faults fs sessionFilePath presetFilePath projectName
    content hfile
  exact ⟨h.1, h.2.1, fun hc => (h.2.2 hc).2⟩

/-- The amended C8 at a run on `user.ini` whose delete step fails: the run is
neither completed nor a rename failure, and the original bytes are still
there. -/
theorem replaceBlocksInIni_original_kept_witness :
    oneFileSystem "user.ini".toList = some [120, 13, 10] ∧
    (ReplaceBlocksInIni ⟨false, false, none, true, false⟩ oneFileSystem
      "user.ini".toList "preset.txt".toList "Proj1".toList).2 "user.ini".toList
      = some [120, 13, 10] :=
  ⟨by decide,
    (replaceBlocksInIni_original_kept ⟨false, false, none, true, false⟩
      oneFileSystem "user.ini".toList "preset.txt".toList "Proj1".toList [120, 13, 10]
      (by decide)).1 (by decide) (by decide)⟩

/-! ## A second run over an echoed block -/

theorem echoSafeValue_spec {v : Str} (h : echoSafeValue v = true) :
    '\n' ∉ v ∧ '=' ∉ v ∧ TrimSpace v = v ∧ (FindStringSubmatch v).isSome = true := by
  unfold echoSafeValue at h
  simp only [Bool.and_eq_true, decide_eq_true_eq] at h
  exact ⟨h.1.1.1, h.1.1.2, h.1.2, h.2⟩

theorem scanStep_key_line (presetBlocks : List (Str × PresetBlock)) (p hdr : Str) (acc : StrMap)
    {key v : Str} (hk : key ∈ keysOrder) (hv : echoSafeValue v = true) :
    scanStep presetBlocks p ⟨true, ⟨hdr, acc⟩⟩ (key ++ ['='] ++ v) =
      if key = "HeightHighLimit".toList then
        (⟨false, ⟨hdr, mapSet acc key v⟩⟩, flushBlock presetBlocks ⟨hdr, mapSet acc key v⟩)
      else (⟨true, ⟨hdr, mapSet acc key v⟩⟩, []) := by
  obtain ⟨_, h2, h3, h4⟩ := echoSafeValue_spec hv
  rw [scanStep_open _ _ _ _ (isBlockStart_key_line p v hk)]
  have hm : (FindStringSubmatch (key ++ ['='] ++ v)).isSome = true :=
    findStringSubmatch_append_left _ h4
  have hline : key ++ ['='] ++ v = key ++ '=' :: v := by simp
  rw [if_pos hm, hline, keyValueOf_key_line hk h2 h3]

theorem scanLoop_key_lines (presetBlocks : List (Str × PresetBlock)) (p hdr : Str)
    (vals : StrMap) (ks : List Str)
    (hks : ∀ k ∈ ks, k ∈ keysOrder ∧ k ≠ "HeightHighLimit".toList)
    (hvals : ∀ k ∈ ks, ∀ v, mapGet vals k = some v → echoSafeValue v = true) (acc : StrMap) :
    scanLoop presetBlocks p ⟨true, ⟨hdr, acc⟩⟩ (keyLines vals ks) =
      (⟨true, ⟨hdr, collectValues acc (keyLines vals ks)⟩⟩, []) := by
  induction ks generalizing acc with
  | nil => simp [keyLines, scanLoop, collectValues]
  | cons k ks ih =>
    have hks' : ∀ x ∈ ks, x ∈ keysOrder ∧ x ≠ "HeightHighLimit".toList :=
      fun x hx => hks x (by simp [hx])
    have hvals' : ∀ x ∈ ks, ∀ v, mapGet vals x = some v → echoSafeValue v = true :=
      fun x hx => hvals x (by simp [hx])
    cases hv : mapGet vals k with
    | none =>
      have e : keyLines vals (k :: ks) = keyLines vals ks := by
        simp [keyLines, List.filterMap_cons, hv]
      rw [e]
      exact ih hks' hvals' acc
    | some v =>
      have e : keyLines vals (k :: ks) = (k ++ ['='] ++ v) :: keyLines vals ks := by
        simp [keyLines, List.filterMap_cons, hv]
      have hsafe := hvals k (by simp) v hv
      obtain ⟨_, h2, h3, _⟩ := echoSafeValue_spec hsafe
      have hcv : collectValues acc [k ++ ['='] ++ v] = mapSet acc k v := by
        have hline : k ++ ['='] ++ v = k ++ '=' :: v := by simp
        simp only [collectValues, List.foldl, hline,
          keyValueOf_key_line (hks k (by simp)).1 h2 h3]
      rw [e, scanLoop, scanStep_key_line _ _ _ _ (hks k (by simp)).1 hsafe,
        if_neg (hks k (by simp)).2]
      simp only [List.nil_append]
      rw [ih hks' hvals' (mapSet acc k v), collectValues_cons, hcv]

theorem keysOrder_split :
    keysOrder = keysOrder.dropLast ++ ["HeightHighLimit".toList] ∧
    ∀ k ∈ keysOrder.dropLast, k ∈ keysOrder ∧ k ≠ "HeightHighLimit".toList := by
  decide

theorem keyLines_append (vals : StrMap) (ks ks' : List Str) :
    keyLines vals (ks ++ ks') = keyLines vals ks ++ keyLines vals ks' := by
  simp [keyLines, List.filterMap_append]

theorem collectValues_append (acc : StrMap) (xs ys : List Str) :
    collectValues acc (xs ++ ys) = collectValues (collectValues acc xs) ys := by
  simp [collectValues, List.foldl_append]

theorem mapGet_readBack {vals : StrMap}
    (hvals : ∀ k ∈ keysOrder, ∀ v, mapGet vals k = some v → echoSafeValue v = true)
    {k : Str} (hk : k ∈ keysOrder) : mapGet (readBack vals) k = mapGet vals k := by
  unfold readBack keyLines
  rw [mapGet_collectValues_keyLines vals keysOrder _ [] k, if_pos hk]
  · cases mapGet vals k <;> simp [mapGet]
  · intro key hkey v hv
    obtain ⟨_, h2, h3, _⟩ := echoSafeValue_spec (hvals key hkey v hv)
    exact keyValueOf_key_line hkey h2 h3

theorem writeBlockToFile_congr {c c' : PresetBlock} (hh : c.Header = c'.Header)
    (hv : ∀ k ∈ keysOrder, mapGet c.Values k = mapGet c'.Values k) :
    writeBlockToFile c = writeBlockToFile c' := by
  unfold writeBlockToFile
  rw [hh]
  congr 1
  apply List.filterMap_congr
  intro key hk
  rw [hv key hk]

theorem echoBlock_readBack {presetBlocks : List (Str × PresetBlock)} {p : Str} {c : PresetBlock}
    (hc : EchoBlock presetBlocks p c) :
    EchoBlock presetBlocks p ⟨c.Header, readBack c.Values⟩ ∧
    writeBlockToFile ⟨c.Header, readBack c.Values⟩ = writeBlockToFile c := by
  obtain ⟨h1, h2, h3, h4⟩ := hc
  refine ⟨⟨h1, h2, h3, ?_⟩, writeBlockToFile_congr rfl (fun k hk => mapGet_readBack h4 hk)⟩
  intro k hk v hv
  simp only at hv
  rw [mapGet_readBack h4 hk] at hv
  exact h4 k hk v hv

theorem specBlockLines_eq (c : PresetBlock) :
    specBlockLines c.Header (mapGet c.Values) = c.Header :: keyLines c.Values keysOrder := rfl

theorem keyLines_terminal (vals : StrMap) :
    keyLines vals ["HeightHighLimit".toList] =
      match mapGet vals "HeightHighLimit".toList with
      | some v => ["HeightHighLimit".toList ++ ['='] ++ v]
      | none => [] := by
  unfold keyLines
  cases h : mapGet vals "HeightHighLimit".toList with
  | none => simp only [List.filterMap_cons, h, Option.map_none', List.filterMap_nil]
  | some v => simp only [List.filterMap_cons, h, Option.map_some', List.filterMap_nil]

theorem scanLoop_echoed_block {presetBlocks : List (Str × PresetBlock)} {p : Str}
    {c : PresetBlock} (hc : EchoBlock presetBlocks p c) :
    scanLoop presetBlocks p ScanState.init (specBlockLines c.Header (mapGet c.Values)) =
      match mapGet c.Values "HeightHighLimit".toList with
      | none => (⟨true, ⟨c.Header, readBack c.Values⟩⟩, [])
      | some _ => (⟨false, ⟨c.Header, readBack c.Values⟩⟩, writeBlockToFile c) := by
  have hrb := (echoBlock_readBack hc).2
  obtain ⟨h1, h2, h3, h4⟩ := hc
  have hsplit : keyLines c.Values keysOrder =
      keyLines c.Values keysOrder.dropLast ++ keyLines c.Values ["HeightHighLimit".toList] := by
    rw [← keyLines_append]
    exact congrArg (keyLines c.Values) keysOrder_split.1
  have hread : readBack c.Values =
      collectValues (collectValues [] (keyLines c.Values keysOrder.dropLast))
        (keyLines c.Values ["HeightHighLimit".toList]) := by
    unfold readBack
    rw [hsplit, collectValues_append]
  have hfirst := scanLoop_key_lines presetBlocks p c.Header c.Values keysOrder.dropLast
    keysOrder_split.2 (fun k hk => h4 k (keysOrder_split.2 k hk).1) []
  rw [specBlockLines_eq, scanLoop, scanStep_start _ _ _ _ h1, hsplit, scanLoop_append, hfirst]
  simp only [finalFlush, ScanState.init, Bool.false_eq_true, if_false, List.nil_append]
  rw [hread, keyLines_terminal]
  cases hv : mapGet c.Values "HeightHighLimit".toList with
  | none => simp [scanLoop, collectValues]
  | some v =>
    have hsafe := h4 _ (by decide) v hv
    obtain ⟨_, hs2, hs3, _⟩ := echoSafeValue_spec hsafe
    have hcv : ∀ acc, collectValues acc ["HeightHighLimit".toList ++ ['='] ++ v] =
        mapSet acc "HeightHighLimit".toList v := by
      intro acc
      have hline : "HeightHighLimit".toList ++ ['='] ++ v = "HeightHighLimit".toList ++ '=' :: v := by
        simp
      simp only [collectValues, List.foldl, hline,
        keyValueOf_key_line (by decide : "HeightHighLimit".toList ∈ keysOrder) hs2 hs3]
    simp only
    rw [scanLoop, scanStep_key_line _ _ _ _ (by decide) hsafe, if_pos rfl, hcv]
    simp only [scanLoop, List.append_nil]
    have hflush : flushBlock presetBlocks
        ⟨c.Header, mapSet (collectValues [] (keyLines c.Values keysOrder.dropLast))
          "HeightHighLimit".toList v⟩ = writeBlockToFile c := by
      rw [flushBlock_of_no_entry (by exact h2), ← hrb, hread, keyLines_terminal, hv]
      simp only
      rw [hcv]
    rw [hflush]

theorem writtenLines_echoed_block {presetBlocks : List (Str × PresetBlock)} {p : Str}
    {c : PresetBlock} (hc : EchoBlock presetBlocks p c) (ws : List Str) :
    writtenLines (writeBlockToFile c ++ ws) =
      specBlockLines c.Header (mapGet c.Values) ++ writtenLines ws := by
  rw [writeBlockToFile_eq]
  apply writtenLines_lineWrites_append
  exact specBlockLines_no_newline hc.2.2.1
    (fun k hk v hv => (echoSafeValue_spec (hc.2.2.2 k hk v hv)).1)

theorem runFrom_echoed_open {presetBlocks : List (Str × PresetBlock)} {p : Str}
    {c : PresetBlock} (hc : EchoBlock presetBlocks p c)
    (hopen : mapGet c.Values "HeightHighLimit".toList = none) (more : List Str) :
    runFrom presetBlocks p ScanState.init (specBlockLines c.Header (mapGet c.Values) ++ more) =
      runFrom presetBlocks p ⟨true, ⟨c.Header, readBack c.Values⟩⟩ more := by
  rw [runFrom_append, scanLoop_echoed_block hc, hopen]
  rfl

theorem runFrom_echoed_closed {presetBlocks : List (Str × PresetBlock)} {p : Str}
    {c : PresetBlock} (hc : EchoBlock presetBlocks p c) {v : Str}
    (hclosed : mapGet c.Values "HeightHighLimit".toList = some v) (more : List Str) :
    runFrom presetBlocks p ScanState.init (specBlockLines c.Header (mapGet c.Values) ++ more) =
      writeBlockToFile c ++ runFrom presetBlocks p ScanState.init more := by
  rw [runFrom_append, scanLoop_echoed_block hc, hclosed]
  simp only
  rw [runFrom_closed presetBlocks p _ ScanState.init.currentBlock]
  rfl

theorem flushBlock_head {presetBlocks : List (Str × PresetBlock)}
    (hwf : ∀ h e, mapGet presetBlocks h = some e → e.Header = h) (d : PresetBlock) :
    ∃ t, flushBlock presetBlocks d = (d.Header ++ crlf) :: t := by
  cases he : mapGet presetBlocks d.Header with
  | none =>
    rw [flushBlock_of_no_entry he]
    exact ⟨_, rfl⟩
  | some e =>
    rw [flushBlock_of_entry he, ← hwf _ _ he]
    exact ⟨_, rfl⟩

theorem runFrom_open_starts {presetBlocks : List (Str × PresetBlock)} (p : Str)
    (hwf : ∀ h e, mapGet presetBlocks h = some e → e.Header = h) (ls : List Str)
    (d : PresetBlock) :
    ∃ t, runFrom presetBlocks p ⟨true, d⟩ ls = (d.Header ++ crlf) :: t := by
  induction ls generalizing d with
  | nil =>
    obtain ⟨t, ht⟩ := flushBlock_head hwf d
    exact ⟨t, by simp [runFrom_nil, finalFlush, ht]⟩
  | cons l ls ih =>
    rw [runFrom_cons]
    by_cases h : isBlockStart p l = true
    · rw [scanStep_start _ _ _ _ h]
      obtain ⟨t, ht⟩ := flushBlock_head hwf d
      exact ⟨t ++ runFrom presetBlocks p ⟨true, ⟨l, []⟩⟩ ls, by simp [finalFlush, ht]⟩
    · have h' : isBlockStart p l = false := by simpa using h
      rw [scanStep_open _ _ _ _ h']
      cases hkv : (if (FindStringSubmatch l).isSome then keyValueOf l else none) with
      | none =>
        obtain ⟨t, ht⟩ := ih d
        exact ⟨t, by simpa using ht⟩
      | some kv =>
        obtain ⟨key, value⟩ := kv
        by_cases hk : key = "HeightHighLimit".toList
        · simp only [if_pos hk]
          obtain ⟨t, ht⟩ := flushBlock_head hwf ⟨d.Header, mapSet d.Values key value⟩
          exact ⟨t ++ runFrom presetBlocks p ⟨false, ⟨d.Header, mapSet d.Values key value⟩⟩ ls,
            by rw [ht]; simp⟩
        · simp only [if_neg hk, List.nil_append]
          exact ih ⟨d.Header, mapSet d.Values key value⟩

theorem openBlock_set {p : Str} {c : PresetBlock}
    (hc : OpenBlock p c) {l k v : Str} (hl : '\n' ∉ l)
    (hm : (FindStringSubmatch l).isSome = true) (hkv : keyValueOf l = some (k, v)) :
    OpenBlock p ⟨c.Header, mapSet c.Values k v⟩ := by
  obtain ⟨h1, h3, h4⟩ := hc
  refine ⟨h1, h3, ?_⟩
  intro k' hk' v' hv'
  simp only [mapGet_mapSet] at hv'
  by_cases hk : k = k'
  · rw [if_pos hk] at hv'
    cases hv'
    subst hk
    obtain ⟨g1, g2, g3⟩ := keyValueOf_value_good hkv hk' hm
    have g0 : '\n' ∉ v := fun hmem => hl ((keyValueOf_mem hkv).2 _ hmem)
    simp [echoSafeValue, g0, g1, g2, g3]
  · rw [if_neg hk] at hv'
    exact h4 k' hk' v' hv'

/-! ## A second run over a block written from a preset entry -/

theorem append_sep_left {k a v b : Str} (hk : '=' ∉ k) (ha : '=' ∉ a)
    (h : k ++ '=' :: v = a ++ '=' :: b) : k = a := by
  induction k generalizing a with
  | nil =>
    cases a with
    | nil => rfl
    | cons x xs =>
      simp only [List.nil_append, List.cons_append, List.cons.injEq] at h
      exact absurd (by rw [← h.1]; exact List.mem_cons_self _ _) ha
  | cons c cs ih =>
    cases a with
    | nil =>
      simp only [List.nil_append, List.cons_append, List.cons.injEq] at h
      exact absurd (by rw [h.1]; exact List.mem_cons_self _ _) hk
    | cons x xs =>
      simp only [List.cons_append, List.cons.injEq] at h
      rw [h.1, ih (fun hm => hk (List.mem_cons_of_mem _ hm))
        (fun hm => ha (List.mem_cons_of_mem _ hm)) h.2]

theorem keyValueOf_key_eq {k v key value : Str} (hk : k ∈ keysOrder)
    (h : keyValueOf (k ++ '=' :: v) = some (key, value)) : key = k := by
  obtain ⟨a, b, hl, ha, _, hka, _⟩ := keyValueOf_parts h
  obtain ⟨hkc, hkt⟩ := keysOrder_chars k hk
  have h0 : '=' ∉ k := fun hm => (hkc _ hm).2.2 rfl
  rw [hka, ← append_sep_left h0 ha hl, hkt]

theorem scanStep_entry_key_line (presetBlocks : List (Str × PresetBlock)) (p hdr : Str)
    (acc : StrMap) {k : Str} (v : Str) (hk : k ∈ keysOrder) :
    ∃ acc', scanStep presetBlocks p ⟨true, ⟨hdr, acc⟩⟩ (k ++ ['='] ++ v) =
      if k = "HeightHighLimit".toList ∧
          ((FindStringSubmatch (k ++ '=' :: v)).isSome &&
            (keyValueOf (k ++ '=' :: v)).isSome) = true then
        (⟨false, ⟨hdr, acc'⟩⟩, flushBlock presetBlocks ⟨hdr, acc'⟩)
      else (⟨true, ⟨hdr, acc'⟩⟩, []) := by
  have hline : k ++ ['='] ++ v = k ++ '=' :: v := by simp
  rw [scanStep_open _ _ _ _ (isBlockStart_key_line p v hk), hline]
  cases hm : (FindStringSubmatch (k ++ '=' :: v)).isSome with
  | false =>
    refine ⟨acc, ?_⟩
    rw [if_neg (by simp), if_neg (by simp)]
  | true =>
    rw [if_pos rfl]
    cases hkv : keyValueOf (k ++ '=' :: v) with
    | none =>
      refine ⟨acc, ?_⟩
      rw [if_neg (by simp)]
    | some kv =>
      obtain ⟨key, value⟩ := kv
      have hkey := keyValueOf_key_eq hk hkv
      subst hkey
      refine ⟨mapSet acc key value, ?_⟩
      by_cases hterm : key = "HeightHighLimit".toList
      · rw [if_pos ⟨hterm, rfl⟩]
        simp only [if_pos hterm]
      · rw [if_neg (fun h => hterm h.1)]
        simp only [if_neg hterm]

theorem scanLoop_entry_key_lines (presetBlocks : List (Str × PresetBlock)) (p hdr : Str)
    (vals : StrMap) (ks : List Str)
    (hks : ∀ k ∈ ks, k ∈ keysOrder ∧ k ≠ "HeightHighLimit".toList) (acc : StrMap) :
    ∃ acc', scanLoop presetBlocks p ⟨true, ⟨hdr, acc⟩⟩ (keyLines vals ks) =
      (⟨true, ⟨hdr, acc'⟩⟩, []) := by
  induction ks generalizing acc with
  | nil => exact ⟨acc, by simp [keyLines, scanLoop]⟩
  | cons k ks ih =>
    have hks' : ∀ x ∈ ks, x ∈ keysOrder ∧ x ≠ "HeightHighLimit".toList :=
      fun x hx => hks x (by simp [hx])
    cases hv : mapGet vals k with
    | none =>
      have e : keyLines vals (k :: ks) = keyLines vals ks := by
        simp [keyLines, List.filterMap_cons, hv]
      rw [e]
      exact ih hks' acc
    | some v =>
      have e : keyLines vals (k :: ks) = (k ++ ['='] ++ v) :: keyLines vals ks := by
        simp [keyLines, List.filterMap_cons, hv]
      obtain ⟨acc1, h1⟩ := scanStep_entry_key_line presetBlocks p hdr acc v (hks k (by simp)).1
      rw [if_neg (fun h => (hks k (by simp)).2 h.1)] at h1
      obtain ⟨acc2, h2⟩ := ih hks' acc1
      refine ⟨acc2, ?_⟩
      rw [e, scanLoop, h1]
      simp only [List.nil_append]
      rw [h2]

theorem scanLoop_entry_block (presetBlocks : List (Str × PresetBlock)) (p : Str)
    {e : PresetBlock} (hstart : isBlockStart p e.Header = true) :
    ∃ acc', scanLoop presetBlocks p ScanState.init (specBlockLines e.Header (mapGet e.Values)) =
      if rereadCloses e = true then
        (⟨false, ⟨e.Header, acc'⟩⟩, flushBlock presetBlocks ⟨e.Header, acc'⟩)
      else (⟨true, ⟨e.Header, acc'⟩⟩, []) := by
  have hsplit : keyLines e.Values keysOrder =
      keyLines e.Values keysOrder.dropLast ++ keyLines e.Values ["HeightHighLimit".toList] := by
    rw [← keyLines_append]
    exact congrArg (keyLines e.Values) keysOrder_split.1
  obtain ⟨acc1, h1⟩ := scanLoop_entry_key_lines presetBlocks p e.Header e.Values
    keysOrder.dropLast keysOrder_split.2 []
  rw [specBlockLines_eq, scanLoop, scanStep_start _ _ _ _ hstart, hsplit, scanLoop_append, h1]
  simp only [finalFlush, ScanState.init, Bool.false_eq_true, if_false, List.nil_append]
  rw [keyLines_terminal]
  unfold rereadCloses
  cases hv : mapGet e.Values "HeightHighLimit".toList with
  | none =>
    refine ⟨acc1, ?_⟩
    simp [scanLoop]
  | some v =>
    obtain ⟨acc2, h2⟩ := scanStep_entry_key_line presetBlocks p e.Header acc1 v
      (by decide : "HeightHighLimit".toList ∈ keysOrder)
    refine ⟨acc2, ?_⟩
    by_cases hc : ((FindStringSubmatch ("HeightHighLimit".toList ++ '=' :: v)).isSome &&
        (keyValueOf ("HeightHighLimit".toList ++ '=' :: v)).isSome) = true
    · rw [if_pos ⟨rfl, hc⟩] at h2
      simp only [scanLoop, h2, List.append_nil]
      rw [if_pos hc]
    · rw [if_neg (fun h => hc h.2)] at h2
      simp only [scanLoop, h2, List.append_nil]
      rw [if_neg hc]

theorem reread_flush {presetBlocks : List (Str × PresetBlock)} {p : Str}
    (hwf : ∀ h e, mapGet presetBlocks h = some e →
      e.Header = h ∧ ∀ k v, mapGet e.Values k = some v → '\n' ∉ v)
    {c : PresetBlock} (hc : OpenBlock p c) (ws : List Str) :
    runFrom presetBlocks p ScanState.init (writtenLines (flushBlock presetBlocks c ++ ws)) =
        flushBlock presetBlocks c ++ runFrom presetBlocks p ScanState.init (writtenLines ws) ∨
    ∃ b2, flushBlock presetBlocks b2 = flushBlock presetBlocks c ∧
      runFrom presetBlocks p ScanState.init (writtenLines (flushBlock presetBlocks c ++ ws)) =
        runFrom presetBlocks p ⟨true, b2⟩ (writtenLines ws) ∧
      (staleAfter presetBlocks c.Header = true ∨
        mapGet c.Values "HeightHighLimit".toList = none) := by
  cases he : mapGet presetBlocks c.Header with
  | none =>
    have hecho : EchoBlock presetBlocks p c := ⟨hc.1, he, hc.2.1, hc.2.2⟩
    rw [flushBlock_of_no_entry he, writtenLines_echoed_block hecho]
    cases hv : mapGet c.Values "HeightHighLimit".toList with
    | none =>
      right
      refine ⟨⟨c.Header, readBack c.Values⟩, ?_, runFrom_echoed_open hecho hv _, Or.inr rfl⟩
      rw [flushBlock_of_no_entry (echoBlock_readBack hecho).1.2.1, (echoBlock_readBack hecho).2]
    | some v =>
      left
      exact runFrom_echoed_closed hecho hv _
  | some e =>
    have hhead : e.Header = c.Header := (hwf _ _ he).1
    have hstart : isBlockStart p e.Header = true := by rw [hhead]; exact hc.1
    have hnl : ∀ l ∈ specBlockLines e.Header (mapGet e.Values), '\n' ∉ l :=
      specBlockLines_no_newline (by rw [hhead]; exact hc.2.1)
        (fun k _ v hv => (hwf _ _ he).2 k v hv)
    have hentry : ∀ acc, flushBlock presetBlocks ⟨e.Header, acc⟩ = writeBlockToFile e := by
      intro acc
      exact flushBlock_of_entry (by rw [hhead]; exact he)
    obtain ⟨acc', hloop⟩ := scanLoop_entry_block presetBlocks p hstart
    rw [flushBlock_of_entry he, writeBlockToFile_eq, writtenLines_lineWrites_append _ _ hnl,
      runFrom_append, hloop]
    cases hcl : rereadCloses e with
    | true =>
      left
      simp only [if_true]
      rw [hentry, writeBlockToFile_eq,
        runFrom_closed presetBlocks p _ ScanState.init.currentBlock]
      rfl
    | false =>
      right
      refine ⟨⟨e.Header, acc'⟩, ?_, ?_, Or.inl ?_⟩
      · rw [hentry, writeBlockToFile_eq]
      · simp
      · simp [staleAfter, he, hcl]

theorem runFrom_open_header (presetBlocks : List (Str × PresetBlock)) (p : Str)
    (b2 : PresetBlock) {h : Str} (hstart : isBlockStart p h = true) (ls : List Str) :
    runFrom presetBlocks p ⟨true, b2⟩ (h :: ls) =
      flushBlock presetBlocks b2 ++ runFrom presetBlocks p ScanState.init (h :: ls) := by
  rw [runFrom_cons, scanStep_start _ _ _ _ hstart, runFrom_init_start _ _ _ _ hstart]
  simp [finalFlush]

theorem rereadSafe_cons (presetBlocks : List (Str × PresetBlock)) (p : Str) (stale : Bool)
    (st : ScanState) (l : Str) (ls : List Str) :
    rereadSafe presetBlocks p stale st (l :: ls) =
      if isBlockStart p l = true then
        rereadSafe presetBlocks p false (scanStep presetBlocks p st l).1 ls
      else if st.inBlock = true then
        rereadSafe presetBlocks p
          (!(scanStep presetBlocks p st l).1.inBlock &&
            staleAfter presetBlocks st.currentBlock.Header)
          (scanStep presetBlocks p st l).1 ls
      else if (FindStringSubmatch l).isSome = true then
        (!stale && rereadSafe presetBlocks p stale (scanStep presetBlocks p st l).1 ls)
      else rereadSafe presetBlocks p stale (scanStep presetBlocks p st l).1 ls := rfl

theorem reread_continue {presetBlocks : List (Str × PresetBlock)} {p : Str}
    (hwf : ∀ h e, mapGet presetBlocks h = some e →
      e.Header = h ∧ ∀ k v, mapGet e.Values k = some v → '\n' ∉ v)
    {c : PresetBlock} (hc : OpenBlock p c) (rest : List Str)
    (hrest : runFrom presetBlocks p ScanState.init (writtenLines rest) = rest)
    (hhead : (staleAfter presetBlocks c.Header = true ∨
        mapGet c.Values "HeightHighLimit".toList = none) →
      rest = [] ∨ ∃ h t, rest = (h ++ crlf) :: t ∧ isBlockStart p h = true ∧ '\n' ∉ h) :
    runFrom presetBlocks p ScanState.init (writtenLines (flushBlock presetBlocks c ++ rest)) =
      flushBlock presetBlocks c ++ rest := by
  rcases reread_flush hwf hc rest with h | ⟨b2, hb2, hrun, hopen⟩
  · rw [h, hrest]
  · rw [hrun]
    rcases hhead hopen with hnil | ⟨h, t, ht, hstart, hnl⟩
    · subst hnil
      rw [writtenLines_nil, runFrom_nil]
      simp [finalFlush, hb2]
    · have hr := hrest
      rw [ht, writtenLines_line _ _ hnl] at hr ⊢
      rw [runFrom_open_header _ _ _ hstart, hr, hb2]

theorem runFrom_reread {presetBlocks : List (Str × PresetBlock)} (p : Str)
    (hwf : ∀ h e, mapGet presetBlocks h = some e →
      e.Header = h ∧ ∀ k v, mapGet e.Values k = some v → '\n' ∉ v)
    (doc : List Str) (hdoc : ∀ l ∈ doc, '\n' ∉ l) (stale : Bool) (st : ScanState)
    (hst : st.inBlock = true → OpenBlock p st.currentBlock ∧
      mapGet st.currentBlock.Values "HeightHighLimit".toList = none)
    (hsafe : rereadSafe presetBlocks p stale st doc = true) :
    runFrom presetBlocks p ScanState.init (writtenLines (runFrom presetBlocks p st doc)) =
        runFrom presetBlocks p st doc ∧
    (stale = true → st.inBlock = false →
      runFrom presetBlocks p st doc = [] ∨
      ∃ h t, runFrom presetBlocks p st doc = (h ++ crlf) :: t ∧ isBlockStart p h = true ∧
        '\n' ∉ h) := by
  have hwf1 : ∀ h e, mapGet presetBlocks h = some e → e.Header = h :=
    fun h e he => (hwf h e he).1
  induction doc generalizing stale st with
  | nil =>
    rw [runFrom_nil]
    obtain ⟨b, c⟩ := st
    cases b with
    | false =>
      simp [finalFlush, writtenLines_nil, runFrom_nil, ScanState.init]
    | true =>
      have hc : OpenBlock p c := (hst rfl).1
      refine ⟨?_, fun _ h => by cases h⟩
      simp only [finalFlush, if_true]
      have := reread_continue hwf hc [] (by simp [writtenLines_nil, runFrom_nil, finalFlush,
        ScanState.init]) (fun _ => Or.inl rfl)
      simpa using this
  | cons l ls ih =>
    have hl : '\n' ∉ l := hdoc l (by simp)
    have hls : ∀ x ∈ ls, '\n' ∉ x := fun x hx => hdoc x (by simp [hx])
    rw [rereadSafe_cons] at hsafe
    rw [runFrom_cons]
    by_cases h : isBlockStart p l = true
    · rw [if_pos h] at hsafe
      rw [scanStep_start _ _ _ _ h] at hsafe ⊢
      have hnew : OpenBlock p ⟨l, []⟩ := ⟨h, hl, by simp [mapGet]⟩
      have ih' := (ih hls false ⟨true, ⟨l, []⟩⟩ (fun _ => ⟨hnew, by simp [mapGet]⟩) hsafe).1
      obtain ⟨t, ht⟩ := runFrom_open_starts p hwf1 ls ⟨l, []⟩
      obtain ⟨b, c⟩ := st
      cases b with
      | false =>
        simp only [finalFlush, Bool.false_eq_true, if_false, List.nil_append]
        exact ⟨ih', fun _ _ => Or.inr ⟨l, t, ht, h, hl⟩⟩
      | true =>
        have hc : OpenBlock p c := (hst rfl).1
        refine ⟨?_, fun _ hb => by cases hb⟩
        simp only [finalFlush, if_true]
        exact reread_continue hwf hc _ ih' (fun _ => Or.inr ⟨l, t, ht, h, hl⟩)
    · have h' : isBlockStart p l = false := by simpa using h
      rw [if_neg h] at hsafe
      obtain ⟨b, c⟩ := st
      cases b with
      | false =>
        simp only [Bool.false_eq_true, if_false] at hsafe
        rw [scanStep_closed _ _ _ _ h'] at hsafe ⊢
        by_cases hm : (FindStringSubmatch l).isSome = true
        · rw [if_pos hm] at hsafe ⊢
          simp only [Bool.and_eq_true, Bool.not_eq_true'] at hsafe
          have ih' := (ih hls stale ⟨false, c⟩ (by simp) hsafe.2).1
          refine ⟨?_, fun hs _ => by rw [hsafe.1] at hs; cases hs⟩
          simp only [List.singleton_append]
          rw [writtenLines_line _ _ hl, runFrom_cons]
          have hstep : scanStep presetBlocks p ScanState.init l =
              (ScanState.init, [l ++ crlf]) := by
            have := scanStep_closed presetBlocks p ScanState.init.currentBlock l h'
            rw [if_pos hm] at this
            exact this
          rw [hstep]
          simp only [List.singleton_append]
          rw [ih']
        · rw [if_neg hm] at hsafe ⊢
          have ih' := ih hls stale ⟨false, c⟩ (by simp) hsafe
          simpa using ih'
      | true =>
        have hc : OpenBlock p c := (hst rfl).1
        have hopen : mapGet c.Values "HeightHighLimit".toList = none := (hst rfl).2
        simp only [if_true] at hsafe
        refine ⟨?_, fun _ hb => by cases hb⟩
        rw [scanStep_open _ _ _ _ h'] at hsafe ⊢
        cases hkv : (if (FindStringSubmatch l).isSome then keyValueOf l else none) with
        | none =>
          rw [hkv] at hsafe
          have ih' := (ih hls _ ⟨true, c⟩ (fun _ => ⟨hc, hopen⟩) hsafe).1
          simpa using ih'
        | some kv =>
          obtain ⟨key, value⟩ := kv
          rw [hkv] at hsafe
          have hm : (FindStringSubmatch l).isSome = true := by
            by_cases hm : (FindStringSubmatch l).isSome = true
            · exact hm
            · simp [hm] at hkv
          have hkv' : keyValueOf l = some (key, value) := by simpa [hm] using hkv
          have hnew := openBlock_set hc hl hm hkv'
          by_cases hk : key = "HeightHighLimit".toList
          · simp only [if_pos hk] at hsafe ⊢
            have ih' := ih hls _ ⟨false, ⟨c.Header, mapSet c.Values key value⟩⟩ (by simp) hsafe
            apply reread_continue hwf hnew _ ih'.1
            intro hcond
            have hstale : staleAfter presetBlocks c.Header = true := by
              rcases hcond with hs | hn
              · exact hs
              · simp only [mapGet_mapSet, if_pos hk] at hn
                cases hn
            apply ih'.2 _ rfl
            simp [hstale]
          · simp only [if_neg hk, List.nil_append] at hsafe ⊢
            refine (ih hls _ ⟨true, ⟨c.Header, mapSet c.Values key value⟩⟩ ?_ hsafe).1
            intro _
            refine ⟨hnew, ?_⟩
            simp only [mapGet_mapSet, if_neg hk]
            exact hopen

theorem rewriteLines_reread (presetLines doc : List Str) (p : Str)
    (hpreset : ∀ l ∈ presetLines, '\n' ∉ l) (hdoc : ∀ l ∈ doc, '\n' ∉ l)
    (hsafe : rereadSafe (ParsePresetBlocks presetLines) p false ScanState.init doc = true) :
    rewriteLines (ParsePresetBlocks presetLines) p
        (writtenLines (rewriteLines (ParsePresetBlocks presetLines) p doc)) =
      rewriteLines (ParsePresetBlocks presetLines) p doc := by
  simp only [rewriteLines_eq_runFrom]
  exact (@runFrom_reread (ParsePresetBlocks presetLines) p
    (fun h b hb => ⟨(parsePresetBlocks_entry_header hb).1,
      (parsePresetBlocks_entry_no_newline hpreset hb).2⟩)
    doc hdoc false ScanState.init (by simp [ScanState.init]) hsafe).1

/-! ## Two runs on a file system -/

set_option maxRecDepth 100000 in
theorem decodeByte_encodable_nat :
    ∀ n, n < 256 → n ≠ 0x98 → (encodeRune (decodeByte (UInt8.ofNat n))).isSome = true := by
  decide

theorem decodeWindows1251_encodable {bytes : List UInt8} (h : (0x98 : UInt8) ∉ bytes) :
    encodable (decodeWindows1251 bytes) = true := by
  rw [encodable_iff]
  intro c hc
  obtain ⟨b, hb, rfl⟩ := List.mem_map.mp hc
  have hof : UInt8.ofNat b.toNat = b := by
    apply UInt8.ext
    show (UInt8.ofNat b.toNat).toNat = b.toNat
    have hlt : b.toNat < 256 := b.toBitVec.isLt
    simp [UInt8.ofNat, UInt8.toNat, BitVec.ofNat, Fin.ofNat', Nat.mod_eq_of_lt hlt]
    exact b.toBitVec.isLt
  have hne : b.toNat ≠ 0x98 := by
    intro e
    apply h
    have hb' : b = (0x98 : UInt8) := by
      rw [← hof, e]
      rfl
    rw [← hb']
    exact hb
  have := decodeByte_encodable_nat b.toNat b.toBitVec.isLt hne
  rw [hof] at this
  exact this

theorem splitLines_mem {t l : Str} (h : l ∈ splitLines t) : '\n' ∉ l ∧ ∀ c ∈ l, c ∈ t := by
  induction t generalizing l with
  | nil => simp [splitLines] at h
  | cons c cs ih =>
    unfold splitLines at h
    by_cases hc : c = '\n'
    · rw [if_pos hc] at h
      rcases List.mem_cons.mp h with rfl | h
      · simp
      · exact ⟨(ih h).1, fun x hx => List.mem_cons_of_mem _ ((ih h).2 x hx)⟩
    · rw [if_neg hc] at h
      cases hs : splitLines cs with
      | nil =>
        rw [hs] at h
        have hl : l = [c] := by simpa using h
        subst hl
        refine ⟨?_, ?_⟩
        · intro hm
          have e : '\n' = c := by simpa using hm
          exact hc e.symm
        · intro x hx
          have : x = c := by simpa using hx
          simp [this]
      | cons l0 ls =>
        rw [hs] at h
        have h0 := @ih l0 (by rw [hs]; simp)
        rcases List.mem_cons.mp h with rfl | h
        · refine ⟨?_, ?_⟩
          · intro hm
            rcases List.mem_cons.mp hm with e | hm
            · exact hc e.symm
            · exact h0.1 hm
          · intro x hx
            rcases List.mem_cons.mp hx with e | hx
            · simp [e]
            · exact List.mem_cons_of_mem _ (h0.2 x hx)
        · have h1 := @ih l (by rw [hs]; exact List.mem_cons_of_mem _ h)
          exact ⟨h1.1, fun x hx => List.mem_cons_of_mem _ (h1.2 x hx)⟩

theorem dropCR_mem {s : Str} {c : Char} (h : c ∈ dropCR s) : c ∈ s := by
  unfold dropCR at h
  split at h
  · rename_i r hr
    have hs : s = r.reverse ++ ['\r'] := by
      have := congrArg List.reverse hr
      simpa using this
    rw [hs]
    exact List.mem_append_left _ h
  · exact h

theorem scanTokens_mem {ls : List Str} {l : Str} (h : l ∈ (scanTokens ls).1) :
    ∃ raw ∈ ls, l = dropCR raw := by
  induction ls with
  | nil => simp [scanTokens] at h
  | cons x xs ih =>
    unfold scanTokens at h
    by_cases hx : maxScanTokenSize ≤ utf8Len x
    · rw [if_pos hx] at h
      simp at h
    · rw [if_neg hx] at h
      rcases List.mem_cons.mp h with rfl | h
      · exact ⟨x, by simp, rfl⟩
      · obtain ⟨raw, hraw, e⟩ := ih h
        exact ⟨raw, List.mem_cons_of_mem _ hraw, e⟩

theorem scanTokens_complete {ls : List Str} (h : (scanTokens ls).2 = false) :
    (scanTokens ls).1 = ls.map dropCR := by
  induction ls with
  | nil => rfl
  | cons x xs ih =>
    unfold scanTokens at h ⊢
    by_cases hx : maxScanTokenSize ≤ utf8Len x
    · rw [if_pos hx] at h
      cases h
    · rw [if_neg hx] at h ⊢
      simp only [List.map_cons]
      rw [ih h]

theorem ScanLines_mem {t l : Str} (h : l ∈ (ScanLines t).1) : '\n' ∉ l ∧ ∀ c ∈ l, c ∈ t := by
  obtain ⟨raw, hraw, rfl⟩ := scanTokens_mem h
  have := splitLines_mem hraw
  exact ⟨fun hm => this.1 (dropCR_mem hm), fun c hc => this.2 c (dropCR_mem hc)⟩

theorem ScanLines_complete {t : Str} (h : (ScanLines t).2 = false) :
    (ScanLines t).1 = textLines t :=
  scanTokens_complete h

theorem ScanLines_encodable {t l : Str} (ht : encodable t = true) (h : l ∈ (ScanLines t).1) :
    encodable l = true :=
  encodable_of_subset (ScanLines_mem h).2 ht

theorem parsePresetBlocksFile_eq (fs : FileSystem) (pr : Str) :
    ∃ presetLines, ParsePresetBlocksFile fs pr = ParsePresetBlocks presetLines ∧
      (∀ l ∈ presetLines, '\n' ∉ l) ∧
      ((∀ b ∈ fs pr, (0x98 : UInt8) ∉ b) → ∀ l ∈ presetLines, encodable l = true) := by
  unfold ParsePresetBlocksFile
  cases hb : fs pr with
  | none => exact ⟨[], rfl, by simp, by simp⟩
  | some b =>
    refine ⟨(ScanLines (decodeWindows1251 b)).1, rfl, fun l hl => (ScanLines_mem hl).1, ?_⟩
    intro henc l hl
    exact ScanLines_encodable (decodeWindows1251_encodable (henc b rfl)) hl

theorem parsePresetBlocksFile_congr {fs fs' : FileSystem} {pr : Str} (h : fs' pr = fs pr) :
    ParsePresetBlocksFile fs' pr = ParsePresetBlocksFile fs pr := by
  unfold ParsePresetBlocksFile
  rw [h]

theorem replaceBlocksInIni_noFaults (fs : FileSystem) (s pr p : Str) (content : List UInt8)
    (hs : fs s = some content) :
    ((ScanLines (decodeWindows1251 content)).2 = true →
      (ReplaceBlocksInIni noFaults fs s pr p).2 s = some content) ∧
    ((ScanLines (decodeWindows1251 content)).2 = false →
      (ReplaceBlocksInIni noFaults fs s pr p).2 s =
        some (fileBytes (rewriteLines (ParsePresetBlocksFile fs pr) p
          (ScanLines (decodeWindows1251 content)).1))) ∧
    (pr ≠ s → pr ≠ s ++ ".tmp".toList → (ReplaceBlocksInIni noFaults fs s pr p).2 pr = fs pr) := by
  have hne := session_ne_temp s
  have hne2 := temp_path_ne s
  refine ⟨fun hlong => ?_, fun hlong => ?_, fun h1 h2 => ?_⟩
  · simp [ReplaceBlocksInIni, noFaults, hs, hlong, FileSystem.write, hne]
  · simp [ReplaceBlocksInIni, noFaults, hs, hlong, FileSystem.write, FileSystem.remove,
      FileSystem.rename, hne, hne2]
  · have h2' : pr ≠ s ++ ['.', 't', 'm', 'p'] := h2
    cases hlong : (ScanLines (decodeWindows1251 content)).2 with
    | true => simp [ReplaceBlocksInIni, noFaults, hs, hlong, FileSystem.write, h2']
    | false =>
      simp [ReplaceBlocksInIni, noFaults, hs, hlong, FileSystem.write, FileSystem.remove,
        FileSystem.rename, hne, hne2, h1, h2']

/-- C4 as stated fails, in two ways.  In the first file system the preset gives
slot 3 of `Proj1` the single value `VerticalMask=MaterialPairSlot1` and the
session file is the header line, `HeightHighLimit=MaterialPairSlot1`,
`xMaterialPairSlot5`: the first run leaves the preset block and then the last
line; the second run finds no terminal key in the block, takes the last line
into it, and leaves the preset block only.  In the second file system the
preset file is empty and the session file is the header line and
`Probability=`, byte 0x98, `MaterialPairSlot1`: the first run leaves the
header line and `Probability=` without line end (the write is cut at the
character the byte decodes to), the second run leaves the header line only. -/
theorem replaceBlocksInIni_second_run_differs :
    (((ReplaceBlocksInIni noFaults
        (twoFileSystem (utf8Bytes (renderLines closedBlockSession))
          (utf8Bytes (renderLines openEndedPreset)))
        "user.ini".toList "preset.txt".toList "Proj1".toList).2 "user.ini".toList).map
        decodeWindows1251 =
      some (renderLines [proj1Slot3, "VerticalMask=MaterialPairSlot1".toList,
        "xMaterialPairSlot5".toList]) ∧
    ((ReplaceBlocksInIni noFaults
        (ReplaceBlocksInIni noFaults
          (twoFileSystem (utf8Bytes (renderLines closedBlockSession))
            (utf8Bytes (renderLines openEndedPreset)))
          "user.ini".toList "preset.txt".toList "Proj1".toList).2
        "user.ini".toList "preset.txt".toList "Proj1".toList).2 "user.ini".toList).map
        decodeWindows1251 =
      some (renderLines [proj1Slot3, "VerticalMask=MaterialPairSlot1".toList])) ∧
    (((ReplaceBlocksInIni noFaults (twoFileSystem undefinedByteSession [])
        "user.ini".toList "preset.txt".toList "Proj1".toList).2 "user.ini".toList).map
        decodeWindows1251 =
      some (proj1Slot3 ++ crlf ++ "Probability=".toList) ∧
    ((ReplaceBlocksInIni noFaults
        (ReplaceBlocksInIni noFaults (twoFileSystem undefinedByteSession [])
          "user.ini".toList "preset.txt".toList "Proj1".toList).2
        "user.ini".toList "preset.txt".toList "Proj1".toList).2 "user.ini".toList).map
        decodeWindows1251 =
      some (proj1Slot3 ++ crlf)) := by
  decide

/-- C4 amended: let the session file exist and the preset path differ from the
session path and from the path of the temporary file.  If every write of the
first run holds only characters of the Windows-1251 repertoire, and in the
first run no line is copied verbatim between a terminal key line that closes a
block replaced from a preset entry without readable terminal key (no
`HeightHighLimit` value whose line holds a slot match) and the next recognised
header line, then a second run, with the same preset and project name and like
the first without failing system call, leaves the session file byte for byte
as the first run left it. -/
theorem replaceBlocksInIni_twice (fs : FileSystem) (s pr p : Str) (content : List UInt8)
    (hs : fs s = some content) (hpr : pr ≠ s) (hpr2 : pr ≠ s ++ ".tmp".toList)
    (hwrites : ∀ w ∈ rewriteLines (ParsePresetBlocksFile fs pr) p
      (ScanLines (decodeWindows1251 content)).1, encodable w = true)
    (hsafe : rereadSafe (ParsePresetBlocksFile fs pr) p false ScanState.init
      (ScanLines (decodeWindows1251 content)).1 = true) :
    (ReplaceBlocksInIni noFaults (ReplaceBlocksInIni noFaults fs s pr p).2 s pr p).2 s =
      (ReplaceBlocksInIni noFaults fs s pr p).2 s := by
  obtain ⟨presetLines, htbl, hnl, _⟩ := parsePresetBlocksFile_eq fs pr
  obtain ⟨h1a, h1b, h1c⟩ := replaceBlocksInIni_noFaults fs s pr p content hs
  have hpreset := h1c hpr hpr2
  have htbl2 := @parsePresetBlocksFile_congr fs (ReplaceBlocksInIni noFaults fs s pr p).2 pr hpreset
  cases hlong : (ScanLines (decodeWindows1251 content)).2 with
  | true =>
    have hf1 := h1a hlong
    rw [(replaceBlocksInIni_noFaults _ s pr p content hf1).1 hlong, hf1]
  | false =>
    have hf1 := h1b hlong
    rw [htbl] at hf1 hsafe hwrites
    have hdec := decode_fileBytes hwrites
    obtain ⟨h2a, h2b, _⟩ := replaceBlocksInIni_noFaults _ s pr p _ hf1
    rw [hf1]
    cases hlong2 : (ScanLines (decodeWindows1251 (fileBytes (rewriteLines
        (ParsePresetBlocks presetLines) p (ScanLines (decodeWindows1251 content)).1)))).2 with
    | true => exact h2a hlong2
    | false =>
      rw [h2b hlong2, htbl2, htbl, ScanLines_complete hlong2, hdec]
      have := rewriteLines_reread presetLines (ScanLines (decodeWindows1251 content)).1 p hnl
        (fun l hl => (ScanLines_mem hl).1) hsafe
      unfold writtenLines at this
      rw [this]

/-- The amended C4 at the scenario of C2: the session file holds the block of
slot 3 of `Proj1` with body `HeightHighLimit=5`, the preset file the entry
`VerticalMask=1`, `HeightHighLimit=9`.  The first run replaces the block from
the preset, and the second run leaves the file as the first left it. -/
theorem replaceBlocksInIni_twice_witness :
    ((ReplaceBlocksInIni noFaults
        (twoFileSystem (utf8Bytes (renderLines [proj1Slot3, "HeightHighLimit=5".toList]))
          (utf8Bytes (renderLines proj1Preset)))
        "user.ini".toList "preset.txt".toList "Proj1".toList).2 "user.ini".toList).map
        decodeWindows1251 =
      some (renderLines [proj1Slot3, "VerticalMask=1".toList, "HeightHighLimit=9".toList]) ∧
    (ReplaceBlocksInIni noFaults
        (ReplaceBlocksInIni noFaults
          (twoFileSystem (utf8Bytes (renderLines [proj1Slot3, "HeightHighLimit=5".toList]))
            (utf8Bytes (renderLines proj1Preset)))
          "user.ini".toList "preset.txt".toList "Proj1".toList).2
        "user.ini".toList "preset.txt".toList "Proj1".toList).2 "user.ini".toList =
      (ReplaceBlocksInIni noFaults
        (twoFileSystem (utf8Bytes (renderLines [proj1Slot3, "HeightHighLimit=5".toList]))
          (utf8Bytes (renderLines proj1Preset)))
        "user.ini".toList "preset.txt".toList "Proj1".toList).2 "user.ini".toList :=
  ⟨by decide,
    replaceBlocksInIni_twice
      (twoFileSystem (utf8Bytes (renderLines [proj1Slot3, "HeightHighLimit=5".toList]))
        (utf8Bytes (renderLines proj1Preset)))
      "user.ini".toList "preset.txt".toList "Proj1".toList
      (utf8Bytes (renderLines [proj1Slot3, "HeightHighLimit=5".toList]))
      (by decide) (by decide) (by decide) (by decide) (by decide)⟩

end MaterialBrushChanger
